import Mathlib

/-!
Verification of the schema-driven object-JSON marshalling engine of the
xm4p repository (`xmatters/base.py`, with the concrete entity schemas of
`xmatters/common.py`, `xmatters/recipients.py` and `xmatters/events.py`).

The development is a shallow embedding of the Python source:

* `JValue` models the raw decoded-JSON value tree produced by `json.loads`
  and consumed by `json.dumps`.
* `renderJ` models `json.dumps(..., separators=(',', ':'))` (the compact
  form used by `XmattersBase.json`), including CPython's default
  `ensure_ascii` string escaping.
* `pVal` models `json.loads` on such compact documents (the engine both
  produces and, in the repository's tests, consumes compact text).
* `RValue` models the Python runtime values an instance attribute can hold,
  `Schema` the per-class declaration quadruple (`_arg_names`, `_attr_names`,
  `_attr_types`, `_json_names`), and the `construct*` functions model
  `XmattersBase.__init__` with its three modes, `_setattr` coercion,
  `__confirm_required_args`, plus `XmattersList.from_json_obj` and
  `RecipientList._get_real_class`.

Machine integers do not occur (Python ints are unbounded); fallible code
returns `Except XErr` where `XErr` enumerates the Python exceptions the
source can raise.
-/

namespace Xm

/-- Raw decoded-JSON value tree: the values `json.loads` produces and
`json.dumps` consumes (floats never occur in this engine's schemas and are
not modelled). -/
inductive JValue where
  | null : JValue
  | bool : Bool → JValue
  | int : Int → JValue
  | str : String → JValue
  | arr : List JValue → JValue
  | obj : List (String × JValue) → JValue

/-- Decimal digit character for a value below ten, as CPython prints it. -/
def digitChar (n : Nat) : Char := Char.ofNat (48 + n)

/-- Decimal rendering of a natural number, most significant digit first,
with explicit fuel so the definition is structural (the fuel is always an
upper bound on the number, see `natChars`). -/
def natCharsAux : Nat → Nat → List Char
  | 0, _ => []
  | fuel + 1, n =>
    if n < 10 then [digitChar n]
    else natCharsAux fuel (n / 10) ++ [digitChar (n % 10)]

/-- Decimal rendering of a natural number, as `json.dumps` prints it. -/
def natChars (n : Nat) : List Char := natCharsAux (n + 1) n

/-- Decimal rendering of a Python int, as `json.dumps` prints it. -/
def intChars (n : Int) : List Char :=
  if n < 0 then '-' :: natChars n.natAbs else natChars n.natAbs

/-- Hexadecimal digit character (lowercase), as CPython's `\uXXXX` escapes
use. -/
def hexChar (n : Nat) : Char :=
  if n < 10 then Char.ofNat (48 + n) else Char.ofNat (87 + n)

/-- Four-digit lowercase hexadecimal rendering of a code unit below
`0x10000`, as in a `\uXXXX` escape. -/
def hex4 (n : Nat) : List Char :=
  [hexChar (n / 4096 % 16), hexChar (n / 256 % 16),
   hexChar (n / 16 % 16), hexChar (n % 16)]

/-- CPython `json.dumps` default (`ensure_ascii=True`) escaping of one
character: printable ASCII other than quote and backslash is literal, the
five short escapes are used where they exist, everything else becomes
`\uXXXX`, with a surrogate pair for characters beyond the basic plane. -/
def escapeChar (c : Char) : List Char :=
  if c = '"' then ['\\', '"']
  else if c = '\\' then ['\\', '\\']
  else if c = Char.ofNat 8 then ['\\', 'b']
  else if c = Char.ofNat 12 then ['\\', 'f']
  else if c = '\n' then ['\\', 'n']
  else if c = Char.ofNat 13 then ['\\', 'r']
  else if c = '\t' then ['\\', 't']
  else if 32 ≤ c.toNat ∧ c.toNat ≤ 126 then [c]
  else if c.toNat < 65536 then '\\' :: 'u' :: hex4 c.toNat
  else
    '\\' :: 'u' :: hex4 (55296 + (c.toNat - 65536) / 1024) ++
    '\\' :: 'u' :: hex4 (56320 + (c.toNat - 65536) % 1024)

/-- Escaped rendering of a string body (no surrounding quotes). -/
def escapeChars : List Char → List Char
  | [] => []
  | c :: cs => escapeChar c ++ escapeChars cs

/-- JSON string literal for `s`, quotes included, as `json.dumps` emits. -/
def strChars (s : String) : List Char :=
  '"' :: escapeChars s.data ++ ['"']

mutual

/-- Compact rendering of a JSON value: `json.dumps(v, separators=(',', ':'))`.
No whitespace is ever emitted. -/
def renderJ : JValue → List Char
  | .null => "null".data
  | .bool true => "true".data
  | .bool false => "false".data
  | .int n => intChars n
  | .str s => strChars s
  | .arr [] => ['[', ']']
  | .arr (x :: xs) => '[' :: (renderJ x ++ renderArr xs) ++ [']']
  | .obj [] => ['\x7b', '\x7d']
  | .obj (p :: ps) => '\x7b' :: (renderMember p ++ renderObj ps) ++ ['\x7d']

/-- Remaining array elements, each preceded by the `','` separator. -/
def renderArr : List JValue → List Char
  | [] => []
  | x :: xs => ',' :: renderJ x ++ renderArr xs

/-- One object member: rendered key, `':'` separator, rendered value. -/
def renderMember : String × JValue → List Char
  | (k, v) => strChars k ++ ':' :: renderJ v

/-- Remaining object members, each preceded by the `','` separator. -/
def renderObj : List (String × JValue) → List Char
  | [] => []
  | p :: ps => ',' :: renderMember p ++ renderObj ps

end

/-- The compact JSON text of a value, as a string. -/
def jsonDumps (v : JValue) : String := ⟨renderJ v⟩

/-- Association-list lookup with Python-dict semantics on the lists this
development builds (they carry at most one entry per key). -/
def alook : List (String × α) → String → Option α
  | [], _ => none
  | (k, v) :: ps, key => if k = key then some v else alook ps key

/-- Python `d[k] = v`: replace the value at an existing key, keeping its
position, or append a fresh key at the end. -/
def pyUpd : List (String × α) → String → α → List (String × α)
  | [], key, v => [(key, v)]
  | (k, w) :: ps, key, v =>
    if k = key then (k, v) :: ps else (k, w) :: pyUpd ps key v

/-- Python `dict(pairs)`: insert pairs left to right, so a repeated key
keeps its first position and its last value. -/
def pyDict (ps : List (String × α)) : List (String × α) :=
  ps.foldl (fun d p => pyUpd d p.1 p.2) []

/-- Numeric value of a hexadecimal digit character, if it is one. -/
def hexVal (c : Char) : Option Nat :=
  if 48 ≤ c.toNat ∧ c.toNat ≤ 57 then some (c.toNat - 48)
  else if 97 ≤ c.toNat ∧ c.toNat ≤ 102 then some (c.toNat - 87)
  else if 65 ≤ c.toNat ∧ c.toNat ≤ 70 then some (c.toNat - 55)
  else none

/-- The numeric value of four hexadecimal digit characters, if they all
are ones. -/
def hex16 (h1 h2 h3 h4 : Char) : Option Nat :=
  match hexVal h1, hexVal h2, hexVal h3, hexVal h4 with
  | some a, some b, some c, some d => some (((a * 16 + b) * 16 + c) * 16 + d)
  | _, _, _, _ => Option.none

/-- One escape sequence of a JSON string literal, after the backslash: the
character it denotes and the remaining input.  Handles the short escapes
and `\uXXXX`, combining a high surrogate with the following `\uXXXX` low
surrogate.  A lone surrogate (which CPython would keep as a lone surrogate
code unit) is refused, since the engine never emits one. -/
def pEsc : List Char → Option (Char × List Char)
  | '"' :: rest => some ('"', rest)
  | '\\' :: rest => some ('\\', rest)
  | '/' :: rest => some ('/', rest)
  | 'b' :: rest => some (Char.ofNat 8, rest)
  | 'f' :: rest => some (Char.ofNat 12, rest)
  | 'n' :: rest => some ('\n', rest)
  | 'r' :: rest => some (Char.ofNat 13, rest)
  | 't' :: rest => some ('\t', rest)
  | 'u' :: h1 :: h2 :: h3 :: h4 :: rest =>
    match hex16 h1 h2 h3 h4 with
    | some u =>
      if 55296 ≤ u ∧ u ≤ 56319 then
        match rest with
        | '\\' :: 'u' :: g1 :: g2 :: g3 :: g4 :: rest2 =>
          match hex16 g1 g2 g3 g4 with
          | some u2 =>
            if 56320 ≤ u2 ∧ u2 ≤ 57343 then
              some (Char.ofNat (65536 + (u - 55296) * 1024 + (u2 - 56320)),
                rest2)
            else Option.none
          | Option.none => Option.none
        | _ => Option.none
      else if 56320 ≤ u ∧ u ≤ 57343 then Option.none
      else some (Char.ofNat u, rest)
    | Option.none => Option.none
  | _ => Option.none

/-- String-body scanner of `json.loads`, after the opening quote, with an
accumulator of characters already read (in reverse): a closing quote ends
the string, a backslash reads one escape through `pEsc`, anything else is
literal.  The fuel argument only makes the recursion structural (an escape
consumes more than one input character); `pStr` always supplies enough. -/
def pStrF : Nat → List Char → List Char → Option (List Char × List Char)
  | 0, _, _ => Option.none
  | _ + 1, acc, '"' :: rest => some (acc.reverse, rest)
  | f + 1, acc, '\\' :: esc =>
    match pEsc esc with
    | some (c, rest) => pStrF f (c :: acc) rest
    | Option.none => Option.none
  | f + 1, acc, c :: rest => pStrF f (c :: acc) rest
  | _, _, [] => Option.none

/-- The string-body scanner with its fuel pre-computed: one unit of fuel
reads at least one input character, so the input's length suffices. -/
def pStr (acc cs : List Char) : Option (List Char × List Char) :=
  pStrF (cs.length + 1) acc cs

/-- Longest prefix of decimal digits, and the remaining input. -/
def spanDigits : List Char → List Char × List Char
  | [] => ([], [])
  | c :: cs =>
    if 48 ≤ c.toNat ∧ c.toNat ≤ 57 then
      ((c :: (spanDigits cs).1), (spanDigits cs).2)
    else ([], c :: cs)

/-- Numeric value of a digit string, most significant digit first. -/
def digitsVal : Nat → List Char → Nat
  | acc, [] => acc
  | acc, c :: cs => digitsVal (acc * 10 + (c.toNat - 48)) cs

/-- Unsigned integer scanner: one or more digits.  (The engine's schemas
only ever declare `int` scalars, so fractions and exponents — which the
real `json.loads` would read as floats — are out of the model.) -/
def pNat (cs : List Char) : Option (Nat × List Char) :=
  match spanDigits cs with
  | ([], _) => none
  | (ds, rest) => some (digitsVal 0 ds, rest)

mutual

/-- One JSON value of a compact document, with the unread remainder.
Models `json.loads` on documents with no insignificant whitespace, which is
the exact textual form `XmattersBase.json` emits.  The fuel argument only
makes the recursion structural; `jsonLoads` always supplies enough. -/
def pVal : Nat → List Char → Option (JValue × List Char)
  | 0, _ => none
  | _ + 1, 'n' :: 'u' :: 'l' :: 'l' :: rest => some (.null, rest)
  | _ + 1, 't' :: 'r' :: 'u' :: 'e' :: rest => some (.bool true, rest)
  | _ + 1, 'f' :: 'a' :: 'l' :: 's' :: 'e' :: rest => some (.bool false, rest)
  | _ + 1, '"' :: rest =>
    match pStr [] rest with
    | some (s, r) => some (.str ⟨s⟩, r)
    | none => none
  | f + 1, '[' :: rest =>
    match rest with
    | ']' :: rest2 => some (.arr [], rest2)
    | _ =>
      match pArr f rest with
      | some (xs, r) => some (.arr xs, r)
      | none => none
  | f + 1, '\x7b' :: rest =>
    match rest with
    | '\x7d' :: rest2 => some (.obj [], rest2)
    | _ =>
      match pObj f rest with
      | some (ps, r) => some (.obj (pyDict ps), r)
      | none => none
  | _ + 1, '-' :: rest =>
    match pNat rest with
    | some (n, r) => some (.int (-(n : Int)), r)
    | none => none
  | _ + 1, cs =>
    match pNat cs with
    | some (n, r) => some (.int (n : Int), r)
    | none => none

/-- Elements of a non-empty array, after the `'['`. -/
def pArr : Nat → List Char → Option (List JValue × List Char)
  | 0, _ => none
  | f + 1, cs =>
    match pVal f cs with
    | some (v, ',' :: rest) =>
      match pArr f rest with
      | some (xs, r) => some (v :: xs, r)
      | none => none
    | some (v, ']' :: rest) => some ([v], rest)
    | _ => none

/-- Members of a non-empty object, after the `'\x7b'`. -/
def pObj : Nat → List Char → Option (List (String × JValue) × List Char)
  | 0, _ => none
  | f + 1, '"' :: cs =>
    match pStr [] cs with
    | some (k, ':' :: rest) =>
      match pVal f rest with
      | some (v, ',' :: rest2) =>
        match pObj f rest2 with
        | some (ps, r) => some ((⟨k⟩, v) :: ps, r)
        | none => none
      | some (v, '\x7d' :: rest2) => some ([(⟨k⟩, v)], rest2)
      | _ => none
    | _ => none
  | _ + 1, _ => none

end

/-- Model of `json.loads` on a compact document: parse one value and demand
that the whole input was consumed. -/
def jsonLoads (s : String) : Option JValue :=
  match pVal (s.data.length + 1) s.data with
  | some (v, []) => some v
  | _ => none

mutual

/-- A declared attribute type (`_attr_types` entry): one of the Python
classes the engine's schemas use.  `dObj` is an `XmattersBase` subclass
(with the stock `__init__`), `dXList` an `XmattersList` subclass carrying
its `base_class` schema and whether it is `RecipientList` (the one subclass
that overrides `from_json_obj` with discriminator dispatch). -/
inductive DType where
  | dInt : DType
  | dStr : DType
  | dBool : DType
  | dList : DType
  | dEnum : List String → DType
  | dObj : Schema → DType
  | dXList : Schema → Bool → DType

/-- An entity class declaration: the class name and the four parallel
sequences `_arg_names` (with their `'*'` optional markers still attached),
`_attr_names`, `_attr_types`, `_json_names`, exactly as written at class
level in the source. -/
inductive Schema where
  | mk : String → List String → List String → List DType → List String → Schema

end

/-- The declared class name. -/
def Schema.name : Schema → String
  | .mk n _ _ _ _ => n

/-- The declared `_arg_names`, `'*'` markers included. -/
def Schema.argNamesRaw : Schema → List String
  | .mk _ a _ _ _ => a

/-- The declared `_attr_names`. -/
def Schema.attrNames : Schema → List String
  | .mk _ _ a _ _ => a

/-- The declared `_attr_types`. -/
def Schema.attrTypes : Schema → List DType
  | .mk _ _ _ t _ => t

/-- The declared `_json_names`. -/
def Schema.jsonNames : Schema → List String
  | .mk _ _ _ _ j => j

mutual

/-- Structural equality of schemas, standing in for Python class identity
(two distinct classes in the source never have identical declarations). -/
def schemaBEq : Schema → Schema → Bool
  | .mk n a b t j, .mk n' a' b' t' j' =>
    n == n' && a == a' && b == b' && dtListBEq t t' && j == j'

/-- Structural equality of declared types. -/
def dtypeBEq : DType → DType → Bool
  | .dInt, .dInt => true
  | .dStr, .dStr => true
  | .dBool, .dBool => true
  | .dList, .dList => true
  | .dEnum vs, .dEnum vs' => vs == vs'
  | .dObj s, .dObj s' => schemaBEq s s'
  | .dXList s d, .dXList s' d' => schemaBEq s s' && d == d'
  | _, _ => false

/-- Pointwise structural equality of declared-type lists. -/
def dtListBEq : List DType → List DType → Bool
  | [], [] => true
  | t :: ts, t' :: ts' => dtypeBEq t t' && dtListBEq ts ts'
  | _, _ => false

end

/-- A Python runtime value as the engine sees it: `None`, the JSON scalars,
a plain `list`, a plain `dict` (string-keyed, as produced by `json.loads`),
an `Enum` member (its class represented by the class's list of underlying
values, plus the member's own value), an `XmattersBase` instance (its class
schema plus its attribute dictionary), or an `XmattersList` instance. -/
inductive RValue where
  | none : RValue
  | vBool : Bool → RValue
  | vInt : Int → RValue
  | vStr : String → RValue
  | vList : List RValue → RValue
  | vDict : List (String × RValue) → RValue
  | vEnum : List String → String → RValue
  | vObj : Schema → List (String × RValue) → RValue
  | vXList : Schema → Bool → List RValue → RValue

/-- An instance: its class schema and its attribute dictionary. -/
abbrev Inst := Schema × List (String × RValue)

/-- The Python exceptions the modelled code can raise.  The spec's error
taxonomy maps onto these: `MissingRequiredField` is the `TypeError` of
`__confirm_required_args` (`missingArgs`), `FieldTypeMismatch` the
`TypeError` of the three input-processing methods (`typeDict`, `typePos`,
`typeKw`), and `UnknownDiscriminatorValue` the `ValueError` of an `Enum`
value lookup (`valueErr`). -/
inductive XErr where
  | typeDict : String → String → XErr
  | typePos : String → Nat → String → XErr
  | typeKw : String → String → XErr
  | missingArgs : String → List String → XErr
  | valueErr : List String → RValue → XErr
  | keyErr : String → XErr
  | indexErr : XErr
  | unboundLocal : String → XErr
  | argCount : String → XErr
  | listBase : String → XErr
  | scalarCall : XErr
  | decodeErr : XErr
  | fuelOut : XErr

/-- `XmattersBase._process_arg_names`: strip the leading `'*'` marker from
each argument name and record, per argument, whether it is required
(no marker). -/
def process_arg_names : List String → List String × List Bool
  | [] => ([], [])
  | arg :: rest =>
    let (ns, rs) := process_arg_names rest
    match arg.data with
    | '*' :: tail => (String.mk tail :: ns, false :: rs)
    | _ => (arg :: ns, true :: rs)

/-- The fixed-up constructor-argument names of a schema. -/
def argNames (s : Schema) : List String := (process_arg_names s.argNamesRaw).1

/-- The per-argument required flags of a schema. -/
def reqFlags (s : Schema) : List Bool := (process_arg_names s.argNamesRaw).2

/-- `__arg_dict` — `dict(zip(arg_names, attr_names))` (`_build_arg_dicts`). -/
def arg_dict (s : Schema) : List (String × String) :=
  pyDict ((argNames s).zip s.attrNames)

/-- `__req_args_dict` — `dict(zip(arg_names, req_args))`. -/
def req_args_dict (s : Schema) : List (String × Bool) :=
  pyDict ((argNames s).zip (reqFlags s))

/-- `__attr_dict` — `dict(zip(attr_names, json_names))` (`_build_attr_dicts`). -/
def attr_dict (s : Schema) : List (String × String) :=
  pyDict (s.attrNames.zip s.jsonNames)

/-- `__type_dict` — `dict(zip(attr_names, attr_types))`. -/
def type_dict (s : Schema) : List (String × DType) :=
  pyDict (s.attrNames.zip s.attrTypes)

/-- `__json_dict` — `dict(zip(json_names, attr_names))`. -/
def json_dict (s : Schema) : List (String × String) :=
  pyDict (s.jsonNames.zip s.attrNames)

/-- Python `type(value) is attr_type`: the value's runtime class is exactly
the declared class.  (`True` has class `bool`, not `int`, so a `bool` never
passes an `int` check here; a plain `list` is not an `XmattersList`, and an
`XmattersList` is not a plain `list`.) -/
def typeIs (v : RValue) (t : DType) : Bool :=
  match v, t with
  | .vBool _, .dBool => true
  | .vInt _, .dInt => true
  | .vStr _, .dStr => true
  | .vList _, .dList => true
  | .vEnum vs _, .dEnum vs' => vs == vs'
  | .vObj s _, .dObj s' => schemaBEq s s'
  | .vXList e d _, .dXList e' d' => schemaBEq e e' && d == d'
  | _, _ => false

/-- `XmattersBase._is_proper_type`: a raw value is acceptable for the
declared type if the type is an `XmattersBase` subclass and the value a
`dict`, the type an `Enum` subclass and the value a `str`, the type a
`list` subclass and the value a `list`, or the value's runtime class is
exactly the declared class. -/
def is_proper_type (t : DType) (v : RValue) : Bool :=
  let is_xtype := (match t with | .dObj _ => true | _ => false) &&
    (match v with | .vDict _ => true | _ => false)
  let is_enum := (match t with | .dEnum _ => true | _ => false) &&
    (match v with | .vStr _ => true | _ => false)
  let is_list := (match t with | .dList => true | .dXList _ _ => true | _ => false) &&
    (match v with | .vList _ => true | _ => false)
  is_xtype || is_enum || is_list || typeIs v t

/-- Python `isinstance(value, attr_type)` over the classes the engine
declares: exact class match, plus `bool` being a subclass of `int` and
every `XmattersList` subclass being a subclass of `list`.  (No declared
attribute type is a proper superclass of another declared entity class, so
no other subclass relation is relevant.) -/
def isinst (v : RValue) (t : DType) : Bool :=
  match v, t with
  | .vBool _, .dInt => true
  | .vXList _ _ _, .dList => true
  | _, _ => typeIs v t

/-- Python `EnumClass(value)`: return the member whose underlying value
equals `value` (or `value` itself when it is already a member of this
class); raise `ValueError` otherwise. -/
def enumNew (vs : List String) (v : RValue) : Except XErr RValue :=
  match v with
  | .vStr s => if s ∈ vs then .ok (.vEnum vs s) else .error (.valueErr vs v)
  | .vEnum vs' s =>
    if vs' = vs then .ok (.vEnum vs' s) else .error (.valueErr vs v)
  | _ => .error (.valueErr vs v)

mutual

/-- The embedding of a freshly decoded JSON tree into runtime values:
`json.loads` yields `None`, `bool`, `int`, `str`, plain `list`s and plain
`dict`s. -/
def ofJ : JValue → RValue
  | .null => .none
  | .bool b => .vBool b
  | .int n => .vInt n
  | .str s => .vStr s
  | .arr xs => .vList (ofJList xs)
  | .obj ps => .vDict (ofJPairs ps)

/-- Elementwise embedding of an array. -/
def ofJList : List JValue → List RValue
  | [] => []
  | x :: xs => ofJ x :: ofJList xs

/-- Pairwise embedding of an object. -/
def ofJPairs : List (String × JValue) → List (String × RValue)
  | [] => []
  | (k, v) :: ps => (k, ofJ v) :: ofJPairs ps

end

/-- The serialization mapping `XmattersJSONEncoder.default` builds for an
`XmattersBase` instance: for each `(json_name, attr_name)` of `jsondict`,
in its order, the attribute's serialized value — attributes currently
`None` are omitted.  The recursion is pre-computed in `ser`, keyed by
attribute name; `attrs` is consulted for the `is not None` test. -/
def encodeFields (s : Schema) (attrs : List (String × RValue))
    (ser : List (String × JValue)) : List (String × JValue) :=
  (json_dict s).filterMap (fun p =>
    match alook attrs p.2 with
    | Option.none => Option.none
    | some RValue.none => Option.none
    | some _ =>
      match alook ser p.2 with
      | some jv => some (p.1, jv)
      | Option.none => Option.none)

mutual

/-- What `json.dumps(..., cls=XmattersJSONEncoder)` turns a runtime value
into: `Enum` members become their underlying value, `XmattersBase`
instances their `jsondict`-ordered field mapping with `None` attributes
omitted, lists (plain or `XmattersList`) arrays, and scalars themselves. -/
def serializeV : RValue → JValue
  | .none => .null
  | .vBool b => .bool b
  | .vInt n => .int n
  | .vStr s => .str s
  | .vEnum _ v => .str v
  | .vList xs => .arr (serializeList xs)
  | .vXList _ _ xs => .arr (serializeList xs)
  | .vDict fs => .obj (serializePairs fs)
  | .vObj s attrs => .obj (encodeFields s attrs (serializeAttrs attrs))

/-- Serialized values of an instance's attribute dictionary, all keys. -/
def serializeAttrs : List (String × RValue) → List (String × JValue)
  | [] => []
  | (k, v) :: t => (k, serializeV v) :: serializeAttrs t

/-- Elementwise serialization of a list value. -/
def serializeList : List RValue → List JValue
  | [] => []
  | x :: t => serializeV x :: serializeList t

/-- Pairwise serialization of a raw dict value. -/
def serializePairs : List (String × RValue) → List (String × JValue)
  | [] => []
  | (k, v) :: t => (k, serializeV v) :: serializePairs t

end

/-- `XmattersBase.json`: the compact JSON text of the instance,
`json.dumps(self, separators=(',', ':'), cls=XmattersJSONEncoder)`. -/
def jsonProp (s : Schema) (attrs : List (String × RValue)) : String :=
  jsonDumps (serializeV (.vObj s attrs))

/-! ### The concrete entity schemas the claims exercise

Transcribed from the class-level declarations in `common.py`,
`recipients.py` and `events.py`. -/

/-- `Error` (`common.py`). -/
def errorSchema : Schema :=
  .mk "Error" ["code", "reason", "message"] ["code", "reason", "message"]
    [.dInt, .dStr, .dStr] ["code", "reason", "message"]

/-- `PaginationLinks` (`common.py`): `self_link` required, `previous_link`
and `next_link` optional. -/
def paginationLinksSchema : Schema :=
  .mk "PaginationLinks" ["self_link", "*previous_link", "*next_link"]
    ["self", "previous", "next"] [.dStr, .dStr, .dStr]
    ["self", "previous", "next"]

/-- `SelfLink` (`common.py`). -/
def selfLinkSchema : Schema :=
  .mk "SelfLink" ["self_link"] ["self"] [.dStr] ["self"]

/-- `Pagination` (`common.py`). -/
def paginationSchema : Schema :=
  .mk "Pagination" ["count", "data", "links", "total"]
    ["count", "data", "links", "total"]
    [.dInt, .dList, .dObj paginationLinksSchema, .dInt]
    ["count", "data", "links", "total"]

/-- The underlying values of `RecipientType` (`recipients.py`). -/
def recipientTypeVals : List String :=
  ["GROUP", "PEOPLE", "DEVICE", "DYNAMIC_TEAM"]

/-- The underlying values of `RecipientStatus` (`recipients.py`). -/
def recipientStatusVals : List String := ["ACTIVE", "INACTIVE"]

/-- `Recipient` (`recipients.py`). -/
def recipientSchema : Schema :=
  .mk "Recipient"
    ["id", "target_name", "recipient_type", "externally_owned",
     "*external_key", "*locked", "*status", "*links"]
    ["id", "target_name", "recipient_type", "externally_owned",
     "external_key", "locked", "status", "links"]
    [.dStr, .dStr, .dEnum recipientTypeVals, .dBool,
     .dStr, .dList, .dEnum recipientStatusVals, .dObj selfLinkSchema]
    ["id", "targetName", "recipientType", "externallyOwned",
     "externalKey", "locked", "status", "links"]

/-- `DynamicTeam` (`recipients.py`): `Recipient`'s common fields, then the
required `use_emergency_device`, then the optional common fields. -/
def dynamicTeamSchema : Schema :=
  .mk "DynamicTeam"
    ["id", "target_name", "recipient_type", "externally_owned",
     "use_emergency_device", "*external_key", "*locked", "*status", "*links"]
    ["id", "target_name", "recipient_type", "externally_owned",
     "use_emergency_device", "external_key", "locked", "status", "links"]
    [.dStr, .dStr, .dEnum recipientTypeVals, .dBool, .dBool,
     .dStr, .dList, .dEnum recipientStatusVals, .dObj selfLinkSchema]
    ["id", "targetName", "recipientType", "externallyOwned",
     "useEmergencyDevice", "externalKey", "locked", "status", "links"]

/-- `RecipientPagination` (`events.py`): its `data` field is the
discriminator-dispatching `RecipientList`. -/
def recipientPaginationSchema : Schema :=
  .mk "RecipientPagination" ["count", "total", "data", "*links"]
    ["count", "total", "data", "links"]
    [.dInt, .dInt, .dXList recipientSchema true, .dObj paginationLinksSchema]
    ["count", "total", "data", "links"]

/-! ### Instance construction (`XmattersBase.__init__` and friends) -/

/-- Python truthiness of a runtime value. -/
def pyTruthy : RValue → Bool
  | .none => false
  | .vBool b => b
  | .vInt n => n != 0
  | .vStr s => s != ""
  | .vList xs => !xs.isEmpty
  | .vDict fs => !fs.isEmpty
  | .vEnum _ _ => true
  | .vObj _ _ => true
  | .vXList _ _ xs => !xs.isEmpty

/-- The concrete classes `RecipientList._get_real_class` can select. -/
inductive RClass where
  | dynTeam : RClass
  | group : RClass
  | person : RClass
  | recipient : RClass

/-- `RecipientList._get_real_class`: read the element's `recipientType`
field (a `KeyError` if absent); on a truthy value select `DynamicTeam`,
`Group` or `Person` by string comparison — the `DEVICE` branch is an
unimplemented `pass`, so it, like every unrecognized value, falls through
with `new_cls` unassigned and the following use of `new_cls` raises
`UnboundLocalError`; on a falsy value select `Recipient`. -/
def get_real_class (jobj : RValue) : Except XErr RClass :=
  match jobj with
  | .vDict fs =>
    match alook fs "recipientType" with
    | Option.none => .error (.keyErr "recipientType")
    | some rv =>
      if pyTruthy rv then
        match rv with
        | .vStr "DYNAMIC_TEAM" => .ok .dynTeam
        | .vStr "GROUP" => .ok .group
        | .vStr "PERSON" => .ok .person
        | _ => .error (.unboundLocal "new_cls")
      else .ok .recipient
  | _ => .error (.keyErr "recipientType")

/-- The freshly initialized attribute dictionary: every declared attribute
set to `None`, in declaration order (`for name in attr_names: setattr`). -/
def initAttrs (s : Schema) : List (String × RValue) :=
  s.attrNames.foldl (fun d n => pyUpd d n RValue.none) []

/-- `XmattersBase.__confirm_required_args`'s collection loop: walk the
constructor-argument names in order and collect, for each required one,
the mapped attribute name when that attribute is still `None`. -/
def missingWalk (s : Schema) (inst : List (String × RValue)) :
    List String → Except XErr (List String)
  | [] => .ok []
  | arg :: rest =>
    match alook (req_args_dict s) arg with
    | Option.none => .error (.keyErr arg)
    | some req =>
      if req then
        match alook (arg_dict s) arg with
        | Option.none => .error (.keyErr arg)
        | some an =>
          match alook inst an with
          | Option.none => .error (.keyErr an)
          | some RValue.none =>
            match missingWalk s inst rest with
            | .ok ms => .ok (an :: ms)
            | .error e => .error e
          | some _ => missingWalk s inst rest
      else missingWalk s inst rest

/-- `XmattersBase.__confirm_required_args`: raise the `TypeError` listing
every missing attribute when any required argument's attribute is unset. -/
def confirm_required_args (s : Schema) (inst : List (String × RValue)) :
    Except XErr Unit :=
  match missingWalk s inst (argNames s) with
  | .error e => .error e
  | .ok [] => .ok ()
  | .ok missing => .error (.missingArgs s.name missing)

/-- `DynamicTeam.__init__`'s post-processing: default `recipient_type` to
`RecipientType.DYNAMIC_TEAM` and `status` to `RecipientStatus.ACTIVE` when
they are still `None`. -/
def dynTeamPost (inst : Inst) : Inst :=
  let a1 :=
    match alook inst.2 "recipient_type" with
    | some RValue.none =>
      pyUpd inst.2 "recipient_type" (.vEnum recipientTypeVals "DYNAMIC_TEAM")
    | _ => inst.2
  let a2 :=
    match alook a1 "status" with
    | some RValue.none =>
      pyUpd a1 "status" (.vEnum recipientStatusVals "ACTIVE")
    | _ => a1
  (inst.1, a2)

mutual

/-- Weighted size of a runtime value, used only to pre-compute sufficient
fuel for the construction functions below. -/
def msize : RValue → Nat
  | .vList xs => 20 + msizeEls xs
  | .vXList _ _ xs => 20 + msizeEls xs
  | .vDict fs => 20 + msizeFs fs
  | .vObj _ fs => 20 + msizeFs fs
  | _ => 1

/-- Weighted size of a list of values. -/
def msizeEls : List RValue → Nat
  | [] => 0
  | x :: t => msize x + 20 + msizeEls t

/-- Weighted size of a keyed list of values. -/
def msizeFs : List (String × RValue) → Nat
  | [] => 0
  | (_, v) :: t => msize v + 20 + msizeFs t

end

/-- Fuel needed to process a positional-argument list. -/
def needL : List RValue → Nat
  | [] => 0
  | v :: t => msize v + 4 + needL t

/-- Fuel needed to process a keyword or dictionary pair list. -/
def needP : List (String × RValue) → Nat
  | [] => 0
  | (_, v) :: t => msize v + 4 + needP t

/-- Fuel needed to decode a list of collection elements. -/
def needXL : List RValue → Nat
  | [] => 0
  | x :: t => msize x + 16 + needXL t

mutual

/-- `XmattersBase._setattr`: look the attribute's declared type up in
`typedict`, coerce the value (an `Enum` lookup, an `XmattersList` decode,
or a nested construction when the value is a `dict`), and assign the
result to the attribute.  The fuel argument only makes the mutual
recursion structural; the un-suffixed wrappers below always supply
enough. -/
def setAttrCF : Nat → Schema → List (String × RValue) → String → RValue →
    Except XErr (List (String × RValue))
  | 0, _, _, _, _ => .error .fuelOut
  | f + 1, s, inst, name, v =>
    match alook (type_dict s) name with
    | Option.none => .error (.keyErr name)
    | some t =>
      match t with
      | .dEnum vs =>
        match enumNew vs v with
        | .ok v' => .ok (pyUpd inst name v')
        | .error e => .error e
      | .dXList elem disc =>
        match v with
        | .vList xs =>
          match xlistElemsF f elem disc xs with
          | .ok ys => .ok (pyUpd inst name (.vXList elem disc ys))
          | .error e => .error e
        | .vXList _ _ xs =>
          match xlistElemsF f elem disc xs with
          | .ok ys => .ok (pyUpd inst name (.vXList elem disc ys))
          | .error e => .error e
        | _ => .error .scalarCall
      | _ =>
        match v with
        | .vDict fs =>
          match t with
          | .dObj s' =>
            match constructDictF f s' fs [] with
            | .ok i => .ok (pyUpd inst name (.vObj i.1 i.2))
            | .error e => .error e
          | _ => .error .scalarCall
        | _ => .ok (pyUpd inst name v)

/-- `XmattersBase.__process_dictionary_args`: for each key of the raw
mapping that is a declared JSON name, check `_is_proper_type` and assign
through `_setattr`; unknown keys are skipped. -/
def procDictF : Nat → Schema → List (String × RValue) →
    List (String × RValue) → Except XErr (List (String × RValue))
  | 0, _, _, _ => .error .fuelOut
  | _ + 1, _, inst, [] => .ok inst
  | f + 1, s, inst, (k, v) :: fs =>
    if k ∈ s.jsonNames then
      match alook (json_dict s) k with
      | Option.none => .error (.keyErr k)
      | some an =>
        match alook (type_dict s) an with
        | Option.none => .error (.keyErr an)
        | some t =>
          if is_proper_type t v then
            match setAttrCF f s inst an v with
            | .ok inst' => procDictF f s inst' fs
            | .error e => .error e
          else .error (.typeDict s.name k)
    else procDictF f s inst fs

/-- `XmattersBase.__process_positional_args`: assign values in declared
order, checking `isinstance(value, attr_types[key])` at each position. -/
def procPosF : Nat → Schema → List (String × RValue) → Nat → List RValue →
    Except XErr (List (String × RValue))
  | 0, _, _, _, _ => .error .fuelOut
  | _ + 1, _, inst, _, [] => .ok inst
  | f + 1, s, inst, key, v :: args =>
    match s.attrTypes.get? key with
    | Option.none => .error .indexErr
    | some t =>
      if isinst v t then
        match s.attrNames.get? key with
        | Option.none => .error .indexErr
        | some an =>
          match setAttrCF f s inst an v with
          | .ok inst' => procPosF f s inst' (key + 1) args
          | .error e => .error e
      else
        match s.attrNames.get? key with
        | Option.none => .error .indexErr
        | some an => .error (.typePos s.name key an)

/-- `XmattersBase.__process_keyword_args`: for each keyword that is a
declared argument name, check `isinstance` against the mapped attribute's
type and assign through `_setattr`; unknown keywords are skipped. -/
def procKwF : Nat → Schema → List (String × RValue) →
    List (String × RValue) → Except XErr (List (String × RValue))
  | 0, _, _, _ => .error .fuelOut
  | _ + 1, _, inst, [] => .ok inst
  | f + 1, s, inst, (k, v) :: kws =>
    if k ∈ argNames s then
      match alook (arg_dict s) k with
      | Option.none => .error (.keyErr k)
      | some an =>
        match alook (type_dict s) an with
        | Option.none => .error (.keyErr an)
        | some t =>
          if isinst v t then
            match setAttrCF f s inst an v with
            | .ok inst' => procKwF f s inst' kws
            | .error e => .error e
          else .error (.typeKw s.name k)
    else procKwF f s inst kws

/-- `XmattersBase.__init__` when the single positional argument is a raw
mapping: dictionary mode, then keyword processing, then the required-fields
check. -/
def constructDictF : Nat → Schema → List (String × RValue) →
    List (String × RValue) → Except XErr Inst
  | 0, _, _, _ => .error .fuelOut
  | f + 1, s, fs, kwargs =>
    match procDictF f s (initAttrs s) fs with
    | .error e => .error e
    | .ok a1 =>
      match procKwF f s a1 kwargs with
      | .error e => .error e
      | .ok a2 =>
        match confirm_required_args s a2 with
        | .error e => .error e
        | .ok _ => .ok (s, a2)

/-- `XmattersBase.__init__` otherwise: positional mode (a no-op when there
are no positional arguments), then keyword processing, then the
required-fields check. -/
def constructArgsF : Nat → Schema → List RValue →
    List (String × RValue) → Except XErr Inst
  | 0, _, _, _ => .error .fuelOut
  | f + 1, s, args, kwargs =>
    match procPosF f s (initAttrs s) 0 args with
    | .error e => .error e
    | .ok a1 =>
      match procKwF f s a1 kwargs with
      | .error e => .error e
      | .ok a2 =>
        match confirm_required_args s a2 with
        | .error e => .error e
        | .ok _ => .ok (s, a2)

/-- `XmattersBase.__init__`: dispatch on whether the positional arguments
are exactly one raw mapping. -/
def constructXF : Nat → Schema → List RValue →
    List (String × RValue) → Except XErr Inst
  | 0, _, _, _ => .error .fuelOut
  | f + 1, s, args, kwargs =>
    match args with
    | [.vDict fs] => constructDictF f s fs kwargs
    | _ => constructArgsF f s args kwargs

/-- One element of an `XmattersList` decode: `cls.base_class(jobj)` for a
plain list, or `cls._get_real_class(jobj)(jobj)` for `RecipientList` —
where `Group(jobj)` and `Person(jobj)` are `TypeError`s (their historical
`__init__(self)` takes no further arguments), and a constructed
`DynamicTeam` gets its `__init__` defaults applied. -/
def constructElemF : Nat → Schema → Bool → RValue → Except XErr RValue
  | 0, _, _, _ => .error .fuelOut
  | f + 1, elem, false, jobj =>
    match jobj with
    | .vDict fs =>
      match constructDictF f elem fs [] with
      | .ok i => .ok (.vObj i.1 i.2)
      | .error e => .error e
    | _ =>
      match constructArgsF f elem [jobj] [] with
      | .ok i => .ok (.vObj i.1 i.2)
      | .error e => .error e
  | f + 1, _, true, jobj =>
    match get_real_class jobj with
    | .error e => .error e
    | .ok .group => .error (.argCount "Group")
    | .ok .person => .error (.argCount "Person")
    | .ok .dynTeam =>
      match jobj with
      | .vDict fs =>
        match constructDictF f dynamicTeamSchema fs [] with
        | .ok i => .ok (.vObj (dynTeamPost i).1 (dynTeamPost i).2)
        | .error e => .error e
      | _ =>
        match constructArgsF f dynamicTeamSchema [jobj] [] with
        | .ok i => .ok (.vObj (dynTeamPost i).1 (dynTeamPost i).2)
        | .error e => .error e
    | .ok .recipient =>
      match jobj with
      | .vDict fs =>
        match constructDictF f recipientSchema fs [] with
        | .ok i => .ok (.vObj i.1 i.2)
        | .error e => .error e
      | _ =>
        match constructArgsF f recipientSchema [jobj] [] with
        | .ok i => .ok (.vObj i.1 i.2)
        | .error e => .error e

/-- The element loop of `XmattersList.from_json_obj` (and of
`RecipientList.from_json_obj` when `disc` is set). -/
def xlistElemsF : Nat → Schema → Bool → List RValue → Except XErr (List RValue)
  | 0, _, _, _ => .error .fuelOut
  | _ + 1, _, _, [] => .ok []
  | f + 1, elem, disc, x :: xs =>
    match constructElemF f elem disc x with
    | .ok v =>
      match xlistElemsF f elem disc xs with
      | .ok vs => .ok (v :: vs)
      | .error e => .error e
    | .error e => .error e

end

/-- `XmattersBase._setattr` with its fuel pre-computed. -/
def setAttrC (s : Schema) (inst : List (String × RValue)) (name : String)
    (v : RValue) : Except XErr (List (String × RValue)) :=
  setAttrCF (msize v + 1) s inst name v

/-- Dictionary-mode processing with its fuel pre-computed. -/
def procDict (s : Schema) (inst fs : List (String × RValue)) :
    Except XErr (List (String × RValue)) :=
  procDictF (needP fs + 1) s inst fs

/-- Positional-mode processing with its fuel pre-computed. -/
def procPos (s : Schema) (inst : List (String × RValue)) (key : Nat)
    (args : List RValue) : Except XErr (List (String × RValue)) :=
  procPosF (needL args + 1) s inst key args

/-- Keyword processing with its fuel pre-computed. -/
def procKw (s : Schema) (inst kws : List (String × RValue)) :
    Except XErr (List (String × RValue)) :=
  procKwF (needP kws + 1) s inst kws

/-- Single-mapping construction with its fuel pre-computed. -/
def constructDict (s : Schema) (fs kwargs : List (String × RValue)) :
    Except XErr Inst :=
  constructDictF (needP fs + needP kwargs + 3) s fs kwargs

/-- Positional-and-keyword construction with its fuel pre-computed. -/
def constructArgs (s : Schema) (args : List RValue)
    (kwargs : List (String × RValue)) : Except XErr Inst :=
  constructArgsF (needL args + needP kwargs + 3) s args kwargs

/-- `XmattersBase.__init__` — `cls(*args, **kwargs)` — with its fuel
pre-computed. -/
def construct (s : Schema) (args : List RValue)
    (kwargs : List (String × RValue)) : Except XErr Inst :=
  constructXF (needL args + needP kwargs + 5) s args kwargs

/-- One collection-element construction with its fuel pre-computed. -/
def constructElem (elem : Schema) (disc : Bool) (jobj : RValue) :
    Except XErr RValue :=
  constructElemF (msize jobj + 13) elem disc jobj

/-- The collection-element loop with its fuel pre-computed. -/
def xlistElems (elem : Schema) (disc : Bool) (xs : List RValue) :
    Except XErr (List RValue) :=
  xlistElemsF (needXL xs + 1) elem disc xs

/-- `XmattersBase.from_json_obj`: `cls(json_self)`. -/
def from_json_obj (s : Schema) (jobj : RValue) : Except XErr Inst :=
  construct s [jobj] []

/-- `XmattersBase.from_json_str`: `json.loads`, then `from_json_obj`.  A
text `json.loads` refuses is a `ValueError` (`decodeErr`). -/
def from_json_str (s : Schema) (txt : String) : Except XErr Inst :=
  match jsonLoads txt with
  | some j => from_json_obj s (ofJ j)
  | Option.none => .error .decodeErr

/-- `RecipientList.from_json_obj` on an already-decoded array: construct
each element through `_get_real_class` dispatch and wrap the results. -/
def recipientListFromJsonObj (xs : List RValue) : Except XErr RValue :=
  match xlistElems recipientSchema true xs with
  | .ok ys => .ok (.vXList recipientSchema true ys)
  | .error e => .error e

/-! ### Fuel adequacy

The `…F` functions consume one unit of fuel per call.  The weighted sizes
above strictly dominate the recursion, so any fuel at least the weighted
size computes the same result as the canonical fuel the un-suffixed
wrappers use.  `stabMaster` proves this once for the whole mutual block. -/

/-- Every value has positive weighted size. -/
theorem msize_pos (v : RValue) : 1 ≤ msize v := by
  cases v <;> simp [msize] <;> omega

/-- Pair-list fuel is below pair-list weighted size. -/
theorem needP_le_msizeFs : ∀ fs, needP fs ≤ msizeFs fs
  | [] => Nat.le_refl 0
  | (_, v) :: t => by
    have := needP_le_msizeFs t
    simp only [needP, msizeFs]
    omega

/-- Element-list fuel is below element-list weighted size. -/
theorem needXL_le_msizeEls : ∀ xs, needXL xs ≤ msizeEls xs
  | [] => Nat.le_refl 0
  | x :: t => by
    have := needXL_le_msizeEls t
    simp only [needXL, msizeEls]
    omega

/-- The adequacy statement, for each function of the construction block. -/
def StabAt (f : Nat) : Prop :=
  (∀ s inst n v, msize v ≤ f →
    setAttrCF (f + 1) s inst n v = setAttrCF (msize v + 1) s inst n v) ∧
  (∀ s inst fs, needP fs ≤ f →
    procDictF (f + 1) s inst fs = procDictF (needP fs + 1) s inst fs) ∧
  (∀ s inst k args, needL args ≤ f →
    procPosF (f + 1) s inst k args = procPosF (needL args + 1) s inst k args) ∧
  (∀ s inst kws, needP kws ≤ f →
    procKwF (f + 1) s inst kws = procKwF (needP kws + 1) s inst kws) ∧
  (∀ s fs kw, needP fs + needP kw + 2 ≤ f →
    constructDictF (f + 1) s fs kw =
      constructDictF (needP fs + needP kw + 3) s fs kw) ∧
  (∀ s args kw, needL args + needP kw + 2 ≤ f →
    constructArgsF (f + 1) s args kw =
      constructArgsF (needL args + needP kw + 3) s args kw) ∧
  (∀ elem disc jobj, msize jobj + 12 ≤ f →
    constructElemF (f + 1) elem disc jobj =
      constructElemF (msize jobj + 13) elem disc jobj) ∧
  (∀ elem disc xs, needXL xs ≤ f →
    xlistElemsF (f + 1) elem disc xs = xlistElemsF (needXL xs + 1) elem disc xs)

/-- Any sufficient fuel computes the canonical result. -/
theorem stabMaster : ∀ f, StabAt f := by
  intro f
  induction f using Nat.strong_induction_on with
  | _ f IH =>
  have IHset : ∀ g, g < f → ∀ s inst n v, msize v ≤ g →
      setAttrCF (g + 1) s inst n v = setAttrCF (msize v + 1) s inst n v :=
    fun g h => (IH g h).1
  have IHdict : ∀ g, g < f → ∀ s inst fs, needP fs ≤ g →
      procDictF (g + 1) s inst fs = procDictF (needP fs + 1) s inst fs :=
    fun g h => (IH g h).2.1
  have IHpos : ∀ g, g < f → ∀ s inst k args, needL args ≤ g →
      procPosF (g + 1) s inst k args = procPosF (needL args + 1) s inst k args :=
    fun g h => (IH g h).2.2.1
  have IHkw : ∀ g, g < f → ∀ s inst kws, needP kws ≤ g →
      procKwF (g + 1) s inst kws = procKwF (needP kws + 1) s inst kws :=
    fun g h => (IH g h).2.2.2.1
  have IHconD : ∀ g, g < f → ∀ s fs kw, needP fs + needP kw + 2 ≤ g →
      constructDictF (g + 1) s fs kw =
        constructDictF (needP fs + needP kw + 3) s fs kw :=
    fun g h => (IH g h).2.2.2.2.1
  have IHconA : ∀ g, g < f → ∀ s args kw, needL args + needP kw + 2 ≤ g →
      constructArgsF (g + 1) s args kw =
        constructArgsF (needL args + needP kw + 3) s args kw :=
    fun g h => (IH g h).2.2.2.2.2.1
  have IHel : ∀ g, g < f → ∀ elem disc jobj, msize jobj + 12 ≤ g →
      constructElemF (g + 1) elem disc jobj =
        constructElemF (msize jobj + 13) elem disc jobj :=
    fun g h => (IH g h).2.2.2.2.2.2.1
  have IHxl : ∀ g, g < f → ∀ elem disc xs, needXL xs ≤ g →
      xlistElemsF (g + 1) elem disc xs = xlistElemsF (needXL xs + 1) elem disc xs :=
    fun g h => (IH g h).2.2.2.2.2.2.2
  refine ⟨?_, ?_, ?_, ?_, ?_, ?_, ?_, ?_⟩
  · -- setAttrCF
    intro s inst n v hv
    have hm := msize_pos v
    obtain ⟨f', rfl⟩ : ∃ f', f = f' + 1 := ⟨f - 1, by omega⟩
    cases halook : alook (type_dict s) n with
    | none => simp only [setAttrCF, halook]
    | some t =>
      cases t with
      | dEnum vs => simp only [setAttrCF, halook]
      | dXList elem disc =>
        cases v with
        | vList xs =>
          simp only [msize] at hv ⊢
          have hle := needXL_le_msizeEls xs
          rw [show (20 : Nat) + msizeEls xs + 1 = (19 + msizeEls xs) + 1 + 1 by omega]
          simp only [setAttrCF, halook]
          rw [IHxl f' (by omega) elem disc xs (by omega),
            IHxl (19 + msizeEls xs) (by omega) elem disc xs (by omega)]
        | vXList e d xs =>
          simp only [msize] at hv ⊢
          have hle := needXL_le_msizeEls xs
          rw [show (20 : Nat) + msizeEls xs + 1 = (19 + msizeEls xs) + 1 + 1 by omega]
          simp only [setAttrCF, halook]
          rw [IHxl f' (by omega) elem disc xs (by omega),
            IHxl (19 + msizeEls xs) (by omega) elem disc xs (by omega)]
        | none => simp only [setAttrCF, halook]
        | vBool b => simp only [setAttrCF, halook]
        | vInt n' => simp only [setAttrCF, halook]
        | vStr s' => simp only [setAttrCF, halook]
        | vDict fs => simp only [setAttrCF, halook]
        | vEnum vs x => simp only [setAttrCF, halook]
        | vObj s' a => simp only [setAttrCF, halook]
      | dObj s' =>
        cases v with
        | vDict fs =>
          simp only [msize] at hv ⊢
          have hle := needP_le_msizeFs fs
          rw [show (20 : Nat) + msizeFs fs + 1 = (19 + msizeFs fs) + 1 + 1 by omega]
          simp only [setAttrCF, halook]
          rw [IHconD f' (by omega) s' fs [] (by simp only [needP]; omega),
            IHconD (19 + msizeFs fs) (by omega) s' fs [] (by simp only [needP]; omega)]
        | none => simp only [setAttrCF, halook]
        | vBool b => simp only [setAttrCF, halook]
        | vInt n' => simp only [setAttrCF, halook]
        | vStr s'' => simp only [setAttrCF, halook]
        | vList xs => simp only [setAttrCF, halook]
        | vEnum vs x => simp only [setAttrCF, halook]
        | vObj s'' a => simp only [setAttrCF, halook]
        | vXList e d xs => simp only [setAttrCF, halook]
      | dInt => cases v <;> simp only [setAttrCF, halook]
      | dStr => cases v <;> simp only [setAttrCF, halook]
      | dBool => cases v <;> simp only [setAttrCF, halook]
      | dList => cases v <;> simp only [setAttrCF, halook]
  · -- procDictF
    intro s inst fs h
    match fs with
    | [] => simp only [procDictF, needP]
    | (k, v) :: fs =>
      have hm := msize_pos v
      simp only [needP] at h ⊢
      obtain ⟨f', rfl⟩ : ∃ f', f = f' + 1 := ⟨f - 1, by omega⟩
      rw [show msize v + 4 + needP fs + 1 = (msize v + 3 + needP fs) + 1 + 1 by omega]
      by_cases hk : k ∈ s.jsonNames
      · simp only [procDictF, hk, if_true]
        cases halook : alook (json_dict s) k with
        | none => simp only [halook]
        | some an =>
          cases halook2 : alook (type_dict s) an with
          | none => simp only [halook, halook2]
          | some t =>
            by_cases hp : is_proper_type t v
            · simp only [halook, halook2, hp, if_true]
              rw [IHset f' (by omega) s inst an v (by omega),
                IHset (msize v + 3 + needP fs) (by omega) s inst an v (by omega)]
              have e1 : ∀ i, procDictF (f' + 1) s i fs = procDictF (needP fs + 1) s i fs :=
                fun i => IHdict f' (by omega) s i fs (by omega)
              have e2 : ∀ i, procDictF (msize v + 3 + needP fs + 1) s i fs =
                  procDictF (needP fs + 1) s i fs :=
                fun i => IHdict (msize v + 3 + needP fs) (by omega) s i fs (by omega)
              simp only [e1, e2]
            · simp [halook, halook2, hp]
      · simp only [procDictF, hk, if_false]
        rw [show (f' : Nat) + 1 = f' + 1 from rfl]
        have e1 : procDictF (f' + 1) s inst fs = procDictF (needP fs + 1) s inst fs :=
          IHdict f' (by omega) s inst fs (by omega)
        have e2 : procDictF (msize v + 3 + needP fs + 1) s inst fs =
            procDictF (needP fs + 1) s inst fs :=
          IHdict (msize v + 3 + needP fs) (by omega) s inst fs (by omega)
        rw [e1, e2]
  · -- procPosF
    intro s inst k args h
    match args with
    | [] => simp only [procPosF, needL]
    | v :: args =>
      have hm := msize_pos v
      simp only [needL] at h ⊢
      obtain ⟨f', rfl⟩ : ∃ f', f = f' + 1 := ⟨f - 1, by omega⟩
      rw [show msize v + 4 + needL args + 1 = (msize v + 3 + needL args) + 1 + 1 by omega]
      cases hty : s.attrTypes.get? k with
      | none => simp only [procPosF, hty]
      | some t =>
        by_cases hi : isinst v t
        · simp only [procPosF, hty, hi, if_true]
          cases hnm : s.attrNames.get? k with
          | none => simp only [hnm]
          | some an =>
            simp only [hnm]
            rw [IHset f' (by omega) s inst an v (by omega),
              IHset (msize v + 3 + needL args) (by omega) s inst an v (by omega)]
            have e1 : ∀ i, procPosF (f' + 1) s i (k + 1) args =
                procPosF (needL args + 1) s i (k + 1) args :=
              fun i => IHpos f' (by omega) s i (k + 1) args (by omega)
            have e2 : ∀ i, procPosF (msize v + 3 + needL args + 1) s i (k + 1) args =
                procPosF (needL args + 1) s i (k + 1) args :=
              fun i => IHpos (msize v + 3 + needL args) (by omega) s i (k + 1) args (by omega)
            simp only [e1, e2]
        · have hty' : s.attrTypes[k]? = some t := by
            rw [← List.get?_eq_getElem?]; exact hty
          simp [procPosF, hty', hi]
  · -- procKwF
    intro s inst kws h
    match kws with
    | [] => simp only [procKwF, needP]
    | (k, v) :: kws =>
      have hm := msize_pos v
      simp only [needP] at h ⊢
      obtain ⟨f', rfl⟩ : ∃ f', f = f' + 1 := ⟨f - 1, by omega⟩
      rw [show msize v + 4 + needP kws + 1 = (msize v + 3 + needP kws) + 1 + 1 by omega]
      by_cases hk : k ∈ argNames s
      · simp only [procKwF, hk, if_true]
        cases halook : alook (arg_dict s) k with
        | none => simp only [halook]
        | some an =>
          cases halook2 : alook (type_dict s) an with
          | none => simp only [halook, halook2]
          | some t =>
            by_cases hi : isinst v t
            · simp only [halook, halook2, hi, if_true]
              rw [IHset f' (by omega) s inst an v (by omega),
                IHset (msize v + 3 + needP kws) (by omega) s inst an v (by omega)]
              have e1 : ∀ i, procKwF (f' + 1) s i kws = procKwF (needP kws + 1) s i kws :=
                fun i => IHkw f' (by omega) s i kws (by omega)
              have e2 : ∀ i, procKwF (msize v + 3 + needP kws + 1) s i kws =
                  procKwF (needP kws + 1) s i kws :=
                fun i => IHkw (msize v + 3 + needP kws) (by omega) s i kws (by omega)
              simp only [e1, e2]
            · simp [halook, halook2, hi]
      · simp only [procKwF, hk, if_false]
        have e1 : procKwF (f' + 1) s inst kws = procKwF (needP kws + 1) s inst kws :=
          IHkw f' (by omega) s inst kws (by omega)
        have e2 : procKwF (msize v + 3 + needP kws + 1) s inst kws =
            procKwF (needP kws + 1) s inst kws :=
          IHkw (msize v + 3 + needP kws) (by omega) s inst kws (by omega)
        rw [e1, e2]
  · -- constructDictF
    intro s fs kw h
    obtain ⟨f', rfl⟩ : ∃ f', f = f' + 1 := ⟨f - 1, by omega⟩
    rw [show needP fs + needP kw + 3 = ((needP fs + needP kw + 1) + 1) + 1 by omega]
    simp only [constructDictF]
    rw [IHdict f' (by omega) s (initAttrs s) fs (by omega),
      IHdict (needP fs + needP kw + 1) (by omega) s (initAttrs s) fs (by omega)]
    have e1 : ∀ i, procKwF (f' + 1) s i kw = procKwF (needP kw + 1) s i kw :=
      fun i => IHkw f' (by omega) s i kw (by omega)
    have e2 : ∀ i, procKwF ((needP fs + needP kw + 1) + 1) s i kw =
        procKwF (needP kw + 1) s i kw :=
      fun i => IHkw (needP fs + needP kw + 1) (by omega) s i kw (by omega)
    simp only [e1, e2]
  · -- constructArgsF
    intro s args kw h
    obtain ⟨f', rfl⟩ : ∃ f', f = f' + 1 := ⟨f - 1, by omega⟩
    rw [show needL args + needP kw + 3 = ((needL args + needP kw + 1) + 1) + 1 by omega]
    simp only [constructArgsF]
    rw [IHpos f' (by omega) s (initAttrs s) 0 args (by omega),
      IHpos (needL args + needP kw + 1) (by omega) s (initAttrs s) 0 args (by omega)]
    have e1 : ∀ i, procKwF (f' + 1) s i kw = procKwF (needP kw + 1) s i kw :=
      fun i => IHkw f' (by omega) s i kw (by omega)
    have e2 : ∀ i, procKwF ((needL args + needP kw + 1) + 1) s i kw =
        procKwF (needP kw + 1) s i kw :=
      fun i => IHkw (needL args + needP kw + 1) (by omega) s i kw (by omega)
    simp only [e1, e2]
  · -- constructElemF
    intro elem disc jobj h
    have hm := msize_pos jobj
    obtain ⟨f', rfl⟩ : ∃ f', f = f' + 1 := ⟨f - 1, by omega⟩
    rw [show msize jobj + 13 = (msize jobj + 12) + 1 by omega]
    cases disc with
    | false =>
      cases jobj with
      | vDict fs =>
        simp only [msize] at h ⊢
        have hle := needP_le_msizeFs fs
        simp only [constructElemF]
        rw [IHconD f' (by omega) elem fs [] (by simp only [needP]; omega),
          show (20 : Nat) + msizeFs fs + 12 = (20 + msizeFs fs + 11) + 1 by omega,
          IHconD (20 + msizeFs fs + 11) (by omega) elem fs [] (by simp only [needP]; omega)]
      | none =>
        simp only [constructElemF, msize]
        rw [IHconA f' (by omega) elem [RValue.none] [] (by simp only [needL, needP, msize]; omega),
          IHconA 12 (by omega) elem [RValue.none] [] (by simp only [needL, needP, msize]; omega)]
      | vBool b =>
        simp only [constructElemF, msize]
        rw [IHconA f' (by omega) elem [RValue.vBool b] [] (by simp only [needL, needP, msize]; omega),
          IHconA 12 (by omega) elem [RValue.vBool b] [] (by simp only [needL, needP, msize]; omega)]
      | vInt n =>
        simp only [constructElemF, msize]
        rw [IHconA f' (by omega) elem [RValue.vInt n] [] (by simp only [needL, needP, msize]; omega),
          IHconA 12 (by omega) elem [RValue.vInt n] [] (by simp only [needL, needP, msize]; omega)]
      | vStr s =>
        simp only [constructElemF, msize]
        rw [IHconA f' (by omega) elem [RValue.vStr s] [] (by simp only [needL, needP, msize]; omega),
          IHconA 12 (by omega) elem [RValue.vStr s] [] (by simp only [needL, needP, msize]; omega)]
      | vList xs =>
        simp only [msize] at h ⊢
        simp only [constructElemF]
        rw [IHconA f' (by omega) elem [RValue.vList xs] [] (by simp only [needL, needP, msize]; omega),
          show (20 : Nat) + msizeEls xs + 12 = (20 + msizeEls xs + 11) + 1 by omega,
          IHconA (20 + msizeEls xs + 11) (by omega) elem [RValue.vList xs] []
            (by simp only [needL, needP, msize]; omega)]
      | vEnum vs x =>
        simp only [constructElemF, msize]
        rw [IHconA f' (by omega) elem [RValue.vEnum vs x] [] (by simp only [needL, needP, msize]; omega),
          IHconA 12 (by omega) elem [RValue.vEnum vs x] [] (by simp only [needL, needP, msize]; omega)]
      | vObj s a =>
        simp only [msize] at h ⊢
        simp only [constructElemF]
        rw [IHconA f' (by omega) elem [RValue.vObj s a] [] (by simp only [needL, needP, msize]; omega),
          show (20 : Nat) + msizeFs a + 12 = (20 + msizeFs a + 11) + 1 by omega,
          IHconA (20 + msizeFs a + 11) (by omega) elem [RValue.vObj s a] []
            (by simp only [needL, needP, msize]; omega)]
      | vXList e d xs =>
        simp only [msize] at h ⊢
        simp only [constructElemF]
        rw [IHconA f' (by omega) elem [RValue.vXList e d xs] []
            (by simp only [needL, needP, msize]; omega),
          show (20 : Nat) + msizeEls xs + 12 = (20 + msizeEls xs + 11) + 1 by omega,
          IHconA (20 + msizeEls xs + 11) (by omega) elem [RValue.vXList e d xs] []
            (by simp only [needL, needP, msize]; omega)]
    | true =>
      cases hrc : get_real_class jobj with
      | error e => simp only [constructElemF, hrc]
      | ok rc =>
        cases rc with
        | group => simp only [constructElemF, hrc]
        | person => simp only [constructElemF, hrc]
        | dynTeam =>
          cases jobj with
          | vDict fs =>
            simp only [msize] at h ⊢
            have hle := needP_le_msizeFs fs
            simp only [constructElemF, hrc]
            rw [IHconD f' (by omega) dynamicTeamSchema fs [] (by simp only [needP]; omega),
              show (20 : Nat) + msizeFs fs + 12 = (20 + msizeFs fs + 11) + 1 by omega,
              IHconD (20 + msizeFs fs + 11) (by omega) dynamicTeamSchema fs []
                (by simp only [needP]; omega)]
          | none => simp [get_real_class] at hrc
          | vBool b => simp [get_real_class] at hrc
          | vInt n => simp [get_real_class] at hrc
          | vStr s => simp [get_real_class] at hrc
          | vList xs => simp [get_real_class] at hrc
          | vEnum vs x => simp [get_real_class] at hrc
          | vObj s a => simp [get_real_class] at hrc
          | vXList e d xs => simp [get_real_class] at hrc
        | recipient =>
          cases jobj with
          | vDict fs =>
            simp only [msize] at h ⊢
            have hle := needP_le_msizeFs fs
            simp only [constructElemF, hrc]
            rw [IHconD f' (by omega) recipientSchema fs [] (by simp only [needP]; omega),
              show (20 : Nat) + msizeFs fs + 12 = (20 + msizeFs fs + 11) + 1 by omega,
              IHconD (20 + msizeFs fs + 11) (by omega) recipientSchema fs []
                (by simp only [needP]; omega)]
          | none => simp [get_real_class] at hrc
          | vBool b => simp [get_real_class] at hrc
          | vInt n => simp [get_real_class] at hrc
          | vStr s => simp [get_real_class] at hrc
          | vList xs => simp [get_real_class] at hrc
          | vEnum vs x => simp [get_real_class] at hrc
          | vObj s a => simp [get_real_class] at hrc
          | vXList e d xs => simp [get_real_class] at hrc
  · -- xlistElemsF
    intro elem disc xs h
    match xs with
    | [] => simp only [xlistElemsF, needXL]
    | x :: xs =>
      have hm := msize_pos x
      simp only [needXL] at h ⊢
      obtain ⟨f', rfl⟩ : ∃ f', f = f' + 1 := ⟨f - 1, by omega⟩
      rw [show msize x + 16 + needXL xs + 1 = (msize x + 15 + needXL xs) + 1 + 1 by omega]
      simp only [xlistElemsF]
      rw [IHel f' (by omega) elem disc x (by omega),
        IHel (msize x + 15 + needXL xs) (by omega) elem disc x (by omega),
        IHxl f' (by omega) elem disc xs (by omega),
        IHxl (msize x + 15 + needXL xs) (by omega) elem disc xs (by omega)]

/-! ### Unfolding equations for the canonical-fuel wrappers -/

/-- Whether the positional arguments are exactly one raw mapping
(the dictionary-mode trigger of `__init__`). -/
def isSingleDict : List RValue → Bool
  | [.vDict _] => true
  | _ => false

/-- Scalar declared types (`int`, `str`, `bool`, plain `list`). -/
def isScalarT : DType → Bool
  | .dInt => true
  | .dStr => true
  | .dBool => true
  | .dList => true
  | _ => false

/-- Whether a runtime value is a raw mapping. -/
def isVDict : RValue → Bool
  | .vDict _ => true
  | _ => false

/-- Dictionary mode is selected exactly on a single raw-mapping argument. -/
theorem construct_single_dict (s : Schema) (fs kw : List (String × RValue)) :
    construct s [.vDict fs] kw = constructDict s fs kw := by
  show constructXF _ s _ kw = _
  simp only [needL, needP, msize, constructXF]
  rw [show (20 : Nat) + msizeFs fs + 4 + 0 + needP kw + 4 =
    (27 + msizeFs fs + needP kw) + 1 by omega]
  have hb := needP_le_msizeFs fs
  exact (stabMaster (27 + msizeFs fs + needP kw)).2.2.2.2.1 s fs kw (by omega)

/-- Otherwise construction runs the positional-and-keyword path. -/
theorem construct_not_dict (s : Schema) (args : List RValue)
    (kw : List (String × RValue)) (h : isSingleDict args = false) :
    construct s args kw = constructArgs s args kw := by
  show constructXF ((needL args + needP kw + 4) + 1) s args kw = _
  obtain ⟨g, hg, hge⟩ :
      ∃ g, needL args + needP kw + 4 = g + 1 ∧ needL args + needP kw + 2 ≤ g :=
    ⟨needL args + needP kw + 3, by omega, by omega⟩
  rw [hg]
  have hstab := (stabMaster g).2.2.2.2.2.1 s args kw hge
  match args, h with
  | [], _ => simpa only [constructXF] using hstab
  | v :: w :: rest, _ => simpa only [constructXF] using hstab
  | [v], h =>
    cases v <;>
      first
      | simpa only [constructXF] using hstab
      | (exfalso; revert h; simp [isSingleDict])

/-- One-step equation for single-mapping construction. -/
theorem constructDict_eq (s : Schema) (fs kw : List (String × RValue)) :
    constructDict s fs kw =
      match procDict s (initAttrs s) fs with
      | .error e => .error e
      | .ok a1 =>
        match procKw s a1 kw with
        | .error e => .error e
        | .ok a2 =>
          match confirm_required_args s a2 with
          | .error e => .error e
          | .ok _ => .ok (s, a2) := by
  show constructDictF ((needP fs + needP kw + 2) + 1) s fs kw = _
  simp only [constructDictF]
  rw [show needP fs + needP kw + 2 = (needP fs + needP kw + 1) + 1 by omega]
  rw [(stabMaster _).2.1 s (initAttrs s) fs (by omega)]
  have e2 : ∀ i, procKwF ((needP fs + needP kw + 1) + 1) s i kw = procKw s i kw :=
    fun i => (stabMaster _).2.2.2.1 s i kw (by omega)
  simp only [e2]
  rfl

/-- One-step equation for positional-and-keyword construction. -/
theorem constructArgs_eq (s : Schema) (args : List RValue)
    (kw : List (String × RValue)) :
    constructArgs s args kw =
      match procPos s (initAttrs s) 0 args with
      | .error e => .error e
      | .ok a1 =>
        match procKw s a1 kw with
        | .error e => .error e
        | .ok a2 =>
          match confirm_required_args s a2 with
          | .error e => .error e
          | .ok _ => .ok (s, a2) := by
  show constructArgsF ((needL args + needP kw + 2) + 1) s args kw = _
  simp only [constructArgsF]
  rw [show needL args + needP kw + 2 = (needL args + needP kw + 1) + 1 by omega]
  rw [(stabMaster _).2.2.1 s (initAttrs s) 0 args (by omega)]
  have e2 : ∀ i, procKwF ((needL args + needP kw + 1) + 1) s i kw = procKw s i kw :=
    fun i => (stabMaster _).2.2.2.1 s i kw (by omega)
  simp only [e2]
  rfl

/-- Dictionary-mode processing of the empty mapping. -/
theorem procDict_nil (s : Schema) (inst : List (String × RValue)) :
    procDict s inst [] = .ok inst := rfl

/-- Dictionary-mode processing of one more key. -/
theorem procDict_cons (s : Schema) (inst : List (String × RValue)) (k : String)
    (v : RValue) (fs : List (String × RValue)) :
    procDict s inst ((k, v) :: fs) =
      if k ∈ s.jsonNames then
        match alook (json_dict s) k with
        | Option.none => .error (.keyErr k)
        | some an =>
          match alook (type_dict s) an with
          | Option.none => .error (.keyErr an)
          | some t =>
            if is_proper_type t v then
              match setAttrC s inst an v with
              | .ok i => procDict s i fs
              | .error e => .error e
            else .error (.typeDict s.name k)
      else procDict s inst fs := by
  show procDictF (needP ((k, v) :: fs) + 1) s inst ((k, v) :: fs) = _
  simp only [needP, procDictF]
  rw [show msize v + 4 + needP fs = (msize v + 3 + needP fs) + 1 by omega]
  have hset : ∀ i n, setAttrCF ((msize v + 3 + needP fs) + 1) s i n v = setAttrC s i n v :=
    fun i n => (stabMaster _).1 s i n v (by omega)
  have hd : ∀ i, procDictF ((msize v + 3 + needP fs) + 1) s i fs = procDict s i fs :=
    fun i => (stabMaster _).2.1 s i fs (by omega)
  simp only [hset, hd]

/-- Positional processing of no further arguments. -/
theorem procPos_nil (s : Schema) (inst : List (String × RValue)) (k : Nat) :
    procPos s inst k [] = .ok inst := rfl

/-- Positional processing of one more argument. -/
theorem procPos_cons (s : Schema) (inst : List (String × RValue)) (k : Nat)
    (v : RValue) (args : List RValue) :
    procPos s inst k (v :: args) =
      match s.attrTypes.get? k with
      | Option.none => .error .indexErr
      | some t =>
        if isinst v t then
          match s.attrNames.get? k with
          | Option.none => .error .indexErr
          | some an =>
            match setAttrC s inst an v with
            | .ok i => procPos s i (k + 1) args
            | .error e => .error e
        else
          match s.attrNames.get? k with
          | Option.none => .error .indexErr
          | some an => .error (.typePos s.name k an) := by
  show procPosF (needL (v :: args) + 1) s inst k (v :: args) = _
  simp only [needL, procPosF]
  rw [show msize v + 4 + needL args = (msize v + 3 + needL args) + 1 by omega]
  have hset : ∀ i n, setAttrCF ((msize v + 3 + needL args) + 1) s i n v = setAttrC s i n v :=
    fun i n => (stabMaster _).1 s i n v (by omega)
  have hp : ∀ i, procPosF ((msize v + 3 + needL args) + 1) s i (k + 1) args =
      procPos s i (k + 1) args :=
    fun i => (stabMaster _).2.2.1 s i (k + 1) args (by omega)
  simp only [hset, hp]

/-- Keyword processing of no further keywords. -/
theorem procKw_nil (s : Schema) (inst : List (String × RValue)) :
    procKw s inst [] = .ok inst := rfl

/-- Keyword processing of one more keyword. -/
theorem procKw_cons (s : Schema) (inst : List (String × RValue)) (k : String)
    (v : RValue) (kws : List (String × RValue)) :
    procKw s inst ((k, v) :: kws) =
      if k ∈ argNames s then
        match alook (arg_dict s) k with
        | Option.none => .error (.keyErr k)
        | some an =>
          match alook (type_dict s) an with
          | Option.none => .error (.keyErr an)
          | some t =>
            if isinst v t then
              match setAttrC s inst an v with
              | .ok i => procKw s i kws
              | .error e => .error e
            else .error (.typeKw s.name k)
      else procKw s inst kws := by
  show procKwF (needP ((k, v) :: kws) + 1) s inst ((k, v) :: kws) = _
  simp only [needP, procKwF]
  rw [show msize v + 4 + needP kws = (msize v + 3 + needP kws) + 1 by omega]
  have hset : ∀ i n, setAttrCF ((msize v + 3 + needP kws) + 1) s i n v = setAttrC s i n v :=
    fun i n => (stabMaster _).1 s i n v (by omega)
  have hk2 : ∀ i, procKwF ((msize v + 3 + needP kws) + 1) s i kws = procKw s i kws :=
    fun i => (stabMaster _).2.2.2.1 s i kws (by omega)
  simp only [hset, hk2]

/-- `_setattr` when `typedict` has no entry for the attribute. -/
theorem setAttrC_keyErr (s : Schema) (inst : List (String × RValue)) (n : String)
    (v : RValue) (h : alook (type_dict s) n = Option.none) :
    setAttrC s inst n v = .error (.keyErr n) := by
  show setAttrCF (msize v + 1) s inst n v = _
  have hm := msize_pos v
  obtain ⟨m, hm'⟩ : ∃ m, msize v = m + 1 := ⟨msize v - 1, by omega⟩
  rw [hm']
  simp only [setAttrCF, h]

/-- `_setattr` on an `Enum`-typed attribute. -/
theorem setAttrC_enum (s : Schema) (inst : List (String × RValue)) (n : String)
    (v : RValue) (vs : List String)
    (h : alook (type_dict s) n = some (.dEnum vs)) :
    setAttrC s inst n v =
      match enumNew vs v with
      | .ok v' => .ok (pyUpd inst n v')
      | .error e => .error e := by
  show setAttrCF (msize v + 1) s inst n v = _
  have hm := msize_pos v
  obtain ⟨m, hm'⟩ : ∃ m, msize v = m + 1 := ⟨msize v - 1, by omega⟩
  rw [hm']
  simp only [setAttrCF, h]

/-- `_setattr` on an `XmattersList`-typed attribute with a plain list. -/
theorem setAttrC_xlist (s : Schema) (inst : List (String × RValue)) (n : String)
    (xs : List RValue) (elem : Schema) (disc : Bool)
    (h : alook (type_dict s) n = some (.dXList elem disc)) :
    setAttrC s inst n (.vList xs) =
      match xlistElems elem disc xs with
      | .ok ys => .ok (pyUpd inst n (.vXList elem disc ys))
      | .error e => .error e := by
  show setAttrCF (msize (.vList xs) + 1) s inst n (.vList xs) = _
  simp only [msize]
  rw [show (20 : Nat) + msizeEls xs + 1 = ((20 + msizeEls xs - 1) + 1) + 1 by omega]
  simp only [setAttrCF, h]
  have := needXL_le_msizeEls xs
  rw [(stabMaster _).2.2.2.2.2.2.2 elem disc xs (by omega)]
  rfl

/-- `_setattr` on a nested-entity-typed attribute with a raw mapping:
the nested constructor runs in dictionary mode. -/
theorem setAttrC_obj (s : Schema) (inst : List (String × RValue)) (n : String)
    (fs : List (String × RValue)) (s' : Schema)
    (h : alook (type_dict s) n = some (.dObj s')) :
    setAttrC s inst n (.vDict fs) =
      match constructDict s' fs [] with
      | .ok i => .ok (pyUpd inst n (.vObj i.1 i.2))
      | .error e => .error e := by
  show setAttrCF (msize (.vDict fs) + 1) s inst n (.vDict fs) = _
  simp only [msize]
  rw [show (20 : Nat) + msizeFs fs + 1 = ((20 + msizeFs fs - 1) + 1) + 1 by omega]
  simp only [setAttrCF, h]
  have := needP_le_msizeFs fs
  rw [(stabMaster (20 + msizeFs fs - 1)).2.2.2.2.1 s' fs [] (by simp only [needP]; omega)]
  rfl

/-- `_setattr` on a scalar-typed attribute with a non-mapping value: the
value is stored unchanged. -/
theorem setAttrC_store (s : Schema) (inst : List (String × RValue)) (n : String)
    (v : RValue) (t : DType) (h : alook (type_dict s) n = some t)
    (ht : isScalarT t = true) (hv : isVDict v = false) :
    setAttrC s inst n v = .ok (pyUpd inst n v) := by
  show setAttrCF (msize v + 1) s inst n v = _
  have hm := msize_pos v
  obtain ⟨m, hm'⟩ : ∃ m, msize v = m + 1 := ⟨msize v - 1, by omega⟩
  rw [hm']
  cases t <;> simp [isScalarT] at ht <;> cases v <;>
    first
    | (simp only [setAttrCF, h]; done)
    | (exfalso; revert hv; simp [isVDict])

/-- `_setattr` on a nested-entity-typed attribute with a non-mapping value:
the value is stored unchanged.  (This is how positional and keyword mode
store an already-constructed instance.) -/
theorem setAttrC_obj_store (s : Schema) (inst : List (String × RValue))
    (n : String) (v : RValue) (s' : Schema)
    (h : alook (type_dict s) n = some (.dObj s')) (hv : isVDict v = false) :
    setAttrC s inst n v = .ok (pyUpd inst n v) := by
  show setAttrCF (msize v + 1) s inst n v = _
  have hm := msize_pos v
  obtain ⟨m, hm'⟩ : ∃ m, msize v = m + 1 := ⟨msize v - 1, by omega⟩
  rw [hm']
  cases v <;>
    first
    | (simp only [setAttrCF, h]; done)
    | (exfalso; revert hv; simp [isVDict])

/-- The element loop on the empty array. -/
theorem xlistElems_nil (elem : Schema) (disc : Bool) :
    xlistElems elem disc [] = .ok [] := rfl

/-- The element loop on one more element. -/
theorem xlistElems_cons (elem : Schema) (disc : Bool) (x : RValue)
    (xs : List RValue) :
    xlistElems elem disc (x :: xs) =
      match constructElem elem disc x with
      | .ok v =>
        match xlistElems elem disc xs with
        | .ok vs => .ok (v :: vs)
        | .error e => .error e
      | .error e => .error e := by
  show xlistElemsF (needXL (x :: xs) + 1) elem disc (x :: xs) = _
  simp only [needXL, xlistElemsF]
  rw [show msize x + 16 + needXL xs = (msize x + 15 + needXL xs) + 1 by omega]
  rw [(stabMaster _).2.2.2.2.2.2.1 elem disc x (by omega),
    (stabMaster _).2.2.2.2.2.2.2 elem disc xs (by omega)]
  rfl

/-- One element of a plain (non-discriminating) collection, from a raw
mapping: `base_class(jobj)` in dictionary mode. -/
theorem constructElem_plain_dict (elem : Schema) (fs : List (String × RValue)) :
    constructElem elem false (.vDict fs) =
      match constructDict elem fs [] with
      | .ok i => .ok (.vObj i.1 i.2)
      | .error e => .error e := by
  show constructElemF (msize (.vDict fs) + 13) elem false (.vDict fs) = _
  simp only [msize]
  rw [show (20 : Nat) + msizeFs fs + 13 = ((20 + msizeFs fs + 12) + 1) by omega]
  simp only [constructElemF]
  have := needP_le_msizeFs fs
  rw [show (20 : Nat) + msizeFs fs + 12 = ((20 + msizeFs fs + 11) + 1) by omega]
  rw [(stabMaster _).2.2.2.2.1 elem fs [] (by simp only [needP]; omega)]
  rfl

/-- One element of the discriminating `RecipientList`, from a raw mapping:
`_get_real_class` dispatch, then the selected class's constructor. -/
theorem constructElem_disc_dict (fs : List (String × RValue)) :
    constructElem recipientSchema true (.vDict fs) =
      match get_real_class (.vDict fs) with
      | .error e => .error e
      | .ok .group => .error (.argCount "Group")
      | .ok .person => .error (.argCount "Person")
      | .ok .dynTeam =>
        match constructDict dynamicTeamSchema fs [] with
        | .ok i => .ok (.vObj (dynTeamPost i).1 (dynTeamPost i).2)
        | .error e => .error e
      | .ok .recipient =>
        match constructDict recipientSchema fs [] with
        | .ok i => .ok (.vObj i.1 i.2)
        | .error e => .error e := by
  show constructElemF (msize (.vDict fs) + 13) recipientSchema true (.vDict fs) = _
  simp only [msize]
  rw [show (20 : Nat) + msizeFs fs + 13 = ((20 + msizeFs fs + 12) + 1) by omega]
  simp only [constructElemF]
  have := needP_le_msizeFs fs
  have hc : ∀ sch, constructDictF (20 + msizeFs fs + 12) sch fs [] = constructDict sch fs [] := by
    intro sch
    rw [show (20 : Nat) + msizeFs fs + 12 = ((20 + msizeFs fs + 11) + 1) by omega]
    exact (stabMaster _).2.2.2.2.1 sch fs [] (by simp only [needP]; omega)
  simp only [hc]

/-! ### Association-list toolkit -/

/-- Appending a fresh key is appending. -/
theorem pyUpd_not_mem : ∀ (ps : List (String × α)) (k : String) (v : α),
    k ∉ ps.map Prod.fst → pyUpd ps k v = ps ++ [(k, v)]
  | [], _, _, _ => rfl
  | (k', w) :: ps, k, v, h => by
    simp only [List.map, List.mem_cons] at h
    push_neg at h
    simp only [pyUpd, if_neg (Ne.symm h.1), List.cons_append]
    rw [pyUpd_not_mem ps k v h.2]

/-- `dict(pairs)` with pairwise-distinct keys is the pair list itself. -/
theorem pyDict_nodup (ps : List (String × α)) (h : (ps.map Prod.fst).Nodup) :
    pyDict ps = ps := by
  suffices key : ∀ acc : List (String × α),
      (∀ p ∈ ps, p.1 ∉ acc.map Prod.fst) → (ps.map Prod.fst).Nodup →
      ps.foldl (fun d p => pyUpd d p.1 p.2) acc = acc ++ ps by
    simpa using key [] (by simp) h
  clear h
  induction ps with
  | nil => intro acc _ _; simp
  | cons p ps ih =>
    intro acc hdisj hnd
    simp only [List.foldl]
    rw [pyUpd_not_mem acc p.1 p.2 (hdisj p (by simp))]
    rw [ih (acc ++ [(p.1, p.2)]) ?_ (by simpa using hnd.of_cons)]
    · simp
    · intro q hq
      simp only [List.map_append, List.mem_append]
      push_neg
      refine ⟨hdisj q (by simp [hq]), ?_⟩
      simp only [List.map, List.mem_singleton]
      intro hq1
      have hnd' : (p.1 :: ps.map Prod.fst).Nodup := by simpa using hnd
      exact (List.nodup_cons.mp hnd').1 (hq1 ▸ List.mem_map_of_mem Prod.fst hq)

/-- A lookup misses exactly outside the key set. -/
theorem alook_eq_none : ∀ (ps : List (String × α)) (k : String),
    k ∉ ps.map Prod.fst → alook ps k = Option.none
  | [], _, _ => rfl
  | (k', v) :: ps, k, h => by
    simp only [List.map, List.mem_cons] at h
    push_neg at h
    simp only [alook, if_neg (Ne.symm h.1)]
    exact alook_eq_none ps k h.2

/-- Lookup across an append. -/
theorem alook_append : ∀ (ps qs : List (String × α)) (k : String),
    alook (ps ++ qs) k =
      match alook ps k with
      | some v => some v
      | Option.none => alook qs k
  | [], _, _ => rfl
  | (k', v) :: ps, qs, k => by
    by_cases h : k' = k
    · simp only [List.cons_append, alook, if_pos h]
    · simp only [List.cons_append, alook, if_neg h]
      exact alook_append ps qs k

/-- Lookup in a zip at the key's first position. -/
theorem alook_zip : ∀ (ks : List String) (vs : List α) (i : Nat) (k : String),
    ks.Nodup → ks.get? i = some k → i < vs.length →
    alook (ks.zip vs) k = vs.get? i
  | [], _, _, _, _, h, _ => by simp at h
  | k' :: ks, [], i, k, _, _, h => by simp at h
  | k' :: ks, v :: vs, 0, k, _, hget, _ => by
    simp only [List.get?] at hget
    cases hget
    simp [List.zip, List.zipWith, alook]
  | k' :: ks, v :: vs, i + 1, k, hnd, hget, hlen => by
    simp only [List.get?] at hget
    have hne : k' ≠ k := by
      intro he
      exact (List.nodup_cons.mp hnd).1 (he ▸ List.get?_mem hget)
    simp only [List.zip, List.zipWith, alook, if_neg hne, List.get?]
    exact alook_zip ks vs i k (List.nodup_cons.mp hnd).2 hget (by simpa using hlen)

/-- Positional processing splits over an append. -/
theorem procPos_append : ∀ (xs ys : List RValue) (s : Schema)
    (inst : List (String × RValue)) (key : Nat),
    procPos s inst key (xs ++ ys) =
      match procPos s inst key xs with
      | .ok i1 => procPos s i1 (key + xs.length) ys
      | .error e => .error e
  | [], ys, s, inst, key => by simp [procPos_nil]
  | v :: xs, ys, s, inst, key => by
    simp only [List.cons_append]
    rw [procPos_cons, procPos_cons]
    cases hty : s.attrTypes.get? key with
    | none => simp only [hty]
    | some t =>
      simp only [hty]
      by_cases hi : isinst v t
      · simp only [hi, if_true]
        cases hnm : s.attrNames.get? key with
        | none => simp only [hnm]
        | some an =>
          simp only [hnm]
          have ih : ∀ j, procPos s j (key + 1) (xs ++ ys) =
              match procPos s j (key + 1) xs with
              | .ok i1 => procPos s i1 (key + 1 + xs.length) ys
              | .error e => .error e := fun j => procPos_append xs ys s j (key + 1)
          simp only [ih, List.length_cons,
            show key + (xs.length + 1) = key + 1 + xs.length from by omega]
          cases hs : setAttrC s inst an v <;> simp only [hs]
      · rw [if_neg hi, if_neg hi]
        simp only [List.length_cons]
        cases hnm : s.attrNames.get? key <;> simp only [hnm]

/-- Dictionary processing ignores keys outside the declared JSON names. -/
theorem procDict_filter (s : Schema) :
    ∀ (fs : List (String × RValue)) (inst : List (String × RValue)),
    procDict s inst (fs.filter (fun p => decide (p.1 ∈ s.jsonNames))) =
      procDict s inst fs
  | [], _ => rfl
  | (k, v) :: fs, inst => by
    by_cases hk : k ∈ s.jsonNames
    · rw [show ((k, v) :: fs).filter (fun p => decide (p.1 ∈ s.jsonNames)) =
        (k, v) :: fs.filter (fun p => decide (p.1 ∈ s.jsonNames)) by simp [List.filter_cons, hk]]
      rw [procDict_cons, procDict_cons, if_pos hk, if_pos hk]
      cases hj : alook (json_dict s) k with
      | none => simp only [hj]
      | some an =>
        simp only [hj]
        cases ht : alook (type_dict s) an with
        | none => simp only [ht]
        | some t =>
          simp only [ht]
          by_cases hp : is_proper_type t v
          · simp only [hp, if_true]
            cases hs : setAttrC s inst an v with
            | ok i =>
              simp only [hs]
              exact procDict_filter s fs i
            | error e => simp only [hs]
          · rw [if_neg hp, if_neg hp]
    · rw [show ((k, v) :: fs).filter (fun p => decide (p.1 ∈ s.jsonNames)) =
        fs.filter (fun p => decide (p.1 ∈ s.jsonNames)) by simp [List.filter_cons, hk]]
      rw [procDict_cons, if_neg hk]
      exact procDict_filter s fs inst

/-- Dropping to a present index exposes the element. -/
theorem drop_cons_of_get? : ∀ (l : List α) (i : Nat) (v : α),
    l.get? i = some v → l.drop i = v :: l.drop (i + 1)
  | [], i, v, h => by simp at h
  | x :: l, 0, v, h => by
    simp only [List.get?] at h
    cases h
    rfl
  | x :: l, i + 1, v, h => by
    simp only [List.get?] at h
    simpa using drop_cons_of_get? l i v h

/-- The first components of a zip are the truncated first list. -/
theorem zip_map_fst : ∀ (ks : List String) (vs : List α),
    (ks.zip vs).map Prod.fst = ks.take vs.length
  | [], _ => by simp
  | _ :: _, [] => by simp
  | k :: ks, v :: vs => by
    simp only [List.zip, List.zipWith, List.map, List.length_cons, List.take]
    exact congrArg (k :: ·) (zip_map_fst ks vs)

/-- `_process_arg_names` keeps the declared length. -/
theorem process_arg_names_length : ∀ names : List String,
    (process_arg_names names).1.length = names.length ∧
      (process_arg_names names).2.length = names.length
  | [] => ⟨rfl, rfl⟩
  | arg :: rest => by
    have ih := process_arg_names_length rest
    simp only [process_arg_names]
    cases arg.data with
    | nil => simp [ih.1, ih.2]
    | cons c tail =>
      by_cases hc : c = '*'
      · subst hc; simp [ih.1, ih.2]
      · have : (match (c :: tail : List Char) with
            | '*' :: tail => ((String.mk tail :: (process_arg_names rest).1),
                (false :: (process_arg_names rest).2))
            | _ => ((arg :: (process_arg_names rest).1),
                (true :: (process_arg_names rest).2))) =
            ((arg :: (process_arg_names rest).1), (true :: (process_arg_names rest).2)) := by
          split
          · next heq => cases heq; exact absurd rfl hc
          · rfl
        rw [this]
        simp [ih.1, ih.2]

/-! ## The claims -/

/-- A schema whose `_arg_names` list is shorter than its other three
declared sequences: used to observe that the engine builds its lookup
dictionaries from `dict(zip(...))` without any length check. -/
def mismatchedSchema : Schema :=
  .mk "Mismatched" ["a", "b"] ["x", "y", "z"] [.dStr, .dStr, .dStr] ["x", "y", "z"]

/-- C4 counterexample: with two argument names against three attribute
names, `_build_arg_dicts` silently zips down to two entries, no failure is
raised at any point, and an instance is even constructed successfully from
such a schema. -/
theorem claim_C4_counterexample :
    arg_dict mismatchedSchema = [("a", "x"), ("b", "y")] ∧
    req_args_dict mismatchedSchema = [("a", true), ("b", true)] ∧
    attr_dict mismatchedSchema = [("x", "x"), ("y", "y"), ("z", "z")] ∧
    construct mismatchedSchema
        [.vDict [("x", .vStr "1"), ("y", .vStr "2"), ("z", .vStr "3")]] [] =
      .ok (mismatchedSchema,
        [("x", .vStr "1"), ("y", .vStr "2"), ("z", .vStr "3")]) :=
  ⟨rfl, rfl, rfl, rfl⟩

/-- C4 (amended): building the lookup dictionaries never fails; the maps
are built by `dict(zip(...))`, which silently truncates to the shorter of
the two zipped sequences (shown by their lengths), and `_process_arg_names`
preserves the declared length of `_arg_names`. -/
theorem claim_C4_zip_truncates :
    (∀ s : Schema, s.attrNames.Nodup →
      (type_dict s).length = min s.attrNames.length s.attrTypes.length) ∧
    (∀ s : Schema, (argNames s).Nodup →
      (arg_dict s).length = min (argNames s).length s.attrNames.length) ∧
    (∀ s : Schema, (argNames s).length = s.argNamesRaw.length) := by
  refine ⟨?_, ?_, ?_⟩
  · intro s h
    rw [type_dict, pyDict_nodup _ ?_, List.length_zip]
    rw [zip_map_fst]
    exact h.sublist (List.take_sublist _ _)
  · intro s h
    rw [arg_dict, pyDict_nodup _ ?_, List.length_zip]
    rw [zip_map_fst]
    exact h.sublist (List.take_sublist _ _)
  · intro s
    exact (process_arg_names_length s.argNamesRaw).1

/-- C4 amended witness: the amended statement applied to the `Error`
schema. -/
theorem claim_C4_witness :
    (type_dict errorSchema).length =
      min errorSchema.attrNames.length errorSchema.attrTypes.length :=
  claim_C4_zip_truncates.1 errorSchema (by decide)

/-- C2: once every construction input has been applied, the required-field
check collects every required argument whose mapped attribute is still
`None` and fails naming all of them; in particular decoding `Error` without
`code` names exactly `code`, and without `code` and `reason` names both. -/
theorem claim_C2_missing_required_lists_all :
    (∀ (s : Schema) (fs kw i1 i2 : List (String × RValue)) (ms : List String),
      procDict s (initAttrs s) fs = .ok i1 →
      procKw s i1 kw = .ok i2 →
      missingWalk s i2 (argNames s) = .ok ms →
      ms ≠ [] →
      construct s [.vDict fs] kw = .error (.missingArgs s.name ms)) ∧
    from_json_str errorSchema "\x7b\"reason\":\"Not Found\",\"message\":\"x\"\x7d" =
      .error (.missingArgs "Error" ["code"]) ∧
    from_json_str errorSchema "\x7b\"message\":\"x\"\x7d" =
      .error (.missingArgs "Error" ["code", "reason"]) := by
  refine ⟨?_, rfl, rfl⟩
  intro s fs kw i1 i2 ms h1 h2 h3 hne
  obtain ⟨a, l, rfl⟩ : ∃ a l, ms = a :: l := by
    cases ms with
    | nil => exact absurd rfl hne
    | cons a l => exact ⟨a, l, rfl⟩
  rw [construct_single_dict, constructDict_eq]
  simp only [h1, h2]
  unfold confirm_required_args
  simp only [h3]

/-- C2 witness: the general statement applied to decoding `Error` without
`code` and `reason`. -/
theorem claim_C2_witness :
    construct errorSchema [.vDict [("message", .vStr "x")]] [] =
      .error (.missingArgs "Error" ["code", "reason"]) :=
  claim_C2_missing_required_lists_all.1 errorSchema
    [("message", .vStr "x")] [] _ _ _ rfl rfl rfl (by decide)

/-- C3 counterexample: a keyword whose name is not a declared constructor
argument is silently ignored — construction succeeds, no "unknown
argument" failure of any kind is raised. -/
theorem claim_C3_counterexample :
    construct errorSchema []
        [("bogus", .vStr "?"), ("code", .vInt 1), ("reason", .vStr "a"),
         ("message", .vStr "b")] =
      .ok (errorSchema,
        [("code", .vInt 1), ("reason", .vStr "a"), ("message", .vStr "b")]) := rfl

/-- C3 (amended): in keyword mode a declared name is checked with
`isinstance` against the mapped attribute's type and an incompatible value
raises the `FieldTypeMismatch` `TypeError` naming the keyword, but a name
that is not a declared constructor argument is skipped without any
effect. -/
theorem claim_C3_keyword_mode :
    (∀ (s : Schema) (inst : List (String × RValue)) (k : String) (v : RValue)
      (kws : List (String × RValue)), k ∉ argNames s →
      procKw s inst ((k, v) :: kws) = procKw s inst kws) ∧
    (∀ (s : Schema) (inst : List (String × RValue)) (k : String) (v : RValue)
      (kws : List (String × RValue)) (an : String) (t : DType),
      k ∈ argNames s →
      alook (arg_dict s) k = some an →
      alook (type_dict s) an = some t →
      isinst v t = false →
      procKw s inst ((k, v) :: kws) = .error (.typeKw s.name k)) ∧
    construct errorSchema []
        [("code", .vStr "x"), ("reason", .vStr "a"), ("message", .vStr "b")] =
      .error (.typeKw "Error" "code") := by
  refine ⟨?_, ?_, rfl⟩
  · intro s inst k v kws hk
    rw [procKw_cons, if_neg hk]
  · intro s inst k v kws an t hk h1 h2 hi
    rw [procKw_cons, if_pos hk]
    simp [h1, h2, hi]

/-- C3 witness: the amended statement applied to an unknown keyword and to
a mismatched declared keyword on `Error`. -/
theorem claim_C3_witness :
    procKw errorSchema [] [("bogus", .vStr "?")] = procKw errorSchema [] [] ∧
    procKw errorSchema [("code", RValue.none)] [("code", .vStr "x")] =
      .error (.typeKw "Error" "code") :=
  ⟨claim_C3_keyword_mode.1 errorSchema [] "bogus" (.vStr "?") [] (by decide),
   claim_C3_keyword_mode.2.1 errorSchema [("code", RValue.none)] "code"
     (.vStr "x") [] "code" .dInt (by decide) rfl rfl rfl⟩

/-- C7: positional inputs are assigned in declared order, and the first
wrong-shaped value, at zero-based index `i`, raises the `FieldTypeMismatch`
`TypeError` carrying exactly that index. -/
theorem claim_C7_positional_mode :
    (∀ (s : Schema) (args : List RValue) (kw : List (String × RValue))
      (i : Nat) (v : RValue) (t : DType) (an : String)
      (i1 : List (String × RValue)),
      isSingleDict args = false →
      procPos s (initAttrs s) 0 (args.take i) = .ok i1 →
      args.get? i = some v →
      s.attrTypes.get? i = some t →
      isinst v t = false →
      s.attrNames.get? i = some an →
      construct s args kw = .error (.typePos s.name i an)) ∧
    construct errorSchema [.vStr "x", .vStr "a", .vStr "b"] [] =
      .error (.typePos "Error" 0 "code") ∧
    construct errorSchema [.vInt 404, .vStr "a", .vStr "b"] [] =
      .ok (errorSchema,
        [("code", .vInt 404), ("reason", .vStr "a"), ("message", .vStr "b")]) := by
  refine ⟨?_, rfl, rfl⟩
  intro s args kw i v t an i1 hsd htake hget hty hi hnm
  have hlen : i < args.length := by
    by_contra hge
    rw [List.get?_eq_none.mpr (by omega)] at hget
    exact Option.noConfusion hget
  rw [construct_not_dict s args kw hsd, constructArgs_eq]
  have hsplit : args = args.take i ++ args.drop i := (List.take_append_drop i args).symm
  have hdrop : args.drop i = v :: args.drop (i + 1) := drop_cons_of_get? args i v hget
  rw [show procPos s (initAttrs s) 0 args =
      procPos s (initAttrs s) 0 (args.take i ++ args.drop i) by rw [← hsplit]]
  rw [procPos_append]
  simp only [htake]
  rw [hdrop, procPos_cons, List.length_take, show min i args.length = i by omega,
    Nat.zero_add]
  have hty2 : s.attrTypes[i]? = some t := by rw [← List.get?_eq_getElem?]; exact hty
  have hnm2 : s.attrNames[i]? = some an := by rw [← List.get?_eq_getElem?]; exact hnm
  simp [hty2, hi, hnm2]

/-- C7 witness: the general statement applied to `Error` with a string in
the `int`-typed position 0. -/
theorem claim_C7_witness :
    construct errorSchema [.vStr "x", .vStr "a", .vStr "b"] [] =
      .error (.typePos "Error" 0 "code") :=
  claim_C7_positional_mode.1 errorSchema [.vStr "x", .vStr "a", .vStr "b"] []
    0 (.vStr "x") .dInt "code" (initAttrs errorSchema) rfl rfl rfl rfl rfl rfl

/-- C9: dictionary-mode construction only processes keys that are declared
wire names — the whole construction is unchanged if the raw mapping is
first filtered to the declared names, and a concrete decode with an extra,
undeclared key succeeds with the extra key having no effect. -/
theorem claim_C9_unknown_keys_ignored :
    (∀ (s : Schema) (fs kw : List (String × RValue)),
      construct s [.vDict fs] kw =
        construct s [.vDict (fs.filter (fun p => decide (p.1 ∈ s.jsonNames)))] kw) ∧
    construct errorSchema
        [.vDict [("zzz", .vStr "?"), ("code", .vInt 1), ("reason", .vStr "a"),
                 ("message", .vStr "b")]] [] =
      .ok (errorSchema,
        [("code", .vInt 1), ("reason", .vStr "a"), ("message", .vStr "b")]) ∧
    construct errorSchema
        [.vDict [("zzz", .vStr "?"), ("code", .vInt 1), ("reason", .vStr "a"),
                 ("message", .vStr "b")]] [] =
      construct errorSchema
        [.vDict [("code", .vInt 1), ("reason", .vStr "a"), ("message", .vStr "b")]]
        [] := by
  refine ⟨?_, rfl, rfl⟩
  intro s fs kw
  rw [construct_single_dict, construct_single_dict, constructDict_eq, constructDict_eq,
    procDict_filter]

/-- C9 witness: the general statement applied to the `Error` decode with an
extra key. -/
theorem claim_C9_witness :
    construct errorSchema [.vDict [("zzz", .vStr "?"), ("code", .vInt 1)]] [] =
      construct errorSchema
        [.vDict (([("zzz", .vStr "?"), ("code", .vInt 1)] :
            List (String × RValue)).filter
          (fun p => decide (p.1 ∈ errorSchema.jsonNames)))] [] :=
  claim_C9_unknown_keys_ignored.1 errorSchema
    [("zzz", .vStr "?"), ("code", .vInt 1)] []

/-- C10: the acceptance rule differs between modes — `_is_proper_type`
(dictionary mode) demands the exact runtime class for a scalar-typed
attribute while positional and keyword modes use `isinstance`, which also
accepts proper subtypes; concretely, a `bool` offered for the `int`-typed
`code` of `Error` is rejected by dictionary mode but accepted positionally
and as a keyword. -/
theorem claim_C10_mode_type_asymmetry :
    (∀ (t : DType) (v : RValue), isScalarT t = true →
      is_proper_type t v = typeIs v t) ∧
    (∀ (v : RValue) (t : DType), typeIs v t = true → isinst v t = true) ∧
    (∀ b : Bool, typeIs (.vBool b) .dInt = false ∧ isinst (.vBool b) .dInt = true) ∧
    construct errorSchema
        [.vDict [("code", .vBool true), ("reason", .vStr "a"),
                 ("message", .vStr "b")]] [] =
      .error (.typeDict "Error" "code") ∧
    construct errorSchema [.vBool true, .vStr "a", .vStr "b"] [] =
      .ok (errorSchema,
        [("code", .vBool true), ("reason", .vStr "a"), ("message", .vStr "b")]) ∧
    construct errorSchema []
        [("code", .vBool true), ("reason", .vStr "a"), ("message", .vStr "b")] =
      .ok (errorSchema,
        [("code", .vBool true), ("reason", .vStr "a"), ("message", .vStr "b")]) := by
  refine ⟨?_, ?_, fun b => ⟨rfl, rfl⟩, rfl, rfl, rfl⟩
  · intro t v ht
    cases t <;> simp [isScalarT] at ht <;> cases v <;> rfl
  · intro v t h
    cases v <;> cases t <;> simp_all [isinst, typeIs]

/-- C10 witness: the general parts applied at `int` and a boolean value. -/
theorem claim_C10_witness :
    is_proper_type .dInt (.vBool true) = typeIs (.vBool true) .dInt ∧
    isinst (.vStr "s") .dStr = true :=
  ⟨claim_C10_mode_type_asymmetry.1 .dInt (.vBool true) rfl,
   claim_C10_mode_type_asymmetry.2.1 (.vStr "s") .dStr rfl⟩

/-- Recognizes the `ValueError` kind the spec calls
`UnknownDiscriminatorValue`. -/
def isUnknownDisc : Except XErr RValue → Bool
  | .error (.valueErr _ _) => true
  | _ => false

/-- C5 counterexample: an element whose `recipientType` is not in the
dispatch table makes `RecipientList` decoding fail with the
`UnboundLocalError` of the unassigned `new_cls` — not with any
`UnknownDiscriminatorValue` (`ValueError`) failure. -/
theorem claim_C5_counterexample :
    recipientListFromJsonObj [.vDict [("recipientType", .vStr "VEHICLE")]] =
      .error (.unboundLocal "new_cls") ∧
    isUnknownDisc
      (recipientListFromJsonObj [.vDict [("recipientType", .vStr "VEHICLE")]]) =
      false :=
  ⟨rfl, rfl⟩

/-- C5 (amended): each element's class is looked up from the fixed
`recipientType` dispatch — `DYNAMIC_TEAM`, `GROUP` and `PERSON` map to
their classes, a falsy value maps to the base `Recipient` — but every
other truthy value (including the declared-yet-unimplemented `DEVICE`)
crashes with an `UnboundLocalError` rather than an
`UnknownDiscriminatorValue`; a `DYNAMIC_TEAM` element decodes end to
end through the table. -/
theorem claim_C5_discriminator_dispatch :
    (∀ str : String, str ∉ (["DYNAMIC_TEAM", "GROUP", "PERSON"] : List String) →
      str ≠ "" →
      get_real_class (.vDict [("recipientType", .vStr str)]) =
        .error (.unboundLocal "new_cls")) ∧
    get_real_class (.vDict [("recipientType", .vStr "DYNAMIC_TEAM")]) = .ok .dynTeam ∧
    get_real_class (.vDict [("recipientType", .vStr "GROUP")]) = .ok .group ∧
    get_real_class (.vDict [("recipientType", .vStr "PERSON")]) = .ok .person ∧
    get_real_class (.vDict [("recipientType", .vStr "DEVICE")]) =
      .error (.unboundLocal "new_cls") ∧
    get_real_class (.vDict [("recipientType", .vStr "")]) = .ok .recipient ∧
    recipientListFromJsonObj
        [.vDict [("id", .vStr "i"), ("targetName", .vStr "t"),
                 ("recipientType", .vStr "DYNAMIC_TEAM"),
                 ("externallyOwned", .vBool false),
                 ("useEmergencyDevice", .vBool true)]] =
      .ok (.vXList recipientSchema true
        [.vObj dynamicTeamSchema
          [("id", .vStr "i"), ("target_name", .vStr "t"),
           ("recipient_type", .vEnum recipientTypeVals "DYNAMIC_TEAM"),
           ("externally_owned", .vBool false),
           ("use_emergency_device", .vBool true),
           ("external_key", .none), ("locked", .none),
           ("status", .vEnum recipientStatusVals "ACTIVE"),
           ("links", .none)]]) := by
  refine ⟨?_, rfl, rfl, rfl, rfl, rfl, rfl⟩
  intro str hmem hne
  simp only [List.mem_cons, List.not_mem_nil, or_false, not_or] at hmem
  obtain ⟨h1, h2, h3⟩ := hmem
  have step1 : get_real_class (.vDict [("recipientType", .vStr str)]) =
      if pyTruthy (.vStr str) = true then
        (match RValue.vStr str with
         | .vStr "DYNAMIC_TEAM" => .ok RClass.dynTeam
         | .vStr "GROUP" => .ok RClass.group
         | .vStr "PERSON" => .ok RClass.person
         | _ => .error (.unboundLocal "new_cls"))
      else .ok RClass.recipient := rfl
  rw [step1, if_pos (by simp [pyTruthy, hne])]
  split
  all_goals
    first
    | rfl
    | (next heq =>
        injection heq with heq2
        first
        | exact absurd heq2 h1
        | exact absurd heq2 h2
        | exact absurd heq2 h3)

/-- C5 witness: the amended dispatch statement applied to the unknown
value `VEHICLE`. -/
theorem claim_C5_witness :
    get_real_class (.vDict [("recipientType", .vStr "VEHICLE")]) =
      .error (.unboundLocal "new_cls") :=
  claim_C5_discriminator_dispatch.1 "VEHICLE" (by decide) (by decide)

/-- Dictionary processing splits over an append. -/
theorem procDict_append : ∀ (fs gs : List (String × RValue)) (s : Schema)
    (inst : List (String × RValue)),
    procDict s inst (fs ++ gs) =
      match procDict s inst fs with
      | .ok i1 => procDict s i1 gs
      | .error e => .error e
  | [], gs, s, inst => by simp [procDict_nil]
  | (k, v) :: fs, gs, s, inst => by
    simp only [List.cons_append]
    rw [procDict_cons, procDict_cons]
    by_cases hk : k ∈ s.jsonNames
    · simp only [hk, if_true]
      cases hj : alook (json_dict s) k with
      | none => simp only [hj]
      | some an =>
        simp only [hj]
        cases ht : alook (type_dict s) an with
        | none => simp only [ht]
        | some t =>
          simp only [ht]
          by_cases hp : is_proper_type t v
          · simp only [hp, if_true]
            cases hs : setAttrC s inst an v with
            | ok i => simp only [hs]; exact procDict_append fs gs s i
            | error e => simp only [hs]
          · rw [if_neg hp, if_neg hp]
    · simp only [hk, if_false]
      exact procDict_append fs gs s inst

/-- C6: for an enumeration-typed attribute, `_setattr` stores the member
whose underlying value equals the raw string and raises the
`UnknownDiscriminatorValue`-kind `ValueError` for any other string; end to
end, decoding `Recipient` with any `status` string succeeds exactly when
the string is one of the two declared `RecipientStatus` values. -/
theorem claim_C6_enum_decode :
    (∀ (s : Schema) (inst : List (String × RValue)) (n : String)
      (vs : List String) (str : String),
      alook (type_dict s) n = some (.dEnum vs) →
      setAttrC s inst n (.vStr str) =
        if str ∈ vs then .ok (pyUpd inst n (.vEnum vs str))
        else .error (.valueErr vs (.vStr str))) ∧
    (∀ str : String,
      construct recipientSchema
          [.vDict [("id", .vStr "i"), ("targetName", .vStr "t"),
                   ("recipientType", .vStr "GROUP"),
                   ("externallyOwned", .vBool false), ("status", .vStr str)]] [] =
        if str ∈ recipientStatusVals then
          .ok (recipientSchema,
            [("id", .vStr "i"), ("target_name", .vStr "t"),
             ("recipient_type", .vEnum recipientTypeVals "GROUP"),
             ("externally_owned", .vBool false), ("external_key", .none),
             ("locked", .none), ("status", .vEnum recipientStatusVals str),
             ("links", .none)])
        else .error (.valueErr recipientStatusVals (.vStr str))) := by
  constructor
  · intro s inst n vs str h
    rw [setAttrC_enum s inst n (.vStr str) vs h]
    simp only [enumNew]
    by_cases hm : str ∈ vs
    · simp [hm]
    · simp [hm]
  · intro str
    rw [construct_single_dict, constructDict_eq]
    rw [show ([("id", RValue.vStr "i"), ("targetName", .vStr "t"),
        ("recipientType", .vStr "GROUP"), ("externallyOwned", .vBool false),
        ("status", .vStr str)] : List (String × RValue)) =
      [("id", RValue.vStr "i"), ("targetName", .vStr "t"),
        ("recipientType", .vStr "GROUP"), ("externallyOwned", .vBool false)] ++
      [("status", .vStr str)] from rfl]
    rw [procDict_append]
    simp only [show procDict recipientSchema (initAttrs recipientSchema)
        [("id", RValue.vStr "i"), ("targetName", .vStr "t"),
         ("recipientType", .vStr "GROUP"), ("externallyOwned", .vBool false)] =
      .ok [("id", .vStr "i"), ("target_name", .vStr "t"),
           ("recipient_type", .vEnum recipientTypeVals "GROUP"),
           ("externally_owned", .vBool false), ("external_key", .none),
           ("locked", .none), ("status", .none), ("links", .none)] from rfl]
    rw [procDict_cons, if_pos (show "status" ∈ recipientSchema.jsonNames by decide)]
    simp only [show alook (json_dict recipientSchema) "status" = some "status" from rfl,
      show alook (type_dict recipientSchema) "status" =
        some (.dEnum recipientStatusVals) from rfl]
    rw [if_pos (show is_proper_type (.dEnum recipientStatusVals) (.vStr str) = true
      from rfl)]
    rw [setAttrC_enum recipientSchema _ "status" (.vStr str) recipientStatusVals rfl]
    simp only [enumNew]
    by_cases hm : str ∈ recipientStatusVals
    · simp only [if_pos hm]
      rfl
    · simp only [if_neg hm]

/-- C6 witness: both parts applied to `ACTIVE` on the `Recipient`
schema. -/
theorem claim_C6_witness :
    setAttrC recipientSchema [("status", RValue.none)] "status" (.vStr "ACTIVE") =
      .ok [("status", .vEnum recipientStatusVals "ACTIVE")] ∧
    construct recipientSchema
        [.vDict [("id", .vStr "i"), ("targetName", .vStr "t"),
                 ("recipientType", .vStr "GROUP"),
                 ("externallyOwned", .vBool false), ("status", .vStr "ACTIVE")]] [] =
      .ok (recipientSchema,
        [("id", .vStr "i"), ("target_name", .vStr "t"),
         ("recipient_type", .vEnum recipientTypeVals "GROUP"),
         ("externally_owned", .vBool false), ("external_key", .none),
         ("locked", .none), ("status", .vEnum recipientStatusVals "ACTIVE"),
         ("links", .none)]) := by
  constructor
  · rw [claim_C6_enum_decode.1 recipientSchema [("status", RValue.none)] "status"
      recipientStatusVals "ACTIVE" rfl]
    rfl
  · rw [claim_C6_enum_decode.2 "ACTIVE"]
    rfl

/-- Lookup in the serialized attribute dictionary. -/
theorem alook_serializeAttrs : ∀ (attrs : List (String × RValue)) (k : String),
    alook (serializeAttrs attrs) k = Option.map serializeV (alook attrs k)
  | [], _ => rfl
  | (k', v) :: attrs, k => by
    by_cases h : k' = k
    · simp [serializeAttrs, alook, h]
    · simp only [serializeAttrs, alook, if_neg h]
      exact alook_serializeAttrs attrs k

/-- The field names the encoder keeps are exactly the `jsondict` keys of
the populated attributes, in `jsondict` order. -/
theorem encodeFields_names (s : Schema) (attrs : List (String × RValue)) :
    (encodeFields s attrs (serializeAttrs attrs)).map Prod.fst =
      (json_dict s).filterMap (fun p =>
        match alook attrs p.2 with
        | Option.none => Option.none
        | some RValue.none => Option.none
        | some _ => some p.1) := by
  unfold encodeFields
  induction json_dict s with
  | nil => rfl
  | cons p ps ih =>
    simp only [List.filterMap_cons]
    cases ha : alook attrs p.2 with
    | none => simp only [ha]; exact ih
    | some v =>
      cases v <;>
        first
        | (simp only [ha]; exact ih)
        | (simp only [ha, alook_serializeAttrs attrs p.2, Option.map_some',
            List.map_cons]
           rw [ih])

/-- C8: the encoder emits, in the schema's declared wire order, exactly the
populated fields (absent attributes omitted), enumeration members as their
underlying value and nested instances recursively; the text is compact.
Concretely, a `PaginationLinks` built with only `self_link` encodes with
`previous` and `next` omitted, and the `Error` example reproduces its
decoding text byte for byte. -/
theorem claim_C8_encode_shape :
    (∀ s : Schema, s.jsonNames.Nodup →
      s.jsonNames.length ≤ s.attrNames.length →
      (json_dict s).map Prod.fst = s.jsonNames) ∧
    (∀ (s : Schema) (attrs : List (String × RValue)),
      (encodeFields s attrs (serializeAttrs attrs)).map Prod.fst =
        (json_dict s).filterMap (fun p =>
          match alook attrs p.2 with
          | Option.none => Option.none
          | some RValue.none => Option.none
          | some _ => some p.1)) ∧
    (∀ (vs : List String) (v : String), serializeV (.vEnum vs v) = .str v) ∧
    (∀ (s : Schema) (attrs : List (String × RValue)),
      serializeV (.vObj s attrs) =
        .obj (encodeFields s attrs (serializeAttrs attrs))) ∧
    construct paginationLinksSchema [] [("self_link", .vStr "u")] =
      .ok (paginationLinksSchema,
        [("self", .vStr "u"), ("previous", .none), ("next", .none)]) ∧
    jsonProp paginationLinksSchema
        [("self", .vStr "u"), ("previous", .none), ("next", .none)] =
      "\x7b\"self\":\"u\"\x7d" ∧
    jsonProp errorSchema
        [("code", .vInt 404), ("reason", .vStr "Not Found"), ("message", .vStr "x")] =
      "\x7b\"code\":404,\"reason\":\"Not Found\",\"message\":\"x\"\x7d" := by
  refine ⟨?_, encodeFields_names, fun vs v => rfl, fun s attrs => rfl, rfl, rfl, rfl⟩
  intro s hnd hlen
  rw [json_dict, pyDict_nodup, zip_map_fst]
  · exact List.take_of_length_le (by simpa using hlen)
  · rw [zip_map_fst]
    exact hnd.sublist (List.take_sublist _ _)

/-- C8 witness: the wire-order statement applied to the `Error` schema and
the field-name statement applied to a partially populated
`PaginationLinks`. -/
theorem claim_C8_witness :
    (json_dict errorSchema).map Prod.fst = errorSchema.jsonNames ∧
    (encodeFields paginationLinksSchema
        [("self", .vStr "u"), ("previous", RValue.none), ("next", RValue.none)]
        (serializeAttrs
          [("self", .vStr "u"), ("previous", RValue.none),
           ("next", RValue.none)])).map Prod.fst =
      (json_dict paginationLinksSchema).filterMap (fun p =>
        match alook [("self", RValue.vStr "u"), ("previous", RValue.none),
            ("next", RValue.none)] p.2 with
        | Option.none => Option.none
        | some RValue.none => Option.none
        | some _ => some p.1) :=
  ⟨claim_C8_encode_shape.1 errorSchema (by decide) (by decide),
   claim_C8_encode_shape.2.1 paginationLinksSchema
     [("self", .vStr "u"), ("previous", RValue.none), ("next", RValue.none)]⟩

/-- C1 counterexample: a `bool` stored positionally in the `int`-typed
`code` of `Error` yields an instance with every required attribute
populated whose canonical encoding the decoder then rejects — so
`decode(encode(x))` raises instead of returning anything equal to `x`. -/
theorem claim_C1_counterexample :
    construct errorSchema [.vBool true, .vStr "a", .vStr "b"] [] =
      .ok (errorSchema,
        [("code", .vBool true), ("reason", .vStr "a"), ("message", .vStr "b")]) ∧
    jsonProp errorSchema
        [("code", .vBool true), ("reason", .vStr "a"), ("message", .vStr "b")] =
      "\x7b\"code\":true,\"reason\":\"a\",\"message\":\"b\"\x7d" ∧
    from_json_str errorSchema
        "\x7b\"code\":true,\"reason\":\"a\",\"message\":\"b\"\x7d" =
      .error (.typeDict "Error" "code") :=
  ⟨rfl, rfl, rfl⟩

/-! ### Parser–renderer inversion -/

/-- A context in which a rendered number ends: empty input or a non-digit. -/
def NumDelim : List Char → Prop
  | [] => True
  | c :: _ => c.toNat < 48 ∨ 57 < c.toNat

/-- The code of the digit character of `n < 10`. -/
theorem digitChar_toNat (n : Nat) (h : n < 10) : (digitChar n).toNat = 48 + n := by
  interval_cases n <;> decide

/-- The digit characters of `natCharsAux` are decimal digits. -/
theorem natCharsAux_digits : ∀ (f n : Nat) (c : Char), c ∈ natCharsAux f n →
    48 ≤ c.toNat ∧ c.toNat ≤ 57 := by
  intro f
  induction f with
  | zero => intro n c hc; simp [natCharsAux] at hc
  | succ f ih =>
    intro n c hc
    by_cases h : n < 10
    · simp only [natCharsAux, if_pos h, List.mem_singleton] at hc
      subst hc
      rw [digitChar_toNat n h]
      omega
    · simp only [natCharsAux, if_neg h, List.mem_append, List.mem_singleton] at hc
      rcases hc with hc | hc
      · exact ih _ _ hc
      · subst hc
        rw [digitChar_toNat _ (Nat.mod_lt _ (by omega))]
        omega

/-- `natCharsAux` with positive fuel is never empty. -/
theorem natCharsAux_ne_nil (f n : Nat) (hf : 0 < f) : natCharsAux f n ≠ [] := by
  cases f with
  | zero => omega
  | succ f =>
    by_cases h : n < 10
    · simp [natCharsAux, if_pos h]
    · simp [natCharsAux, if_neg h]

/-- `digitsVal` splits over an append. -/
theorem digitsVal_append : ∀ (xs ys : List Char) (a : Nat),
    digitsVal a (xs ++ ys) = digitsVal (digitsVal a xs) ys := by
  intro xs
  induction xs with
  | nil => intro ys a; rfl
  | cons c cs ih =>
    intro ys a
    exact ih ys (a * 10 + (c.toNat - 48))

/-- Reading back the digits `natCharsAux` printed recovers the number, with
any accumulator shifted past them. -/
theorem digitsVal_natCharsAux : ∀ (f n a : Nat), n < f →
    digitsVal a (natCharsAux f n) =
      a * 10 ^ (natCharsAux f n).length + n := by
  intro f
  induction f with
  | zero => intro n a h; omega
  | succ f ih =>
    intro n a h
    by_cases h10 : n < 10
    · rw [show natCharsAux (f + 1) n = [digitChar n] by
        simp only [natCharsAux, if_pos h10]]
      have e1 : digitsVal a [digitChar n] =
          a * 10 + ((digitChar n).toNat - 48) := rfl
      have e2 : ([digitChar n] : List Char).length = 1 := rfl
      rw [e1, e2, digitChar_toNat n h10, pow_one]
      omega
    · have hrec : n / 10 < f := by omega
      rw [show natCharsAux (f + 1) n =
          natCharsAux f (n / 10) ++ [digitChar (n % 10)] by
        simp only [natCharsAux, if_neg h10]]
      rw [digitsVal_append]
      have e1 : ∀ b : Nat, digitsVal b [digitChar (n % 10)] =
          b * 10 + ((digitChar (n % 10)).toNat - 48) := fun b => rfl
      rw [e1, ih _ a hrec, digitChar_toNat _ (Nat.mod_lt _ (by omega)),
        List.length_append, List.length_singleton, pow_succ,
        show a * (10 ^ (natCharsAux f (n / 10)).length * 10) =
          a * 10 ^ (natCharsAux f (n / 10)).length * 10 by ring]
      set X := a * 10 ^ (natCharsAux f (n / 10)).length
      omega

/-- `spanDigits` passes over a block of digits. -/
theorem spanDigits_digits : ∀ (ds rest : List Char),
    (∀ c ∈ ds, 48 ≤ c.toNat ∧ c.toNat ≤ 57) →
    spanDigits (ds ++ rest) =
      (ds ++ (spanDigits rest).1, (spanDigits rest).2) := by
  intro ds
  induction ds with
  | nil => intro rest h; rfl
  | cons c cs ih =>
    intro rest h
    have hc := h c (by simp)
    simp only [List.cons_append, spanDigits, if_pos hc]
    rw [show cs.append rest = cs ++ rest from rfl,
      ih rest (fun d hd => h d (by simp [hd]))]

/-- `spanDigits` stops at a number delimiter. -/
theorem spanDigits_delim (rest : List Char) (h : NumDelim rest) :
    spanDigits rest = ([], rest) := by
  cases rest with
  | nil => rfl
  | cons c cs =>
    have hc : ¬(48 ≤ c.toNat ∧ c.toNat ≤ 57) := by
      simp only [NumDelim] at h; omega
    simp [spanDigits, if_neg hc]

/-- Reading back the decimal text of `n` recovers `n`, up to a delimiter. -/
theorem pNat_natChars (n : Nat) (rest : List Char) (h : NumDelim rest) :
    pNat (natChars n ++ rest) = some (n, rest) := by
  obtain ⟨c, cs, hcons⟩ : ∃ c cs, natChars n = c :: cs := by
    cases hnc : natChars n with
    | nil => exact absurd hnc (natCharsAux_ne_nil _ _ (by omega))
    | cons c cs => exact ⟨c, cs, rfl⟩
  have hds : ∀ c ∈ natChars n, 48 ≤ c.toNat ∧ c.toNat ≤ 57 :=
    fun c hc => natCharsAux_digits _ _ c hc
  have hval : digitsVal 0 (natChars n) = n := by
    have := digitsVal_natCharsAux (n + 1) n 0 (by omega)
    simpa [natChars] using this
  unfold pNat
  rw [spanDigits_digits _ _ hds, spanDigits_delim _ h]
  rw [hcons]
  simp only [List.append_nil]
  rw [← hcons, hval]

/-- The decimal text of `n` starts with a digit. -/
theorem natChars_head (n : Nat) :
    ∃ c cs, natChars n = c :: cs ∧ 48 ≤ c.toNat ∧ c.toNat ≤ 57 := by
  cases hnc : natChars n with
  | nil => exact absurd hnc (natCharsAux_ne_nil _ _ (by omega))
  | cons c cs =>
    refine ⟨c, cs, rfl, natCharsAux_digits (n + 1) n c ?_⟩
    have : c ∈ natChars n := by rw [hnc]; simp
    exact this

/-- The value of the hexadecimal digit character of `d < 16`. -/
theorem hexVal_hexChar (d : Nat) (h : d < 16) : hexVal (hexChar d) = some d := by
  interval_cases d <;> decide

/-- `hex16` on four printed hexadecimal digits recovers their value. -/
theorem hex16_hexChar (a b c d : Nat) (ha : a < 16) (hb : b < 16)
    (hc : c < 16) (hd : d < 16) :
    hex16 (hexChar a) (hexChar b) (hexChar c) (hexChar d) =
      some (((a * 16 + b) * 16 + c) * 16 + d) := by
  simp only [hex16, hexVal_hexChar a ha, hexVal_hexChar b hb,
    hexVal_hexChar c hc, hexVal_hexChar d hd]

set_option maxHeartbeats 1600000 in
/-- A `\uXXXX` escape outside the surrogate range denotes its code. -/
theorem pEsc_u_bmp (c1 c2 c3 c4 : Char) (u : Nat) (rest : List Char)
    (hu : hex16 c1 c2 c3 c4 = some u)
    (h1 : ¬(55296 ≤ u ∧ u ≤ 56319)) (h2 : ¬(56320 ≤ u ∧ u ≤ 57343)) :
    pEsc ('u' :: c1 :: c2 :: c3 :: c4 :: rest) = some (Char.ofNat u, rest) := by
  simp only [pEsc, hu, if_neg h1, if_neg h2]

set_option maxHeartbeats 1600000 in
/-- A high-surrogate `\uXXXX` escape followed by a low-surrogate one
denotes the supplementary-plane character they encode together. -/
theorem pEsc_u_pair (c1 c2 c3 c4 g1 g2 g3 g4 : Char) (u u2 : Nat)
    (rest : List Char)
    (hu : hex16 c1 c2 c3 c4 = some u) (h1 : 55296 ≤ u ∧ u ≤ 56319)
    (hg : hex16 g1 g2 g3 g4 = some u2) (h2 : 56320 ≤ u2 ∧ u2 ≤ 57343) :
    pEsc ('u' :: c1 :: c2 :: c3 :: c4 ::
        '\\' :: 'u' :: g1 :: g2 :: g3 :: g4 :: rest) =
      some (Char.ofNat (65536 + (u - 55296) * 1024 + (u2 - 56320)), rest) := by
  simp only [pEsc, hu, if_pos h1, hg, if_pos h2]

/-- `pStrF` past one unescaped character. -/
theorem pStrF_plain (f : Nat) (acc : List Char) (c : Char) (rest : List Char)
    (h1 : c ≠ '"') (h2 : c ≠ '\\') :
    pStrF (f + 1) acc (c :: rest) = pStrF f (c :: acc) rest := by
  rw [pStrF.eq_def]
  split
  · omega
  · rename_i heq
    injection heq with hc hr
    exact absurd hc h1
  · rename_i heq
    injection heq with hc hr
    exact absurd hc h2
  · rename_i f2 c2 rest2 g1 g2 hf heq
    have hn : f2 = f := by omega
    subst hn
    injection heq with hc hr
    subst hc
    subst hr
    rfl
  · rename_i heq hT
    simp at heq

/-- `pStrF` at a backslash: read one escape. -/
theorem pStrF_bs (f : Nat) (acc esc : List Char) :
    pStrF (f + 1) acc ('\\' :: esc) =
      (match pEsc esc with
       | some (c, rest) => pStrF f (c :: acc) rest
       | Option.none => Option.none) := rfl

/-- The code of every character is below `0xD800` or in
`(0xDFFF, 0x110000)` — there are no lone-surrogate characters. -/
theorem char_toNat_valid (c : Char) :
    c.toNat < 55296 ∨ (57343 < c.toNat ∧ c.toNat < 1114112) := by
  have h := c.valid
  rcases h with h | h
  · left; exact_mod_cast h
  · obtain ⟨h1, h2⟩ := h
    right
    constructor
    · exact_mod_cast h1
    · exact_mod_cast h2

/-- Escaping a character never produces the empty text. -/
theorem escapeChar_length (c : Char) : 1 ≤ (escapeChar c).length := by
  unfold escapeChar
  split_ifs <;> simp [hex4]

/-- Escaping can only lengthen a text. -/
theorem escapeChars_length : ∀ cs : List Char,
    cs.length ≤ (escapeChars cs).length := by
  intro cs
  induction cs with
  | nil => simp [escapeChars]
  | cons c cs ih =>
    simp only [escapeChars, List.length_cons, List.length_append]
    have := escapeChar_length c
    omega

set_option maxRecDepth 4096 in
/-- Scanning the escaped rendering of `cs` up to a closing quote recovers
`cs` past the accumulator, for any sufficient fuel. -/
theorem pStrF_escape : ∀ (cs : List Char) (f : Nat) (acc rest : List Char),
    cs.length < f →
    pStrF f acc (escapeChars cs ++ '"' :: rest) =
      some (acc.reverse ++ cs, rest) := by
  intro cs
  induction cs with
  | nil =>
    intro f acc rest hf
    obtain ⟨f, rfl⟩ : ∃ g, f = g + 1 := ⟨f - 1, by omega⟩
    simp [escapeChars, pStrF]
  | cons c cs ih =>
    intro f acc rest hf
    obtain ⟨f, rfl⟩ : ∃ g, f = g + 1 := ⟨f - 1, by omega⟩
    have hlen : cs.length < f := by
      simp only [List.length_cons] at hf; omega
    by_cases h1 : c = '"'
    · subst h1
      show pStrF f ('"' :: acc) (escapeChars cs ++ '"' :: rest) = _
      rw [ih f _ rest hlen]
      simp
    by_cases h2 : c = '\\'
    · subst h2
      show pStrF f ('\\' :: acc) (escapeChars cs ++ '"' :: rest) = _
      rw [ih f _ rest hlen]
      simp
    by_cases h3 : c = Char.ofNat 8
    · subst h3
      show pStrF f (Char.ofNat 8 :: acc) (escapeChars cs ++ '"' :: rest) = _
      rw [ih f _ rest hlen]
      simp
    by_cases h4 : c = Char.ofNat 12
    · subst h4
      show pStrF f (Char.ofNat 12 :: acc) (escapeChars cs ++ '"' :: rest) = _
      rw [ih f _ rest hlen]
      simp
    by_cases h5 : c = '\n'
    · subst h5
      show pStrF f ('\n' :: acc) (escapeChars cs ++ '"' :: rest) = _
      rw [ih f _ rest hlen]
      simp
    by_cases h6 : c = Char.ofNat 13
    · subst h6
      show pStrF f (Char.ofNat 13 :: acc) (escapeChars cs ++ '"' :: rest) = _
      rw [ih f _ rest hlen]
      simp
    by_cases h7 : c = '\t'
    · subst h7
      show pStrF f ('\t' :: acc) (escapeChars cs ++ '"' :: rest) = _
      rw [ih f _ rest hlen]
      simp
    by_cases h8 : 32 ≤ c.toNat ∧ c.toNat ≤ 126
    · have e : escapeChar c = [c] := by
        unfold escapeChar
        rw [if_neg h1, if_neg h2, if_neg h3, if_neg h4, if_neg h5, if_neg h6,
          if_neg h7, if_pos h8]
      rw [show escapeChars (c :: cs) = escapeChar c ++ escapeChars cs from
        rfl, e]
      rw [List.singleton_append, List.cons_append]
      rw [pStrF_plain f acc c (escapeChars cs ++ '"' :: rest) h1 h2]
      rw [ih f _ rest hlen]
      simp
    have hv := char_toNat_valid c
    by_cases h9 : c.toNat < 65536
    · have e : escapeChar c = '\\' :: 'u' :: hex4 c.toNat := by
        unfold escapeChar
        rw [if_neg h1, if_neg h2, if_neg h3, if_neg h4, if_neg h5, if_neg h6,
          if_neg h7, if_neg h8, if_pos h9]
      rw [show escapeChars (c :: cs) = escapeChar c ++ escapeChars cs from
        rfl, e]
      simp only [hex4, List.cons_append, List.nil_append]
      rw [pStrF_bs]
      have hu : hex16 (hexChar (c.toNat / 4096 % 16))
          (hexChar (c.toNat / 256 % 16)) (hexChar (c.toNat / 16 % 16))
          (hexChar (c.toNat % 16)) = some c.toNat := by
        rw [hex16_hexChar _ _ _ _ (Nat.mod_lt _ (by omega))
          (Nat.mod_lt _ (by omega)) (Nat.mod_lt _ (by omega))
          (Nat.mod_lt _ (by omega))]
        simp only [Option.some.injEq]
        omega
      rw [pEsc_u_bmp _ _ _ _ _ _ hu (by omega) (by omega)]
      rw [Char.ofNat_toNat]
      show pStrF f (c :: acc) (escapeChars cs ++ '"' :: rest) = _
      rw [ih f _ rest hlen]
      simp
    · have e : escapeChar c =
          '\\' :: 'u' :: hex4 (55296 + (c.toNat - 65536) / 1024) ++
          '\\' :: 'u' :: hex4 (56320 + (c.toNat - 65536) % 1024) := by
        unfold escapeChar
        rw [if_neg h1, if_neg h2, if_neg h3, if_neg h4, if_neg h5, if_neg h6,
          if_neg h7, if_neg h8, if_neg h9]
      rw [show escapeChars (c :: cs) = escapeChar c ++ escapeChars cs from
        rfl, e]
      simp only [hex4, List.cons_append, List.nil_append, List.append_assoc]
      rw [pStrF_bs]
      have hm1 : (c.toNat - 65536) / 1024 < 1024 := by omega
      have hm2 : (c.toNat - 65536) % 1024 < 1024 :=
        Nat.mod_lt _ (by omega)
      have hu : hex16 (hexChar ((55296 + (c.toNat - 65536) / 1024) / 4096 % 16))
          (hexChar ((55296 + (c.toNat - 65536) / 1024) / 256 % 16))
          (hexChar ((55296 + (c.toNat - 65536) / 1024) / 16 % 16))
          (hexChar ((55296 + (c.toNat - 65536) / 1024) % 16)) =
          some (55296 + (c.toNat - 65536) / 1024) := by
        rw [hex16_hexChar _ _ _ _ (Nat.mod_lt _ (by omega))
          (Nat.mod_lt _ (by omega)) (Nat.mod_lt _ (by omega))
          (Nat.mod_lt _ (by omega))]
        simp only [Option.some.injEq]
        omega
      have hg : hex16 (hexChar ((56320 + (c.toNat - 65536) % 1024) / 4096 % 16))
          (hexChar ((56320 + (c.toNat - 65536) % 1024) / 256 % 16))
          (hexChar ((56320 + (c.toNat - 65536) % 1024) / 16 % 16))
          (hexChar ((56320 + (c.toNat - 65536) % 1024) % 16)) =
          some (56320 + (c.toNat - 65536) % 1024) := by
        rw [hex16_hexChar _ _ _ _ (Nat.mod_lt _ (by omega))
          (Nat.mod_lt _ (by omega)) (Nat.mod_lt _ (by omega))
          (Nat.mod_lt _ (by omega))]
        simp only [Option.some.injEq]
        omega
      rw [pEsc_u_pair _ _ _ _ _ _ _ _ _ _ _ hu (by omega) hg (by omega)]
      rw [show 65536 + (55296 + (c.toNat - 65536) / 1024 - 55296) * 1024 +
          (56320 + (c.toNat - 65536) % 1024 - 56320) = c.toNat by omega]
      rw [Char.ofNat_toNat]
      show pStrF f (c :: acc) (escapeChars cs ++ '"' :: rest) = _
      rw [ih f _ rest hlen]
      simp

/-- Scanning the escaped rendering of `cs` up to a closing quote recovers
`cs` past the accumulator. -/
theorem pStr_escape (cs acc rest : List Char) :
    pStr acc (escapeChars cs ++ '"' :: rest) = some (acc.reverse ++ cs, rest) := by
  unfold pStr
  apply pStrF_escape
  have h := escapeChars_length cs
  simp only [List.length_append, List.length_cons]
  omega

mutual

/-- Fuel `pVal` needs on the rendering of a value. -/
def jneed : JValue → Nat
  | .arr xs => jneedL xs + 1
  | .obj ps => jneedP ps + 1
  | _ => 1

/-- Fuel `pArr` needs on the rendering of an element list. -/
def jneedL : List JValue → Nat
  | [] => 0
  | x :: xs => max (jneed x) (jneedL xs) + 1

/-- Fuel `pObj` needs on the rendering of a member list. -/
def jneedP : List (String × JValue) → Nat
  | [] => 0
  | (_, v) :: qs => max (jneed v) (jneedP qs) + 1

end

/-- Pairwise-distinct key list, decided as CPython would. -/
def nodupStr : List String → Bool
  | [] => true
  | k :: ks => !(ks.contains k) && nodupStr ks

/-- `nodupStr` certifies `Nodup`. -/
theorem nodupStr_nodup : ∀ ks : List String, nodupStr ks = true → ks.Nodup := by
  intro ks
  induction ks with
  | nil => intro h; exact List.nodup_nil
  | cons k ks ih =>
    intro h
    simp only [nodupStr, Bool.and_eq_true, Bool.not_eq_true'] at h
    refine List.nodup_cons.mpr ⟨?_, ih h.2⟩
    intro hmem
    have h1 := h.1
    simp at h1
    exact h1 hmem

mutual

/-- The values `XmattersJSONEncoder` can emit: every object layer carries
pairwise-distinct keys.  (Decoding an object builds a `dict`, which would
merge duplicate keys.) -/
def jwfV : JValue → Bool
  | .arr xs => jwfL xs
  | .obj ps => nodupStr (ps.map Prod.fst) && jwfP ps
  | _ => true

/-- `jwfV` on every element. -/
def jwfL : List JValue → Bool
  | [] => true
  | x :: xs => jwfV x && jwfL xs

/-- `jwfV` on every member value. -/
def jwfP : List (String × JValue) → Bool
  | [] => true
  | p :: ps => jwfV p.2 && jwfP ps

end

/-- A value always needs fuel. -/
theorem jneed_pos (v : JValue) : 1 ≤ jneed v := by
  cases v with
  | arr xs => exact Nat.succ_le_succ (Nat.zero_le _)
  | obj ps => exact Nat.succ_le_succ (Nat.zero_le _)
  | null => exact Nat.le_refl 1
  | bool b => exact Nat.le_refl 1
  | int n => exact Nat.le_refl 1
  | str s => exact Nat.le_refl 1

/-- A rendering is never empty. -/
theorem renderJ_length_pos (v : JValue) : 1 ≤ (renderJ v).length := by
  cases v with
  | null => decide
  | bool b => cases b <;> decide
  | int n =>
    show 1 ≤ (intChars n).length
    unfold intChars
    by_cases hn : n < 0
    · rw [if_pos hn]; simp
    · rw [if_neg hn]
      have h := natCharsAux_ne_nil (n.natAbs + 1) n.natAbs (by omega)
      exact List.length_pos.mpr h
  | str s => simp [renderJ, strChars]
  | arr xs => cases xs <;> simp [renderJ]
  | obj ps => cases ps <;> simp [renderJ]

/-- A rendering starts with a character other than `']'`. -/
theorem renderJ_head (v : JValue) :
    ∃ c cs, renderJ v = c :: cs ∧ c ≠ ']' := by
  cases v with
  | null => exact ⟨'n', _, rfl, by decide⟩
  | bool b => cases b with
    | true => exact ⟨'t', _, rfl, by decide⟩
    | false => exact ⟨'f', _, rfl, by decide⟩
  | int n =>
    show ∃ c cs, intChars n = c :: cs ∧ c ≠ ']'
    unfold intChars
    by_cases hn : n < 0
    · rw [if_pos hn]; exact ⟨'-', _, rfl, by decide⟩
    · rw [if_neg hn]
      obtain ⟨c, cs, hcons, h1, h2⟩ := natChars_head n.natAbs
      refine ⟨c, cs, hcons, ?_⟩
      intro h
      subst h
      have : (']' : Char).toNat = 93 := rfl
      omega
  | str s => exact ⟨'"', _, rfl, by decide⟩
  | arr xs => cases xs with
    | nil => exact ⟨'[', _, rfl, by decide⟩
    | cons x xs => exact ⟨'[', _, rfl, by decide⟩
  | obj ps => cases ps with
    | nil => exact ⟨'\x7b', _, rfl, by decide⟩
    | cons p ps => exact ⟨'\x7b', _, rfl, by decide⟩

/-- The fuel a value needs is at most its rendered length: conjunction for
the value, element-list and member-list forms, bounded for a strong
induction on the total rendered length. -/
theorem jneed_le_renderJ : ∀ n : Nat,
    (∀ v, (renderJ v).length ≤ n → jneed v ≤ (renderJ v).length) ∧
    (∀ x xs, (renderJ x).length + (renderArr xs).length ≤ n →
      jneedL (x :: xs) ≤ (renderJ x).length + (renderArr xs).length + 1) ∧
    (∀ k v ps, (renderMember (k, v)).length + (renderObj ps).length ≤ n →
      jneedP ((k, v) :: ps) ≤
        (renderMember (k, v)).length + (renderObj ps).length + 1) := by
  intro n
  induction n using Nat.strong_induction_on with
  | _ n IH =>
  have h1 : ∀ v, (renderJ v).length ≤ n → jneed v ≤ (renderJ v).length := by
    intro v hv
    cases v with
    | null => exact renderJ_length_pos _
    | bool b => exact renderJ_length_pos _
    | int m => exact renderJ_length_pos _
    | str s => exact renderJ_length_pos _
    | arr xs =>
      cases xs with
      | nil => decide
      | cons x xs =>
        simp only [renderJ, List.length_append, List.length_cons] at hv ⊢
        have hm : (renderJ x).length + (renderArr xs).length < n := by omega
        have h2 := (IH _ hm).2.1 x xs (Nat.le_refl _)
        show jneedL (x :: xs) + 1 ≤ _
        omega
    | obj ps =>
      cases ps with
      | nil => decide
      | cons p ps =>
        obtain ⟨k, v⟩ := p
        simp only [renderJ, List.length_append, List.length_cons] at hv ⊢
        have hm : (renderMember (k, v)).length + (renderObj ps).length < n := by
          omega
        have h2 := (IH _ hm).2.2 k v ps (Nat.le_refl _)
        show jneedP ((k, v) :: ps) + 1 ≤ _
        omega
  refine ⟨h1, ?_, ?_⟩
  · intro x xs h
    cases xs with
    | nil =>
      simp only [renderArr, List.length_nil] at h ⊢
      have hx := h1 x (by omega)
      show max (jneed x) (jneedL []) + 1 ≤ _
      rw [show jneedL [] = 0 from rfl, Nat.max_zero]
      omega
    | cons y ys =>
      simp only [renderArr, List.length_cons, List.length_append] at h ⊢
      have hpx := renderJ_length_pos x
      have hpy := renderJ_length_pos y
      have hx := h1 x (by omega)
      have hm : (renderJ y).length + (renderArr ys).length < n := by omega
      have hy := (IH _ hm).2.1 y ys (Nat.le_refl _)
      show max (jneed x) (jneedL (y :: ys)) + 1 ≤ _
      have hmax : max (jneed x) (jneedL (y :: ys)) ≤
          (renderJ x).length + ((renderJ y).length + (renderArr ys).length) + 1 :=
        max_le (by omega) (by omega)
      omega
  · intro k v ps h
    have hsk : 2 ≤ (strChars k).length := by
      simp [strChars]
    have hmem : (renderMember (k, v)).length =
        (strChars k).length + 1 + (renderJ v).length := by
      simp [renderMember]
      omega
    cases ps with
    | nil =>
      simp only [renderObj, List.length_nil] at h ⊢
      have hx := h1 v (by omega)
      show max (jneed v) (jneedP []) + 1 ≤ _
      rw [show jneedP [] = 0 from rfl, Nat.max_zero]
      omega
    | cons q qs =>
      obtain ⟨k2, v2⟩ := q
      simp only [renderObj, List.length_cons, List.length_append] at h ⊢
      have hpv := renderJ_length_pos v
      have hx := h1 v (by omega)
      have hm : (renderMember (k2, v2)).length + (renderObj qs).length < n := by
        omega
      have hy := (IH _ hm).2.2 k2 v2 qs (Nat.le_refl _)
      show max (jneed v) (jneedP ((k2, v2) :: qs)) + 1 ≤ _
      have hmax : max (jneed v) (jneedP ((k2, v2) :: qs)) ≤
          (renderMember (k, v)).length +
            ((renderMember (k2, v2)).length + (renderObj qs).length) := by
        apply max_le
        · omega
        · omega
      omega

/-- A string literal opens a value. -/
theorem pVal_quote (f : Nat) (cs : List Char) :
    pVal (f + 1) ('"' :: cs) =
      (match pStr [] cs with
       | some (s, r) => some (.str ⟨s⟩, r)
       | Option.none => Option.none) := rfl

/-- A bracket opens an array. -/
theorem pVal_lbrack (f : Nat) (cs : List Char) :
    pVal (f + 1) ('[' :: cs) =
      (match cs with
       | ']' :: rest2 => some (.arr [], rest2)
       | _ =>
         match pArr f cs with
         | some (xs, r) => some (.arr xs, r)
         | Option.none => Option.none) := rfl

/-- A brace opens an object. -/
theorem pVal_lbrace (f : Nat) (cs : List Char) :
    pVal (f + 1) ('\x7b' :: cs) =
      (match cs with
       | '\x7d' :: rest2 => some (.obj [], rest2)
       | _ =>
         match pObj f cs with
         | some (ps, r) => some (.obj (pyDict ps), r)
         | Option.none => Option.none) := rfl

/-- A minus sign opens a negative number. -/
theorem pVal_minus (f : Nat) (cs : List Char) :
    pVal (f + 1) ('-' :: cs) =
      (match pNat cs with
       | some (n, r) => some (.int (-(n : Int)), r)
       | Option.none => Option.none) := rfl

/-- One step of the element loop. -/
theorem pArr_step (f : Nat) (cs : List Char) :
    pArr (f + 1) cs =
      (match pVal f cs with
       | some (v, ',' :: rest) =>
         (match pArr f rest with
          | some (xs, r) => some (v :: xs, r)
          | Option.none => Option.none)
       | some (v, ']' :: rest) => some ([v], rest)
       | _ => Option.none) := rfl

/-- One step of the member loop. -/
theorem pObj_quote (f : Nat) (cs : List Char) :
    pObj (f + 1) ('"' :: cs) =
      (match pStr [] cs with
       | some (k, ':' :: rest) =>
         (match pVal f rest with
          | some (v, ',' :: rest2) =>
            (match pObj f rest2 with
             | some (ps, r) => some ((⟨k⟩, v) :: ps, r)
             | Option.none => Option.none)
          | some (v, '\x7d' :: rest2) => some ([(⟨k⟩, v)], rest2)
          | _ => Option.none)
       | _ => Option.none) := rfl

set_option maxHeartbeats 1600000 in
/-- A digit opens a non-negative number. -/
theorem pVal_digit (f : Nat) (c : Char) (cs : List Char)
    (h48 : 48 ≤ c.toNat) (h57 : c.toNat ≤ 57) :
    pVal (f + 1) (c :: cs) =
      (match pNat (c :: cs) with
       | some (n, r) => some (.int (n : Int), r)
       | Option.none => Option.none) := by
  rw [pVal.eq_def]
  split
  · omega
  · rename_i heq
    injection heq with hc _
    subst hc
    have : ('n' : Char).toNat = 110 := rfl
    omega
  · rename_i heq
    injection heq with hc _
    subst hc
    have : ('t' : Char).toNat = 116 := rfl
    omega
  · rename_i heq
    injection heq with hc _
    subst hc
    have : ('f' : Char).toNat = 102 := rfl
    omega
  · rename_i heq
    injection heq with hc _
    subst hc
    have : ('"' : Char).toNat = 34 := rfl
    omega
  · rename_i heq
    injection heq with hc _
    subst hc
    have : ('[' : Char).toNat = 91 := rfl
    omega
  · rename_i heq
    injection heq with hc _
    subst hc
    have : ('\x7b' : Char).toNat = 123 := rfl
    omega
  · rename_i heq
    injection heq with hc _
    subst hc
    have : ('-' : Char).toNat = 45 := rfl
    omega
  · rfl

/-- A cons whose head is not a digit is a number delimiter. -/
theorem numDelim_cons (c : Char) (xs : List Char)
    (h : c.toNat < 48 ∨ 57 < c.toNat) : NumDelim (c :: xs) := h

/-- The empty input is a number delimiter. -/
theorem numDelim_nil : NumDelim [] := trivial

/-- Parsing inverts rendering: with fuel at least the value's need, `pVal`
reads back exactly the rendered value (for values whose object layers have
pairwise-distinct keys), and `pArr`/`pObj` read back rendered element and
member tails.  Proven for all fuels at once by strong induction. -/
theorem parseRenderAux : ∀ f : Nat,
    (∀ v rest, jneed v ≤ f → jwfV v = true → NumDelim rest →
      pVal f (renderJ v ++ rest) = some (v, rest)) ∧
    (∀ x xs rest, jneedL (x :: xs) ≤ f → jwfV x = true → jwfL xs = true →
      pArr f (renderJ x ++ (renderArr xs ++ ']' :: rest)) =
        some (x :: xs, rest)) ∧
    (∀ k v ps rest, jneedP ((k, v) :: ps) ≤ f → jwfV v = true →
      jwfP ps = true →
      pObj f (renderMember (k, v) ++ (renderObj ps ++ '\x7d' :: rest)) =
        some ((k, v) :: ps, rest)) := by
  intro f
  induction f using Nat.strong_induction_on with
  | _ f IH =>
  refine ⟨?_, ?_, ?_⟩
  · intro v rest h hw hrest
    obtain ⟨g, rfl⟩ : ∃ g, f = g + 1 :=
      ⟨f - 1, by have := jneed_pos v; omega⟩
    cases v with
    | null => rfl
    | bool b => cases b <;> rfl
    | int m =>
      by_cases hm : m < 0
      · rw [show renderJ (.int m) ++ rest = '-' :: (natChars m.natAbs ++ rest) by
          simp [renderJ, intChars, if_pos hm]]
        rw [pVal_minus g, pNat_natChars m.natAbs rest hrest]
        show some (JValue.int (-((m.natAbs : Nat) : Int)), rest) =
          some (JValue.int m, rest)
        rw [show -((m.natAbs : Nat) : Int) = m by omega]
      · rw [show renderJ (.int m) ++ rest = natChars m.natAbs ++ rest by
          simp [renderJ, intChars, if_neg hm]]
        obtain ⟨c, cs0, hcons, hd1, hd2⟩ := natChars_head m.natAbs
        rw [hcons, List.cons_append, pVal_digit g c _ hd1 hd2,
          ← List.cons_append, ← hcons, pNat_natChars m.natAbs rest hrest]
        show some (JValue.int ((m.natAbs : Nat) : Int), rest) =
          some (JValue.int m, rest)
        rw [show ((m.natAbs : Nat) : Int) = m by omega]
    | str s =>
      rw [show renderJ (.str s) ++ rest =
          '"' :: (escapeChars s.data ++ '"' :: rest) by simp [renderJ, strChars]]
      rw [pVal_quote g, pStr_escape s.data [] rest]
      rfl
    | arr xs =>
      cases xs with
      | nil => rfl
      | cons x xs =>
        have hb : jneedL (x :: xs) ≤ g := by
          have e : jneed (.arr (x :: xs)) = jneedL (x :: xs) + 1 := rfl
          omega
        have hw2 : jwfV x = true ∧ jwfL xs = true := by
          have e : jwfV (.arr (x :: xs)) = (jwfV x && jwfL xs) := rfl
          rw [e] at hw
          simp only [Bool.and_eq_true] at hw
          exact hw
        rw [show renderJ (.arr (x :: xs)) ++ rest =
            '[' :: (renderJ x ++ (renderArr xs ++ ']' :: rest)) by
          simp [renderJ]]
        rw [pVal_lbrack g]
        obtain ⟨c, cs0, hx, hcne⟩ := renderJ_head x
        have hB := (IH g (by omega)).2.1 x xs rest hb hw2.1 hw2.2
        split
        · rename_i r2 heq
          rw [hx, List.cons_append] at heq
          injection heq with hc _
          exact absurd hc hcne
        · simp only [hB]
    | obj ps =>
      cases ps with
      | nil => rfl
      | cons p ps =>
        obtain ⟨k, v⟩ := p
        have hb : jneedP ((k, v) :: ps) ≤ g := by
          have e : jneed (.obj ((k, v) :: ps)) = jneedP ((k, v) :: ps) + 1 := rfl
          omega
        have hw2 : (nodupStr (((k, v) :: ps).map Prod.fst) = true) ∧
            jwfP ((k, v) :: ps) = true := by
          have e : jwfV (.obj ((k, v) :: ps)) =
              (nodupStr (((k, v) :: ps).map Prod.fst) &&
                jwfP ((k, v) :: ps)) := rfl
          rw [e] at hw
          simp only [Bool.and_eq_true] at hw
          exact hw
        have hw3 : jwfV v = true ∧ jwfP ps = true := by
          have e : jwfP ((k, v) :: ps) = (jwfV v && jwfP ps) := rfl
          have h4 := hw2.2
          rw [e] at h4
          simp only [Bool.and_eq_true] at h4
          exact h4
        rw [show renderJ (.obj ((k, v) :: ps)) ++ rest =
            '\x7b' :: (renderMember (k, v) ++ (renderObj ps ++ '\x7d' :: rest)) by
          simp [renderJ]]
        rw [pVal_lbrace g]
        have hC := (IH g (by omega)).2.2 k v ps rest hb hw3.1 hw3.2
        split
        · rename_i r2 heq
          rw [show renderMember (k, v) =
              '"' :: (escapeChars k.data ++ '"' :: ':' :: renderJ v) by
            simp [renderMember, strChars]] at heq
          rw [List.cons_append] at heq
          injection heq with hc _
          exact absurd hc (by decide)
        · simp only [hC]
          rw [pyDict_nodup _ (nodupStr_nodup _ hw2.1)]
  · intro x xs rest h hwx hwxs
    obtain ⟨g, rfl⟩ : ∃ g, f = g + 1 := ⟨f - 1, by
      have e : jneedL (x :: xs) = max (jneed x) (jneedL xs) + 1 := rfl
      omega⟩
    have hb : max (jneed x) (jneedL xs) + 1 ≤ g + 1 := by
      have e : jneedL (x :: xs) = max (jneed x) (jneedL xs) + 1 := rfl
      omega
    have hjx : jneed x ≤ g := by
      have := le_max_left (jneed x) (jneedL xs)
      omega
    have hjxs : jneedL xs ≤ g := by
      have := le_max_right (jneed x) (jneedL xs)
      omega
    rw [pArr_step g]
    cases xs with
    | nil =>
      rw [show renderArr ([] : List JValue) ++ ']' :: rest = ']' :: rest by
        simp [renderArr]]
      have hP := (IH g (by omega)).1 x (']' :: rest) hjx hwx
        (numDelim_cons _ _ (Or.inr (by decide)))
      simp only [hP]
    | cons y ys =>
      have hwy : jwfV y = true ∧ jwfL ys = true := by
        have e : jwfL (y :: ys) = (jwfV y && jwfL ys) := rfl
        rw [e] at hwxs
        simp only [Bool.and_eq_true] at hwxs
        exact hwxs
      have e : renderArr (y :: ys) ++ ']' :: rest =
          ',' :: (renderJ y ++ (renderArr ys ++ ']' :: rest)) := by
        simp [renderArr]
      rw [e]
      have hP := (IH g (by omega)).1 x
        (',' :: (renderJ y ++ (renderArr ys ++ ']' :: rest))) hjx hwx
        (numDelim_cons _ _ (Or.inl (by decide)))
      have hB2 := (IH g (by omega)).2.1 y ys rest hjxs hwy.1 hwy.2
      simp only [hP, hB2]
  · intro k v ps rest h hwv hwps
    obtain ⟨g, rfl⟩ : ∃ g, f = g + 1 := ⟨f - 1, by
      have e : jneedP ((k, v) :: ps) = max (jneed v) (jneedP ps) + 1 := rfl
      omega⟩
    have hb : max (jneed v) (jneedP ps) + 1 ≤ g + 1 := by
      have e : jneedP ((k, v) :: ps) = max (jneed v) (jneedP ps) + 1 := rfl
      omega
    have hjv : jneed v ≤ g := by
      have := le_max_left (jneed v) (jneedP ps)
      omega
    have hjps : jneedP ps ≤ g := by
      have := le_max_right (jneed v) (jneedP ps)
      omega
    rw [show renderMember (k, v) ++ (renderObj ps ++ '\x7d' :: rest) =
        '"' :: (escapeChars k.data ++
          '"' :: (':' :: (renderJ v ++ (renderObj ps ++ '\x7d' :: rest)))) by
      simp [renderMember, strChars]]
    rw [pObj_quote g, pStr_escape k.data []]
    cases ps with
    | nil =>
      rw [show renderObj ([] : List (String × JValue)) ++ '\x7d' :: rest =
          '\x7d' :: rest by simp [renderObj]]
      have hP := (IH g (by omega)).1 v ('\x7d' :: rest) hjv hwv
        (numDelim_cons _ _ (Or.inr (by decide)))
      simp only [List.reverse_nil, List.nil_append, hP]
    | cons q qs =>
      obtain ⟨k2, v2⟩ := q
      have hwq : jwfV v2 = true ∧ jwfP qs = true := by
        have e : jwfP ((k2, v2) :: qs) = (jwfV v2 && jwfP qs) := rfl
        rw [e] at hwps
        simp only [Bool.and_eq_true] at hwps
        exact hwps
      have e : renderObj ((k2, v2) :: qs) ++ '\x7d' :: rest =
          ',' :: (renderMember (k2, v2) ++ (renderObj qs ++ '\x7d' :: rest)) := by
        simp [renderObj]
      rw [e]
      have hP := (IH g (by omega)).1 v
        (',' :: (renderMember (k2, v2) ++ (renderObj qs ++ '\x7d' :: rest)))
        hjv hwv (numDelim_cons _ _ (Or.inl (by decide)))
      have hC2 := (IH g (by omega)).2.2 k2 v2 qs rest hjps hwq.1 hwq.2
      simp only [List.reverse_nil, List.nil_append, hP, hC2]

/-- `json.loads` inverts the engine's compact `json.dumps` on values whose
object layers carry pairwise-distinct keys. -/
theorem jsonLoads_render (v : JValue) (hw : jwfV v = true) :
    jsonLoads (jsonDumps v) = some v := by
  unfold jsonLoads jsonDumps
  have hd : (String.mk (renderJ v)).data = renderJ v := rfl
  rw [hd]
  have hle : jneed v ≤ (renderJ v).length :=
    (jneed_le_renderJ (renderJ v).length).1 v (Nat.le_refl _)
  have hP := (parseRenderAux ((renderJ v).length + 1)).1 v [] (by omega) hw
    numDelim_nil
  rw [List.append_nil] at hP
  rw [hP]

/-! ### The amended round-trip law

The spec's round-trip claim fails on instances holding values admitted by
`isinstance` but not by the strict decode-side check (`claim_C1_counterexample`).
The predicates below carve out the instances for which the law does hold:
schemas whose parallel declarations are coherent (`SWFs`) and instances
whose stored values are strictly well-typed (`wtI`). -/

/-- The per-field serialization step of `XmattersJSONEncoder.default`
(`encodeFields` is its `filterMap` over `jsondict`). -/
def encodeField (attrs : List (String × RValue)) (ser : List (String × JValue))
    (p : String × String) : Option (String × JValue) :=
  match alook attrs p.2 with
  | Option.none => Option.none
  | some RValue.none => Option.none
  | some _ =>
    match alook ser p.2 with
    | some jv => some (p.1, jv)
    | Option.none => Option.none

/-- `encodeFields` is the `filterMap` of `encodeField`. -/
theorem encodeFields_eq (s : Schema) (attrs : List (String × RValue))
    (ser : List (String × JValue)) :
    encodeFields s attrs ser = (json_dict s).filterMap (encodeField attrs ser) :=
  rfl

mutual

/-- Well-formedness of a schema declaration: the four parallel sequences
have matching lengths, the name sequences are duplicate-free, and every
nested entity declaration is well-formed in turn.  (Every schema declared
in this repository satisfies it.) -/
def SWFs : Schema → Bool
  | .mk _ args attrs types jsons =>
    nodupStr jsons && nodupStr attrs && nodupStr (process_arg_names args).1 &&
    (args.length == attrs.length) && (types.length == attrs.length) &&
    (jsons.length == attrs.length) && SWFts types

/-- Well-formedness of the schema a declared type mentions. -/
def SWFt : DType → Bool
  | .dObj s => SWFs s
  | .dXList s _ => SWFs s
  | _ => true

/-- `SWFt` over a type list. -/
def SWFts : List DType → Bool
  | [] => true
  | t :: ts => SWFt t && SWFts ts

end

/-- A scalar runtime value (what a plain `list` attribute may hold so that
serialization is invertible). -/
def wtScalar : RValue → Prop
  | .vInt _ => True
  | .vStr _ => True
  | .vBool _ => True
  | _ => False

mutual

/-- Strict well-typedness of a stored value at a declared type: exactly the
class the decode side reconstructs.  A `bool` stored in an `int` field (which
positional and keyword mode admit through `isinstance`) is excluded — that is
the round-trip counterexample.  A discriminated collection must hold
`DynamicTeam` instances whose `recipient_type` is the `DYNAMIC_TEAM` member
and whose `status` is populated: the other discriminator branches are
unreachable (`Group`/`Person` constructors are broken, `DEVICE` crashes), and
`DynamicTeam.__init__` would otherwise default `status` on decode. -/
def wtT : DType → RValue → Prop
  | .dInt, .vInt _ => True
  | .dStr, .vStr _ => True
  | .dBool, .vBool _ => True
  | .dList, .vList xs => wtScalars xs
  | .dEnum vs, .vEnum vs2 x => vs2 = vs ∧ x ∈ vs
  | .dObj s, .vObj s2 a =>
    s2 = s ∧ (a.map Prod.fst = s.attrNames ∧ wtFields s.attrTypes (reqFlags s) a)
  | .dXList s disc, .vXList s2 disc2 xs =>
    s2 = s ∧ disc2 = disc ∧
    (if disc then s = recipientSchema ∧ wtRecips xs else wtElems s xs)
  | _, _ => False

/-- The attribute values, walked in parallel with the declared types and
required flags: a required attribute holds a well-typed value; an optional
one may still be `None`. -/
def wtFields : List DType → List Bool → List (String × RValue) → Prop
  | [], [], [] => True
  | t :: ts, r :: rs, (_, v) :: a =>
    (match r with
     | true => wtT t v
     | false => v = RValue.none ∨ wtT t v) ∧ wtFields ts rs a
  | _, _, _ => False

/-- Scalar well-typedness of every element. -/
def wtScalars : List RValue → Prop
  | [] => True
  | x :: xs => wtScalar x ∧ wtScalars xs

/-- Elements of a plain `XmattersList`: instances of the declared base
class. -/
def wtElems : Schema → List RValue → Prop
  | _, [] => True
  | s, x :: xs =>
    (match x with
     | .vObj s2 a =>
       s2 = s ∧
       (a.map Prod.fst = s.attrNames ∧ wtFields s.attrTypes (reqFlags s) a)
     | _ => False) ∧ wtElems s xs

/-- Elements of the discriminating `RecipientList`: `DynamicTeam` instances
carrying their discriminator and a populated `status`. -/
def wtRecips : List RValue → Prop
  | [] => True
  | x :: xs =>
    (match x with
     | .vObj s2 a =>
       s2 = dynamicTeamSchema ∧
       (a.map Prod.fst = dynamicTeamSchema.attrNames ∧
        wtFields dynamicTeamSchema.attrTypes (reqFlags dynamicTeamSchema) a) ∧
       alook a "recipient_type" =
         some (.vEnum recipientTypeVals "DYNAMIC_TEAM") ∧
       alook a "status" ≠ some RValue.none ∧
       alook a "status" ≠ Option.none
     | _ => False) ∧ wtRecips xs

end

/-- A required attribute holds a well-typed value; an optional one may
still be `None`. -/
def wtOpt (t : DType) (r : Bool) (v : RValue) : Prop :=
  match r with
  | true => wtT t v
  | false => v = RValue.none ∨ wtT t v

/-- Strict well-typedness of an instance's attribute dictionary: the keys
are exactly the declared attribute names in declaration order, and each
value is well-typed at its declared type. -/
def wtI (s : Schema) (a : List (String × RValue)) : Prop :=
  a.map Prod.fst = s.attrNames ∧ wtFields s.attrTypes (reqFlags s) a

/-- A strictly well-typed value is populated. -/
theorem wtT_ne_none (t : DType) (h : wtT t RValue.none) : False := by
  cases t <;> exact h

/-- `wtOpt` on a populated value gives strict well-typedness. -/
theorem wtOpt_wtT (t : DType) (r : Bool) (v : RValue) (h : wtOpt t r v)
    (hv : v ≠ RValue.none) : wtT t v := by
  cases r with
  | true => exact h
  | false =>
    rcases h with h | h
    · exact absurd h hv
    · exact h

/-- Serialization followed by the decode embedding is the identity on
scalars. -/
theorem ofJ_serialize_scalar (x : RValue) (h : wtScalar x) :
    ofJ (serializeV x) = x := by
  cases x <;> first | rfl | exact h.elim

/-- … and elementwise on scalar lists. -/
theorem ofJList_serialize_scalars : ∀ xs : List RValue, wtScalars xs →
    ofJList (serializeList xs) = xs := by
  intro xs
  induction xs with
  | nil => intro h; rfl
  | cons x xs ih =>
    intro h
    have e : ofJList (serializeList (x :: xs)) =
        ofJ (serializeV x) :: ofJList (serializeList xs) := rfl
    rw [e, ofJ_serialize_scalar x h.1, ih h.2]

/-- A strictly well-typed value embeds back as a properly typed raw value
for the dictionary-mode check. -/
theorem is_proper_encode (t : DType) (v : RValue) (h : wtT t v) :
    is_proper_type t (ofJ (serializeV v)) = true := by
  cases t <;> cases v <;> first | rfl | exact h.elim

/-- Lookup through the decode embedding of an object. -/
theorem alook_ofJPairs : ∀ (ps : List (String × JValue)) (k : String),
    alook (ofJPairs ps) k = Option.map ofJ (alook ps k) := by
  intro ps
  induction ps with
  | nil => intro k; rfl
  | cons p ps ih =>
    intro k
    obtain ⟨k2, v⟩ := p
    by_cases h : k2 = k
    · simp [ofJPairs, alook, if_pos h]
    · simp only [ofJPairs, alook, if_neg h]
      exact ih k

/-- A member's value is bounded by the weighted size of the dictionary. -/
theorem msizeFs_mem : ∀ (fs : List (String × RValue)) (p : String × RValue),
    p ∈ fs → msize p.2 + 20 ≤ msizeFs fs := by
  intro fs
  induction fs with
  | nil => intro p h; simp at h
  | cons q fs ih =>
    intro p h
    rcases List.mem_cons.mp h with h | h
    · subst h
      obtain ⟨k, v⟩ := p
      show msize v + 20 ≤ msize v + 20 + msizeFs fs
      omega
    · have := ih p h
      obtain ⟨k, v⟩ := q
      show msize p.2 + 20 ≤ msize v + 20 + msizeFs fs
      omega

/-- An element's value is bounded by the weighted size of the list. -/
theorem msizeEls_mem : ∀ (xs : List RValue) (x : RValue),
    x ∈ xs → msize x + 20 ≤ msizeEls xs := by
  intro xs
  induction xs with
  | nil => intro x h; simp at h
  | cons y xs ih =>
    intro x h
    rcases List.mem_cons.mp h with h | h
    · subst h
      show msize x + 20 ≤ msize x + 20 + msizeEls xs
      omega
    · have := ih x h
      show msize x + 20 ≤ msize y + 20 + msizeEls xs
      omega

/-- With pairwise-distinct keys, membership determines lookup. -/
theorem alook_of_mem_nodup : ∀ (ps : List (String × α)) (k : String) (v : α),
    (ps.map Prod.fst).Nodup → (k, v) ∈ ps → alook ps k = some v := by
  intro ps
  induction ps with
  | nil => intro k v _ h; simp at h
  | cons p ps ih =>
    intro k v hnd hmem
    obtain ⟨k2, w⟩ := p
    rcases List.mem_cons.mp hmem with h | h
    · injection h with h1 h2
      subst h1
      subst h2
      simp [alook]
    · have hne : k2 ≠ k := by
        intro hk
        subst hk
        have : k2 ∈ ps.map Prod.fst := List.mem_map_of_mem Prod.fst h
        exact (List.nodup_cons.mp (by simpa using hnd)).1 this
      simp only [alook, if_neg hne]
      exact ih k v (List.nodup_cons.mp (by simpa using hnd)).2 h

/-- Updating the head of the tail past a fresh prefix. -/
theorem pyUpd_append_head : ∀ (pre : List (String × RValue)) (an : String)
    (v w : RValue) (tail : List (String × RValue)),
    an ∉ pre.map Prod.fst →
    pyUpd (pre ++ (an, w) :: tail) an v = pre ++ (an, v) :: tail := by
  intro pre
  induction pre with
  | nil => intro an v w tail _; simp [pyUpd]
  | cons p pre ih =>
    intro an v w tail h
    obtain ⟨k2, u⟩ := p
    simp only [List.map_cons, List.mem_cons] at h
    push_neg at h
    simp only [List.cons_append, pyUpd]
    rw [if_neg (Ne.symm h.1)]
    rw [show pre.append ((an, w) :: tail) = pre ++ (an, w) :: tail from rfl,
      ih an v w tail h.2]

/-- The freshly initialized attribute dictionary, explicitly: every declared
attribute mapped to `None`, in declaration order. -/
theorem initAttrs_eq (s : Schema) (hnd : s.attrNames.Nodup) :
    initAttrs s = s.attrNames.map (fun an => (an, RValue.none)) := by
  suffices key : ∀ (names : List String) (acc : List (String × RValue)),
      (∀ nm ∈ names, nm ∉ acc.map Prod.fst) → names.Nodup →
      names.foldl (fun d nm => pyUpd d nm RValue.none) acc =
        acc ++ names.map (fun an => (an, RValue.none)) by
    simpa using key s.attrNames [] (by simp) hnd
  intro names
  induction names with
  | nil => intro acc _ _; simp
  | cons nm names ih =>
    intro acc hfresh hnd2
    simp only [List.foldl]
    rw [pyUpd_not_mem acc nm RValue.none (hfresh nm (by simp))]
    rw [ih (acc ++ [(nm, RValue.none)]) ?_ hnd2.of_cons]
    · simp
    · intro q hq
      simp only [List.map_append, List.mem_append]
      push_neg
      refine ⟨hfresh q (by simp [hq]), ?_⟩
      simp only [List.map, List.mem_singleton]
      intro hq1
      exact (List.nodup_cons.mp hnd2).1 (hq1 ▸ hq)

/-- Membership in a well-formed type list. -/
theorem SWFts_mem : ∀ (ts : List DType) (t : DType),
    SWFts ts = true → t ∈ ts → SWFt t = true := by
  intro ts
  induction ts with
  | nil => intro t _ h; simp at h
  | cons t2 ts ih =>
    intro t h hmem
    have h2 : SWFt t2 = true ∧ SWFts ts = true := by
      have e : SWFts (t2 :: ts) = (SWFt t2 && SWFts ts) := rfl
      rw [e] at h
      simp only [Bool.and_eq_true] at h
      exact h
    rcases List.mem_cons.mp hmem with h3 | h3
    · subst h3; exact h2.1
    · exact ih t h2.2 h3

/-- `Nodup` certifies `nodupStr`. -/
theorem nodupStr_of_nodup : ∀ ks : List String, ks.Nodup → nodupStr ks = true := by
  intro ks
  induction ks with
  | nil => intro h; rfl
  | cons k ks ih =>
    intro h
    have h2 := List.nodup_cons.mp h
    show (!(ks.contains k) && nodupStr ks) = true
    simp only [Bool.and_eq_true, Bool.not_eq_true']
    refine ⟨?_, ih h2.2⟩
    by_cases hc : ks.contains k = true
    · exfalso
      simp at hc
      exact h2.1 hc
    · simpa using hc

/-- A serialized field keeps the JSON name it was emitted for. -/
theorem encodeField_key (attrs : List (String × RValue))
    (ser : List (String × JValue)) (p : String × String)
    (q : String × JValue) (h : encodeField attrs ser p = some q) :
    q.1 = p.1 := by
  unfold encodeField at h
  split at h
  · exact absurd h (by simp)
  · exact absurd h (by simp)
  · split at h
    · injection h with h2
      subst h2
      rfl
    · exact absurd h (by simp)

/-- Looking a JSON name up in the serialized field list finds the
serialized value of the attribute it maps to. -/
theorem alook_encodeFields (s : Schema) (attrs : List (String × RValue))
    (ser : List (String × JValue)) (jn an : String) (v : RValue) (jv : JValue)
    (hnd : ((json_dict s).map Prod.fst).Nodup)
    (hmem : (jn, an) ∈ json_dict s)
    (hv : alook attrs an = some v) (hvn : v ≠ RValue.none)
    (hs : alook ser an = some jv) :
    alook (encodeFields s attrs ser) jn = some jv := by
  rw [encodeFields_eq]
  have hnd2 := hnd
  have hmem2 := hmem
  generalize hjd : json_dict s = jd at hnd2 hmem2 ⊢
  clear hnd hmem hjd
  induction jd with
  | nil => simp at hmem2
  | cons p jd ih =>
    obtain ⟨jn2, an2⟩ := p
    rcases List.mem_cons.mp hmem2 with hh | hh
    · injection hh with h1 h2
      subst h1
      subst h2
      have he : encodeField attrs ser (jn, an) = some (jn, jv) := by
        cases hv2 : v with
        | none => exact absurd hv2 hvn
        | vBool b => subst hv2; simp only [encodeField, hv, hs]
        | vInt m => subst hv2; simp only [encodeField, hv, hs]
        | vStr t => subst hv2; simp only [encodeField, hv, hs]
        | vList xs => subst hv2; simp only [encodeField, hv, hs]
        | vDict fs => subst hv2; simp only [encodeField, hv, hs]
        | vEnum vs x => subst hv2; simp only [encodeField, hv, hs]
        | vObj s2 a2 => subst hv2; simp only [encodeField, hv, hs]
        | vXList e d xs => subst hv2; simp only [encodeField, hv, hs]
      simp only [List.filterMap_cons, he]
      simp [alook]
    · have hjn : jn2 ≠ jn := by
        intro he
        have hm2 : jn2 ∈ jd.map Prod.fst := by
          have h3 := List.mem_map_of_mem Prod.fst hh
          rw [← he] at h3
          simpa using h3
        exact (List.nodup_cons.mp (by simpa using hnd2)).1 hm2
      have hndt : (jd.map Prod.fst).Nodup :=
        (List.nodup_cons.mp (by simpa using hnd2)).2
      rw [List.filterMap_cons]
      cases hfe : encodeField attrs ser (jn2, an2) with
      | none =>
        simp only [hfe]
        exact ih hndt hh
      | some q =>
        obtain ⟨qk, qv⟩ := q
        have hq := encodeField_key attrs ser _ _ hfe
        simp only at hq
        have hqk : qk ≠ jn := by rw [hq]; exact hjn
        simp only [hfe]
        rw [show alook ((qk, qv) :: jd.filterMap (encodeField attrs ser)) jn =
            alook (jd.filterMap (encodeField attrs ser)) jn by
          simp [alook, if_neg hqk]]
        exact ih hndt hh

/-- Decoding inverts encoding for well-typed instances (statement bounded
by weighted size, for the strong induction `decodeEncodeAll`). -/
def decDict (n : Nat) : Prop :=
  ∀ s attrs, msizeFs attrs ≤ n → SWFs s = true → wtI s attrs →
    constructDict s (ofJPairs (encodeFields s attrs (serializeAttrs attrs))) []
      = .ok (s, attrs)

/-- … and for the elements of a plain collection. -/
def decElems (n : Nat) : Prop :=
  ∀ s xs, msizeEls xs ≤ n → SWFs s = true → wtElems s xs →
    xlistElems s false (ofJList (serializeList xs)) = .ok xs

/-- … and for the elements of the discriminating `RecipientList`. -/
def decRecips (n : Nat) : Prop :=
  ∀ xs, msizeEls xs ≤ n → wtRecips xs →
    xlistElems recipientSchema true (ofJList (serializeList xs)) = .ok xs

/-- … and serialized well-typed values have duplicate-free object keys. -/
def serWf (n : Nat) : Prop :=
  ∀ t v, msize v ≤ n → SWFt t = true → wtT t v →
    jwfV (serializeV v) = true

/-- The four round-trip statements, bundled for one strong induction. -/
def RT (n : Nat) : Prop := decDict n ∧ decElems n ∧ decRecips n ∧ serWf n

/-- `_setattr` under decoding: assigning the freshly decoded serialization
of a strictly well-typed value stores exactly that value back. -/
theorem setAttr_decode (n : Nat) (HIH : ∀ m, m < n → RT m) (s : Schema)
    (inst : List (String × RValue)) (an : String) (t : DType) (v : RValue)
    (hty : alook (type_dict s) an = some t) (hsz : msize v ≤ n)
    (hswf : SWFt t = true) (hwt : wtT t v) :
    setAttrC s inst an (ofJ (serializeV v)) = .ok (pyUpd inst an v) := by
  cases t with
  | dInt =>
    cases v <;> try exact hwt.elim
    case vInt m => exact setAttrC_store s inst an (.vInt m) .dInt hty rfl rfl
  | dStr =>
    cases v <;> try exact hwt.elim
    case vStr t2 => exact setAttrC_store s inst an (.vStr t2) .dStr hty rfl rfl
  | dBool =>
    cases v <;> try exact hwt.elim
    case vBool b => exact setAttrC_store s inst an (.vBool b) .dBool hty rfl rfl
  | dList =>
    cases v <;> try exact hwt.elim
    case vList xs =>
      rw [show ofJ (serializeV (RValue.vList xs)) =
          RValue.vList (ofJList (serializeList xs)) from rfl]
      rw [ofJList_serialize_scalars xs hwt]
      exact setAttrC_store s inst an (.vList xs) .dList hty rfl rfl
  | dEnum vs =>
    cases v <;> try exact hwt.elim
    case vEnum vs2 x =>
      obtain ⟨h1, h2⟩ := hwt
      subst h1
      rw [show ofJ (serializeV (RValue.vEnum vs2 x)) = RValue.vStr x from rfl]
      rw [setAttrC_enum s inst an (.vStr x) vs2 hty]
      simp only [enumNew, if_pos h2]
  | dObj s2 =>
    cases v <;> try exact hwt.elim
    case vObj s3 a =>
      obtain ⟨h1, h2⟩ := hwt
      subst h1
      rw [show ofJ (serializeV (RValue.vObj s3 a)) =
          RValue.vDict (ofJPairs (encodeFields s3 a (serializeAttrs a)))
        from rfl]
      rw [setAttrC_obj s inst an _ s3 hty]
      have hm : msizeFs a < n := by
        have e : msize (RValue.vObj s3 a) = 20 + msizeFs a := rfl
        omega
      rw [(HIH (msizeFs a) hm).1 s3 a (Nat.le_refl _) hswf h2]
  | dXList s2 disc =>
    cases v <;> try exact hwt.elim
    case vXList s3 disc2 xs =>
      obtain ⟨h1, h2, h3⟩ := hwt
      subst h1
      subst h2
      rw [show ofJ (serializeV (RValue.vXList s3 disc2 xs)) =
          RValue.vList (ofJList (serializeList xs)) from rfl]
      rw [setAttrC_xlist s inst an _ s3 disc2 hty]
      have hm : msizeEls xs < n := by
        have e : msize (RValue.vXList s3 disc2 xs) = 20 + msizeEls xs := rfl
        omega
      cases disc2 with
      | false =>
        rw [(HIH (msizeEls xs) hm).2.1 s3 xs (Nat.le_refl _) hswf h3]
      | true =>
        obtain ⟨h4, h5⟩ := h3
        subst h4
        rw [(HIH (msizeEls xs) hm).2.2.1 xs (Nat.le_refl _) h5]

/-- A schema field row: JSON name, attribute name, declared type, required
flag, and the stored value. -/
def rowsOf : List String → List DType → List Bool → List (String × RValue) →
    List (String × String × DType × Bool × RValue)
  | jn :: jns, t :: ts, r :: rs, (an, v) :: a =>
    (jn, an, t, r, v) :: rowsOf jns ts rs a
  | _, _, _, _ => []

/-- The attribute pairs of a row list are the attribute list itself. -/
theorem rowsOf_map_attr : ∀ (jns : List String) (ts : List DType)
    (rs : List Bool) (a : List (String × RValue)),
    jns.length = a.length → ts.length = a.length → rs.length = a.length →
    (rowsOf jns ts rs a).map (fun r => (r.2.1, r.2.2.2.2)) = a := by
  intro jns
  induction jns with
  | nil =>
    intro ts rs a h1 _ _
    cases a with
    | nil => rfl
    | cons p a => simp at h1
  | cons jn jns ih =>
    intro ts rs a h1 h2 h3
    cases a with
    | nil => simp at h1
    | cons p a =>
      obtain ⟨an, v⟩ := p
      cases ts with
      | nil => simp at h2
      | cons t ts =>
        cases rs with
        | nil => simp at h3
        | cons r rs =>
          simp only [rowsOf, List.map_cons]
          rw [ih ts rs a (by simpa using h1) (by simpa using h2)
            (by simpa using h3)]

/-- The `None`-initialized pairs of a row list. -/
theorem rowsOf_map_none : ∀ (jns : List String) (ts : List DType)
    (rs : List Bool) (a : List (String × RValue)),
    jns.length = a.length → ts.length = a.length → rs.length = a.length →
    (rowsOf jns ts rs a).map (fun r => (r.2.1, RValue.none)) =
      a.map (fun p => (p.1, RValue.none)) := by
  intro jns
  induction jns with
  | nil =>
    intro ts rs a h1 _ _
    cases a with
    | nil => rfl
    | cons p a => simp at h1
  | cons jn jns ih =>
    intro ts rs a h1 h2 h3
    cases a with
    | nil => simp at h1
    | cons p a =>
      obtain ⟨an, v⟩ := p
      cases ts with
      | nil => simp at h2
      | cons t ts =>
        cases rs with
        | nil => simp at h3
        | cons r rs =>
          simp only [rowsOf, List.map_cons]
          rw [ih ts rs a (by simpa using h1) (by simpa using h2)
            (by simpa using h3)]

/-- The JSON-to-attribute pairs of a row list. -/
theorem rowsOf_map_jd : ∀ (jns : List String) (ts : List DType)
    (rs : List Bool) (a : List (String × RValue)),
    jns.length = a.length → ts.length = a.length → rs.length = a.length →
    (rowsOf jns ts rs a).map (fun r => (r.1, r.2.1)) =
      jns.zip (a.map Prod.fst) := by
  intro jns
  induction jns with
  | nil =>
    intro ts rs a h1 _ _
    cases a with
    | nil => rfl
    | cons p a => simp at h1
  | cons jn jns ih =>
    intro ts rs a h1 h2 h3
    cases a with
    | nil => simp at h1
    | cons p a =>
      obtain ⟨an, v⟩ := p
      cases ts with
      | nil => simp at h2
      | cons t ts =>
        cases rs with
        | nil => simp at h3
        | cons r rs =>
          simp only [rowsOf, List.map_cons, List.zip, List.zipWith]
          rw [show List.zipWith Prod.mk jns (List.map Prod.fst a) =
            jns.zip (a.map Prod.fst) from rfl]
          rw [ih ts rs a (by simpa using h1) (by simpa using h2)
            (by simpa using h3)]

/-- The attribute names of a row list. -/
theorem rowsOf_map_an : ∀ (jns : List String) (ts : List DType)
    (rs : List Bool) (a : List (String × RValue)),
    jns.length = a.length → ts.length = a.length → rs.length = a.length →
    (rowsOf jns ts rs a).map (fun r => r.2.1) = a.map Prod.fst := by
  intro jns
  induction jns with
  | nil =>
    intro ts rs a h1 _ _
    cases a with
    | nil => rfl
    | cons p a => simp at h1
  | cons jn jns ih =>
    intro ts rs a h1 h2 h3
    cases a with
    | nil => simp at h1
    | cons p a =>
      obtain ⟨an, v⟩ := p
      cases ts with
      | nil => simp at h2
      | cons t ts =>
        cases rs with
        | nil => simp at h3
        | cons r rs =>
          simp only [rowsOf, List.map_cons]
          rw [ih ts rs a (by simpa using h1) (by simpa using h2)
            (by simpa using h3)]

/-- The lookup and typing facts dictionary-mode decoding needs, row by
row. -/
def RowsLink (s : Schema) (attrs : List (String × RValue)) :
    List (String × String × DType × Bool × RValue) → Prop
  | [] => True
  | (jn, an, t, r, v) :: rows =>
    jn ∈ s.jsonNames ∧ alook (json_dict s) jn = some an ∧
    alook (type_dict s) an = some t ∧ alook attrs an = some v ∧
    SWFt t = true ∧ wtOpt t r v ∧ msize v + 20 ≤ msizeFs attrs ∧
    RowsLink s attrs rows

/-- Building the row facts from a schema's parallel declarations. -/
theorem rowsLink_build (s : Schema) (attrs : List (String × RValue))
    (hjnd : ((json_dict s).map Prod.fst).Nodup)
    (htnd : ((type_dict s).map Prod.fst).Nodup)
    (hand : (attrs.map Prod.fst).Nodup)
    (hjk : ∀ k, k ∈ (json_dict s).map Prod.fst → k ∈ s.jsonNames) :
    ∀ (jns : List String) (ts : List DType) (rs : List Bool)
      (a : List (String × RValue)),
      (∀ p, p ∈ jns.zip (a.map Prod.fst) → p ∈ json_dict s) →
      (∀ p, p ∈ (a.map Prod.fst).zip ts → p ∈ type_dict s) →
      (∀ p, p ∈ a → p ∈ attrs) →
      jns.length = a.length → ts.length = a.length → rs.length = a.length →
      SWFts ts = true → wtFields ts rs a →
      RowsLink s attrs (rowsOf jns ts rs a) := by
  intro jns
  induction jns with
  | nil =>
    intro ts rs a _ _ _ h1 _ _ _ _
    cases a with
    | nil => exact trivial
    | cons p a => simp at h1
  | cons jn jns ih =>
    intro ts rs a hsub1 hsub2 hsub3 h1 h2 h3 hswf hwf
    cases a with
    | nil => simp at h1
    | cons p a =>
      obtain ⟨an, v⟩ := p
      cases ts with
      | nil => simp at h2
      | cons t ts =>
        cases rs with
        | nil => simp at h3
        | cons r rs =>
          have hmemj : (jn, an) ∈ json_dict s := by
            apply hsub1
            rw [show (((an, v) :: a).map Prod.fst) = an :: a.map Prod.fst
              from rfl]
            rw [show (jn :: jns).zip (an :: a.map Prod.fst) =
              (jn, an) :: jns.zip (a.map Prod.fst) from rfl]
            exact List.mem_cons_self _ _
          have hmemt : (an, t) ∈ type_dict s := by
            apply hsub2
            rw [show (((an, v) :: a).map Prod.fst) = an :: a.map Prod.fst
              from rfl]
            rw [show (an :: a.map Prod.fst).zip (t :: ts) =
              (an, t) :: (a.map Prod.fst).zip ts from rfl]
            exact List.mem_cons_self _ _
          have hmema : ((an, v) : String × RValue) ∈ attrs :=
            hsub3 _ (List.mem_cons_self _ _)
          have hswf2 : SWFt t = true ∧ SWFts ts = true := by
            have e : SWFts (t :: ts) = (SWFt t && SWFts ts) := rfl
            rw [e] at hswf
            simp only [Bool.and_eq_true] at hswf
            exact hswf
          refine ⟨hjk jn (List.mem_map_of_mem Prod.fst hmemj), ?_, ?_, ?_,
            hswf2.1, ?_, ?_, ?_⟩
          · exact alook_of_mem_nodup _ _ _ hjnd hmemj
          · exact alook_of_mem_nodup _ _ _ htnd hmemt
          · exact alook_of_mem_nodup _ _ _ hand hmema
          · exact hwf.1
          · exact msizeFs_mem attrs (an, v) hmema
          · apply ih ts rs a ?_ ?_ ?_ (by simpa using h1) (by simpa using h2)
              (by simpa using h3) hswf2.2 hwf.2
            · intro p hp
              apply hsub1
              rw [show (((an, v) :: a).map Prod.fst) = an :: a.map Prod.fst
                from rfl]
              rw [show (jn :: jns).zip (an :: a.map Prod.fst) =
                (jn, an) :: jns.zip (a.map Prod.fst) from rfl]
              exact List.mem_cons_of_mem _ hp
            · intro p hp
              apply hsub2
              rw [show (((an, v) :: a).map Prod.fst) = an :: a.map Prod.fst
                from rfl]
              rw [show (an :: a.map Prod.fst).zip (t :: ts) =
                (an, t) :: (a.map Prod.fst).zip ts from rfl]
              exact List.mem_cons_of_mem _ hp
            · intro p hp
              exact hsub3 p (List.mem_cons_of_mem _ hp)

/-- The dictionary-mode walk over the serialized fields of a well-typed
instance: every emitted field re-assigns its attribute's original value,
every omitted field leaves the initialized `None` in place. -/
theorem procDict_rows (n : Nat) (HIH : ∀ m, m < n → RT m) (s : Schema)
    (attrs : List (String × RValue)) (hms : msizeFs attrs ≤ n) :
    ∀ (rows : List (String × String × DType × Bool × RValue))
      (pre : List (String × RValue)),
      RowsLink s attrs rows →
      ((rows.map (fun r => r.2.1)).Nodup) →
      (∀ r ∈ rows, r.2.1 ∉ pre.map Prod.fst) →
      procDict s (pre ++ rows.map (fun r => (r.2.1, RValue.none)))
        (ofJPairs ((rows.map (fun r => (r.1, r.2.1))).filterMap
          (encodeField attrs (serializeAttrs attrs)))) =
        .ok (pre ++ rows.map (fun r => (r.2.1, r.2.2.2.2))) := by
  intro rows
  induction rows with
  | nil =>
    intro pre _ _ _
    rw [show pre ++ List.map (fun r => (r.2.1, RValue.none))
        ([] : List (String × String × DType × Bool × RValue)) = pre by simp]
    rw [show pre ++ List.map (fun r => (r.2.1, r.2.2.2.2))
        ([] : List (String × String × DType × Bool × RValue)) = pre by simp]
    exact procDict_nil s pre
  | cons row rows ih =>
    obtain ⟨jn, an, t, r, v⟩ := row
    intro pre hlink hnd hfresh
    obtain ⟨h1, h2, h3, h4, h5, h6, h7, hrest⟩ := hlink
    have hfr : an ∉ pre.map Prod.fst := hfresh _ (List.mem_cons_self _ _)
    have hnd2 : an ∉ rows.map (fun r => r.2.1) ∧
        (rows.map (fun r => r.2.1)).Nodup := by
      rw [show (((jn, an, t, r, v) :: rows).map (fun r => r.2.1)) =
        an :: rows.map (fun r => r.2.1) from rfl] at hnd
      exact List.nodup_cons.mp hnd
    have hndt : (rows.map (fun r => r.2.1)).Nodup ∧
        an ∉ rows.map (fun r => r.2.1) := ⟨hnd2.2, hnd2.1⟩
    by_cases hv : v = RValue.none
    · subst hv
      have he : encodeField attrs (serializeAttrs attrs) (jn, an) =
          Option.none := by
        simp only [encodeField, h4]
      simp only [List.map_cons, List.filterMap_cons, he]
      rw [show pre ++ ((an, RValue.none) ::
            rows.map (fun r => (r.2.1, RValue.none))) =
          (pre ++ [(an, RValue.none)]) ++
            rows.map (fun r => (r.2.1, RValue.none)) by simp]
      rw [show pre ++ ((an, RValue.none) ::
            rows.map (fun r => (r.2.1, r.2.2.2.2))) =
          (pre ++ [(an, RValue.none)]) ++
            rows.map (fun r => (r.2.1, r.2.2.2.2)) by simp]
      apply ih (pre ++ [(an, RValue.none)]) hrest hndt.1
      intro q hq
      simp only [List.map_append, List.mem_append]
      push_neg
      refine ⟨hfresh q (List.mem_cons_of_mem _ hq), ?_⟩
      simp only [List.map, List.mem_singleton]
      intro hq1
      apply hndt.2
      rw [← hq1]
      exact List.mem_map_of_mem (fun r => r.2.1) hq
    · have hwt : wtT t v := wtOpt_wtT t r v h6 hv
      have hser : alook (serializeAttrs attrs) an = some (serializeV v) := by
        rw [alook_serializeAttrs, h4]
        rfl
      have he : encodeField attrs (serializeAttrs attrs) (jn, an) =
          some (jn, serializeV v) := by
        cases hv2 : v with
        | none => exact absurd hv2 hv
        | vBool b => subst hv2; simp only [encodeField, h4, hser]
        | vInt m => subst hv2; simp only [encodeField, h4, hser]
        | vStr t2 => subst hv2; simp only [encodeField, h4, hser]
        | vList xs => subst hv2; simp only [encodeField, h4, hser]
        | vDict fs => subst hv2; simp only [encodeField, h4, hser]
        | vEnum vs x => subst hv2; simp only [encodeField, h4, hser]
        | vObj s2 a2 => subst hv2; simp only [encodeField, h4, hser]
        | vXList e d xs => subst hv2; simp only [encodeField, h4, hser]
      simp only [List.map_cons, List.filterMap_cons, he]
      rw [show ofJPairs ((jn, serializeV v) ::
            (rows.map (fun r => (r.1, r.2.1))).filterMap
              (encodeField attrs (serializeAttrs attrs))) =
          (jn, ofJ (serializeV v)) ::
            ofJPairs ((rows.map (fun r => (r.1, r.2.1))).filterMap
              (encodeField attrs (serializeAttrs attrs))) from rfl]
      rw [procDict_cons, if_pos h1]
      simp only [h2, h3]
      rw [if_pos (is_proper_encode t v hwt)]
      have hsa := setAttr_decode n HIH s
        (pre ++ (an, RValue.none) :: rows.map (fun r => (r.2.1, RValue.none)))
        an t v h3 (by omega) h5 hwt
      simp only [hsa]
      rw [pyUpd_append_head pre an v RValue.none _ hfr]
      rw [show pre ++ ((an, v) :: rows.map (fun r => (r.2.1, RValue.none))) =
          (pre ++ [(an, v)]) ++ rows.map (fun r => (r.2.1, RValue.none))
        by simp]
      rw [show pre ++ ((an, v) :: rows.map (fun r => (r.2.1, r.2.2.2.2))) =
          (pre ++ [(an, v)]) ++ rows.map (fun r => (r.2.1, r.2.2.2.2))
        by simp]
      apply ih (pre ++ [(an, v)]) hrest hndt.1
      intro q hq
      simp only [List.map_append, List.mem_append]
      push_neg
      refine ⟨hfresh q (List.mem_cons_of_mem _ hq), ?_⟩
      simp only [List.map, List.mem_singleton]
      intro hq1
      apply hndt.2
      rw [← hq1]
      exact List.mem_map_of_mem (fun r => r.2.1) hq

/-- A constructor-argument row: argument name, required flag, attribute
name, stored value. -/
def crowsOf : List String → List Bool → List (String × RValue) →
    List (String × Bool × String × RValue)
  | arg :: args, r :: rs, (an, v) :: a => (arg, r, an, v) :: crowsOf args rs a
  | _, _, _ => []

/-- The argument names of an argument-row list. -/
theorem crowsOf_map_arg : ∀ (args : List String) (rs : List Bool)
    (a : List (String × RValue)),
    args.length = a.length → rs.length = a.length →
    (crowsOf args rs a).map (fun r => r.1) = args := by
  intro args
  induction args with
  | nil =>
    intro rs a h1 _
    cases a with
    | nil => rfl
    | cons p a => simp at h1
  | cons arg args ih =>
    intro rs a h1 h2
    cases a with
    | nil => simp at h1
    | cons p a =>
      obtain ⟨an, v⟩ := p
      cases rs with
      | nil => simp at h2
      | cons r rs =>
        simp only [crowsOf, List.map_cons]
        rw [ih rs a (by simpa using h1) (by simpa using h2)]

/-- The facts `__confirm_required_args` needs, row by row. -/
def CRowsLink (s : Schema) (attrs : List (String × RValue)) :
    List (String × Bool × String × RValue) → Prop
  | [] => True
  | (arg, r, an, v) :: rows =>
    alook (req_args_dict s) arg = some r ∧
    alook (arg_dict s) arg = some an ∧
    alook attrs an = some v ∧ (r = true → v ≠ RValue.none) ∧
    CRowsLink s attrs rows

/-- Building the argument-row facts from the declarations. -/
theorem crowsLink_build (s : Schema) (attrs : List (String × RValue))
    (hrnd : ((req_args_dict s).map Prod.fst).Nodup)
    (hadnd : ((arg_dict s).map Prod.fst).Nodup)
    (hand : (attrs.map Prod.fst).Nodup) :
    ∀ (args : List String) (ts : List DType) (rs : List Bool)
      (a : List (String × RValue)),
      (∀ p, p ∈ args.zip rs → p ∈ req_args_dict s) →
      (∀ p, p ∈ args.zip (a.map Prod.fst) → p ∈ arg_dict s) →
      (∀ p, p ∈ a → p ∈ attrs) →
      args.length = a.length → ts.length = a.length → rs.length = a.length →
      wtFields ts rs a →
      CRowsLink s attrs (crowsOf args rs a) := by
  intro args
  induction args with
  | nil =>
    intro ts rs a _ _ _ h1 _ _ _
    cases a with
    | nil => exact trivial
    | cons p a => simp at h1
  | cons arg args ih =>
    intro ts rs a hsub1 hsub2 hsub3 h1 h2 h3 hwf
    cases a with
    | nil => simp at h1
    | cons p a =>
      obtain ⟨an, v⟩ := p
      cases ts with
      | nil => simp at h2
      | cons t ts =>
        cases rs with
        | nil => simp at h3
        | cons r rs =>
          have hmemr : (arg, r) ∈ req_args_dict s := by
            apply hsub1
            rw [show (arg :: args).zip (r :: rs) =
              (arg, r) :: args.zip rs from rfl]
            exact List.mem_cons_self _ _
          have hmema : (arg, an) ∈ arg_dict s := by
            apply hsub2
            rw [show (((an, v) :: a).map Prod.fst) = an :: a.map Prod.fst
              from rfl]
            rw [show (arg :: args).zip (an :: a.map Prod.fst) =
              (arg, an) :: args.zip (a.map Prod.fst) from rfl]
            exact List.mem_cons_self _ _
          have hmemv : ((an, v) : String × RValue) ∈ attrs :=
            hsub3 _ (List.mem_cons_self _ _)
          refine ⟨alook_of_mem_nodup _ _ _ hrnd hmemr,
            alook_of_mem_nodup _ _ _ hadnd hmema,
            alook_of_mem_nodup _ _ _ hand hmemv, ?_, ?_⟩
          · intro hr hv0
            subst hr
            have hw1 := hwf.1
            rw [hv0] at hw1
            exact wtT_ne_none t hw1
          · apply ih ts rs a ?_ ?_ ?_ (by simpa using h1) (by simpa using h2)
              (by simpa using h3) hwf.2
            · intro p hp
              apply hsub1
              rw [show (arg :: args).zip (r :: rs) =
                (arg, r) :: args.zip rs from rfl]
              exact List.mem_cons_of_mem _ hp
            · intro p hp
              apply hsub2
              rw [show (((an, v) :: a).map Prod.fst) = an :: a.map Prod.fst
                from rfl]
              rw [show (arg :: args).zip (an :: a.map Prod.fst) =
                (arg, an) :: args.zip (a.map Prod.fst) from rfl]
              exact List.mem_cons_of_mem _ hp
            · intro p hp
              exact hsub3 p (List.mem_cons_of_mem _ hp)

/-- The `__confirm_required_args` collection loop finds nothing missing on
a well-typed instance. -/
theorem missingWalk_rows (s : Schema) (attrs : List (String × RValue)) :
    ∀ rows : List (String × Bool × String × RValue),
      CRowsLink s attrs rows →
      missingWalk s attrs (rows.map (fun r => r.1)) = .ok [] := by
  intro rows
  induction rows with
  | nil => intro _; rfl
  | cons row rows ih =>
    obtain ⟨arg, r, an, v⟩ := row
    intro hlink
    obtain ⟨h1, h2, h3, h4, hrest⟩ := hlink
    rw [show (((arg, r, an, v) :: rows).map (fun r => r.1)) =
      arg :: rows.map (fun r => r.1) from rfl]
    simp only [missingWalk, h1]
    cases r with
    | false =>
      rw [if_neg (by simp)]
      exact ih hrest
    | true =>
      rw [if_pos rfl]
      simp only [h2, h3]
      cases hv2 : v with
      | none => exact absurd hv2 (h4 rfl)
      | vBool b => subst hv2; exact ih hrest
      | vInt m => subst hv2; exact ih hrest
      | vStr t2 => subst hv2; exact ih hrest
      | vList xs => subst hv2; exact ih hrest
      | vDict fs => subst hv2; exact ih hrest
      | vEnum vs x => subst hv2; exact ih hrest
      | vObj s2 a2 => subst hv2; exact ih hrest
      | vXList e d xs => subst hv2; exact ih hrest

/-- Serialized field keys are drawn from the JSON names, in order. -/
theorem filterMap_keys_sublist (attrs : List (String × RValue))
    (ser : List (String × JValue)) :
    ∀ jd : List (String × String),
      ((jd.filterMap (encodeField attrs ser)).map Prod.fst).Sublist
        (jd.map Prod.fst) := by
  intro jd
  induction jd with
  | nil => exact List.Sublist.refl _
  | cons p jd ih =>
    rw [List.filterMap_cons]
    cases hfe : encodeField attrs ser p with
    | none =>
      simp only [List.map_cons]
      exact ih.cons _
    | some q =>
      have hq := encodeField_key attrs ser p q hfe
      simp only [List.map_cons, hq]
      exact ih.cons₂ _

/-- Every serialized field value of a well-typed instance has
duplicate-free object keys, given the bounded statement below the
instance's size. -/
theorem jwfP_rows (n : Nat) (HIH : ∀ m, m < n → RT m) (s : Schema)
    (attrs : List (String × RValue)) (hms : msizeFs attrs + 20 ≤ n) :
    ∀ rows : List (String × String × DType × Bool × RValue),
      RowsLink s attrs rows →
      jwfP ((rows.map (fun r => (r.1, r.2.1))).filterMap
        (encodeField attrs (serializeAttrs attrs))) = true := by
  intro rows
  induction rows with
  | nil => intro _; rfl
  | cons row rows ih =>
    obtain ⟨jn, an, t, r, v⟩ := row
    intro hlink
    obtain ⟨h1, h2, h3, h4, h5, h6, h7, hrest⟩ := hlink
    by_cases hv : v = RValue.none
    · subst hv
      have he : encodeField attrs (serializeAttrs attrs) (jn, an) =
          Option.none := by
        simp only [encodeField, h4]
      simp only [List.map_cons, List.filterMap_cons, he]
      exact ih hrest
    · have hwt : wtT t v := wtOpt_wtT t r v h6 hv
      have hser : alook (serializeAttrs attrs) an = some (serializeV v) := by
        rw [alook_serializeAttrs, h4]
        rfl
      have he : encodeField attrs (serializeAttrs attrs) (jn, an) =
          some (jn, serializeV v) := by
        cases hv2 : v with
        | none => exact absurd hv2 hv
        | vBool b => subst hv2; simp only [encodeField, h4, hser]
        | vInt m => subst hv2; simp only [encodeField, h4, hser]
        | vStr t2 => subst hv2; simp only [encodeField, h4, hser]
        | vList xs => subst hv2; simp only [encodeField, h4, hser]
        | vDict fs => subst hv2; simp only [encodeField, h4, hser]
        | vEnum vs x => subst hv2; simp only [encodeField, h4, hser]
        | vObj s2 a2 => subst hv2; simp only [encodeField, h4, hser]
        | vXList e d xs => subst hv2; simp only [encodeField, h4, hser]
      simp only [List.map_cons, List.filterMap_cons, he]
      have hn1 : 1 ≤ n := by
        have := msize_pos v
        omega
      have hjw : jwfV (serializeV v) = true :=
        (HIH (n - 1) (by omega)).2.2.2 t v (by omega) h5 hwt
      show (jwfV (serializeV v) &&
        jwfP ((rows.map (fun r => (r.1, r.2.1))).filterMap
          (encodeField attrs (serializeAttrs attrs)))) = true
      simp only [Bool.and_eq_true]
      exact ⟨hjw, ih hrest⟩

/-- Serialized scalar lists are well-formed. -/
theorem jwfL_scalars : ∀ xs : List RValue, wtScalars xs →
    jwfL (serializeList xs) = true := by
  intro xs
  induction xs with
  | nil => intro _; rfl
  | cons x xs ih =>
    intro h
    show (jwfV (serializeV x) && jwfL (serializeList xs)) = true
    simp only [Bool.and_eq_true]
    refine ⟨?_, ih h.2⟩
    have hx := h.1
    cases x <;> first | rfl | exact hx.elim

/-- Unpacking schema well-formedness. -/
theorem SWFs_spec (s : Schema) (h : SWFs s = true) :
    s.jsonNames.Nodup ∧ s.attrNames.Nodup ∧ (argNames s).Nodup ∧
    s.argNamesRaw.length = s.attrNames.length ∧
    s.attrTypes.length = s.attrNames.length ∧
    s.jsonNames.length = s.attrNames.length ∧
    SWFts s.attrTypes = true := by
  obtain ⟨name, args, attrs, types, jsons⟩ := s
  have e : SWFs (Schema.mk name args attrs types jsons) =
      (nodupStr jsons && nodupStr attrs &&
        nodupStr (process_arg_names args).1 &&
        (args.length == attrs.length) && (types.length == attrs.length) &&
        (jsons.length == attrs.length) && SWFts types) := rfl
  rw [e] at h
  simp only [Bool.and_eq_true, beq_iff_eq] at h
  exact ⟨nodupStr_nodup _ h.1.1.1.1.1.1, nodupStr_nodup _ h.1.1.1.1.1.2,
    nodupStr_nodup _ h.1.1.1.1.2, h.1.1.1.2, h.1.1.2, h.1.2, h.2⟩

/-- Under well-formedness, the JSON-to-attribute map is the zip itself. -/
theorem json_dict_eq (s : Schema) (h : SWFs s = true) :
    json_dict s = s.jsonNames.zip s.attrNames := by
  unfold json_dict
  apply pyDict_nodup
  rw [zip_map_fst]
  exact (SWFs_spec s h).1.sublist (List.take_sublist _ _)

/-- … with the JSON names as its keys. -/
theorem json_dict_fst (s : Schema) (h : SWFs s = true) :
    (json_dict s).map Prod.fst = s.jsonNames := by
  rw [json_dict_eq s h, zip_map_fst]
  exact List.take_of_length_le (by
    have := (SWFs_spec s h).2.2.2.2.2.1
    omega)

/-- … the attribute-to-type map is the zip itself. -/
theorem type_dict_eq (s : Schema) (h : SWFs s = true) :
    type_dict s = s.attrNames.zip s.attrTypes := by
  unfold type_dict
  apply pyDict_nodup
  rw [zip_map_fst]
  exact (SWFs_spec s h).2.1.sublist (List.take_sublist _ _)

/-- … with the attribute names as its keys. -/
theorem type_dict_fst (s : Schema) (h : SWFs s = true) :
    (type_dict s).map Prod.fst = s.attrNames := by
  rw [type_dict_eq s h, zip_map_fst]
  exact List.take_of_length_le (by
    have := (SWFs_spec s h).2.2.2.2.1
    omega)

/-- … the argument-to-attribute map is the zip itself. -/
theorem arg_dict_eq (s : Schema) (h : SWFs s = true) :
    arg_dict s = (argNames s).zip s.attrNames := by
  unfold arg_dict
  apply pyDict_nodup
  rw [zip_map_fst]
  exact (SWFs_spec s h).2.2.1.sublist (List.take_sublist _ _)

/-- … and so is the argument-to-required map. -/
theorem req_args_dict_eq (s : Schema) (h : SWFs s = true) :
    req_args_dict s = (argNames s).zip (reqFlags s) := by
  unfold req_args_dict
  apply pyDict_nodup
  rw [zip_map_fst]
  exact (SWFs_spec s h).2.2.1.sublist (List.take_sublist _ _)

/-- The keys of those two maps. -/
theorem arg_dict_fst (s : Schema) (h : SWFs s = true) :
    (arg_dict s).map Prod.fst = argNames s := by
  rw [arg_dict_eq s h, zip_map_fst]
  exact List.take_of_length_le (by
    have h1 := (process_arg_names_length s.argNamesRaw).1
    have := (SWFs_spec s h).2.2.2.1
    show (argNames s).length ≤ s.attrNames.length
    unfold argNames
    omega)

/-- … -/
theorem req_args_dict_fst (s : Schema) (h : SWFs s = true) :
    (req_args_dict s).map Prod.fst = argNames s := by
  rw [req_args_dict_eq s h, zip_map_fst]
  exact List.take_of_length_le (by
    have h1 := (process_arg_names_length s.argNamesRaw).1
    have h2 := (process_arg_names_length s.argNamesRaw).2
    show (argNames s).length ≤ (reqFlags s).length
    unfold argNames reqFlags
    omega)

/-- The row facts of a well-typed instance of a well-formed schema. -/
theorem rowsLink_of_wt (s : Schema) (attrs : List (String × RValue))
    (hswf : SWFs s = true) (hwt : wtI s attrs) :
    RowsLink s attrs (rowsOf s.jsonNames s.attrTypes (reqFlags s) attrs) := by
  obtain ⟨hmap, hwf⟩ := hwt
  obtain ⟨hnd1, hnd2, hnd3, hlen1, hlen2, hlen3, hts⟩ := SWFs_spec s hswf
  have halen : attrs.length = s.attrNames.length := by
    rw [← hmap]
    simp
  have hand : (attrs.map Prod.fst).Nodup := by rw [hmap]; exact hnd2
  apply rowsLink_build s attrs
    (by rw [json_dict_fst s hswf]; exact hnd1)
    (by rw [type_dict_fst s hswf]; exact hnd2)
    hand
    (fun k hk => by rw [json_dict_fst s hswf] at hk; exact hk)
    s.jsonNames s.attrTypes (reqFlags s) attrs
    ?_ ?_ (fun p hp => hp) (by omega) (by omega) ?_ hts hwf
  · intro p hp
    rw [hmap] at hp
    rw [json_dict_eq s hswf]
    exact hp
  · intro p hp
    rw [hmap] at hp
    rw [type_dict_eq s hswf]
    exact hp
  · have h2 := (process_arg_names_length s.argNamesRaw).2
    show (reqFlags s).length = attrs.length
    unfold reqFlags
    omega

/-- The argument-row facts of a well-typed instance of a well-formed
schema. -/
theorem crowsLink_of_wt (s : Schema) (attrs : List (String × RValue))
    (hswf : SWFs s = true) (hwt : wtI s attrs) :
    CRowsLink s attrs (crowsOf (argNames s) (reqFlags s) attrs) := by
  obtain ⟨hmap, hwf⟩ := hwt
  obtain ⟨hnd1, hnd2, hnd3, hlen1, hlen2, hlen3, hts⟩ := SWFs_spec s hswf
  have halen : attrs.length = s.attrNames.length := by
    rw [← hmap]
    simp
  have hand : (attrs.map Prod.fst).Nodup := by rw [hmap]; exact hnd2
  have hpl1 := (process_arg_names_length s.argNamesRaw).1
  have hpl2 := (process_arg_names_length s.argNamesRaw).2
  apply crowsLink_build s attrs
    (by rw [req_args_dict_fst s hswf]; exact hnd3)
    (by rw [arg_dict_fst s hswf]; exact hnd3)
    hand
    (argNames s) s.attrTypes (reqFlags s) attrs
    ?_ ?_ (fun p hp => hp) ?_ (by omega) ?_ hwf
  · intro p hp
    rw [req_args_dict_eq s hswf]
    exact hp
  · intro p hp
    rw [hmap] at hp
    rw [arg_dict_eq s hswf]
    exact hp
  · show (argNames s).length = attrs.length
    unfold argNames
    omega
  · show (reqFlags s).length = attrs.length
    unfold reqFlags
    omega

/-- `DynamicTeam`'s declaration is well-formed. -/
theorem swf_dynamicTeam : SWFs dynamicTeamSchema = true := by decide

/-- Serialized plain-collection elements are well-formed, given the
bounded value statement. -/
theorem jwfL_objs (n : Nat)
    (hser : ∀ t v, msize v ≤ n - 1 → SWFt t = true → wtT t v →
      jwfV (serializeV v) = true)
    (s2 : Schema) (hswf : SWFs s2 = true) :
    ∀ xs, msizeEls xs + 20 ≤ n → wtElems s2 xs →
      jwfL (serializeList xs) = true := by
  intro xs
  induction xs with
  | nil => intro _ _; rfl
  | cons x xs ihx =>
    intro hms hwt
    cases x
    case vObj s4 a =>
      obtain ⟨hx, hwtl⟩ := hwt
      obtain ⟨h4, h5⟩ := hx
      have hswf4 : SWFs s4 = true := by rw [h4]; exact hswf
      have h5b : a.map Prod.fst = s4.attrNames ∧
          wtFields s4.attrTypes (reqFlags s4) a := by rw [h4]; exact h5
      show (jwfV (serializeV (RValue.vObj s4 a)) &&
        jwfL (serializeList xs)) = true
      simp only [Bool.and_eq_true]
      have e2 : msizeEls (RValue.vObj s4 a :: xs) =
        (20 + msizeFs a) + 20 + msizeEls xs := rfl
      refine ⟨hser (.dObj s4) (RValue.vObj s4 a) ?_ hswf4 ⟨rfl, h5b⟩, ?_⟩
      · have e1 : msize (RValue.vObj s4 a) = 20 + msizeFs a := rfl
        omega
      · exact ihx (by omega) hwtl
    all_goals (obtain ⟨hx, -⟩ := hwt; exact hx.elim)

/-- Serialized discriminated-collection elements are well-formed, given
the bounded value statement. -/
theorem jwfL_recips (n : Nat)
    (hser : ∀ t v, msize v ≤ n - 1 → SWFt t = true → wtT t v →
      jwfV (serializeV v) = true) :
    ∀ xs, msizeEls xs + 20 ≤ n → wtRecips xs →
      jwfL (serializeList xs) = true := by
  intro xs
  induction xs with
  | nil => intro _ _; rfl
  | cons x xs ihx =>
    intro hms hwt
    cases x
    case vObj s4 a =>
      obtain ⟨hx, hwtl⟩ := hwt
      obtain ⟨h6, h7, _, _, _⟩ := hx
      subst h6
      show (jwfV (serializeV (RValue.vObj dynamicTeamSchema a)) &&
        jwfL (serializeList xs)) = true
      simp only [Bool.and_eq_true]
      have e2 : msizeEls (RValue.vObj dynamicTeamSchema a :: xs) =
        (20 + msizeFs a) + 20 + msizeEls xs := rfl
      refine ⟨hser (.dObj dynamicTeamSchema)
        (RValue.vObj dynamicTeamSchema a) ?_ swf_dynamicTeam ⟨rfl, h7⟩, ?_⟩
      · have e1 : msize (RValue.vObj dynamicTeamSchema a) =
          20 + msizeFs a := rfl
        omega
      · exact ihx (by omega) hwtl
    all_goals (obtain ⟨hx, -⟩ := hwt; exact hx.elim)

/-- The four round-trip statements hold at every size bound: decoding the
serialized form of a strictly well-typed instance of a well-formed schema
reconstructs the instance exactly, and likewise through both collection
loops; and every serialized well-typed value parses back (its object
layers carry duplicate-free keys). -/
theorem decodeEncodeAll : ∀ n : Nat, RT n := by
  intro n
  induction n using Nat.strong_induction_on with
  | _ n HIH =>
  refine ⟨?_, ?_, ?_, ?_⟩
  · intro s attrs hms hswf hwt
    obtain ⟨hnd1, hnd2, hnd3, hlen1, hlen2, hlen3, hts⟩ := SWFs_spec s hswf
    have hmap := hwt.1
    have halen : attrs.length = s.attrNames.length := by rw [← hmap]; simp
    have hand : (attrs.map Prod.fst).Nodup := by rw [hmap]; exact hnd2
    have hL1 : s.jsonNames.length = attrs.length := by omega
    have hL2 : s.attrTypes.length = attrs.length := by omega
    have hL3 : (reqFlags s).length = attrs.length := by
      have := (process_arg_names_length s.argNamesRaw).2
      show (reqFlags s).length = attrs.length
      unfold reqFlags
      omega
    have hlink := rowsLink_of_wt s attrs hswf hwt
    have hndan : ((rowsOf s.jsonNames s.attrTypes (reqFlags s) attrs).map
        (fun r => r.2.1)).Nodup := by
      rw [rowsOf_map_an _ _ _ _ hL1 hL2 hL3]
      exact hand
    have hwalk := procDict_rows n HIH s attrs hms
      (rowsOf s.jsonNames s.attrTypes (reqFlags s) attrs) [] hlink hndan
      (by intro r hr; simp)
    have hdict : encodeFields s attrs (serializeAttrs attrs) =
        ((rowsOf s.jsonNames s.attrTypes (reqFlags s) attrs).map
          (fun r => (r.1, r.2.1))).filterMap
          (encodeField attrs (serializeAttrs attrs)) := by
      rw [encodeFields_eq, rowsOf_map_jd _ _ _ _ hL1 hL2 hL3,
        json_dict_eq s hswf, ← hmap]
    have hinit : initAttrs s =
        [] ++ (rowsOf s.jsonNames s.attrTypes (reqFlags s) attrs).map
          (fun r => (r.2.1, RValue.none)) := by
      rw [rowsOf_map_none _ _ _ _ hL1 hL2 hL3, initAttrs_eq s hnd2, ← hmap]
      simp [Function.comp]
    have hattrs : [] ++ (rowsOf s.jsonNames s.attrTypes (reqFlags s) attrs).map
        (fun r => (r.2.1, r.2.2.2.2)) = attrs := by
      rw [rowsOf_map_attr _ _ _ _ hL1 hL2 hL3]
      simp
    have hargnames : (argNames s).length = attrs.length := by
      have := (process_arg_names_length s.argNamesRaw).1
      show (argNames s).length = attrs.length
      unfold argNames
      omega
    have hconf : confirm_required_args s attrs = .ok () := by
      unfold confirm_required_args
      rw [show argNames s =
          (crowsOf (argNames s) (reqFlags s) attrs).map (fun r => r.1) from
        (crowsOf_map_arg _ _ _ hargnames hL3).symm]
      rw [missingWalk_rows s attrs _ (crowsLink_of_wt s attrs hswf hwt)]
    rw [hdict, constructDict_eq, hinit]
    simp only [hwalk, hattrs, procKw_nil, hconf]
  · intro s xs
    induction xs with
    | nil => intro _ _ _; rfl
    | cons x xs ihx =>
      intro hms hswf hwt
      cases x
      case vObj s2 a =>
        obtain ⟨hx, hwtl⟩ := hwt
        obtain ⟨h1, h2⟩ := hx
        subst h1
        have hm : msizeFs a < n := by
          have e : msizeEls (RValue.vObj s2 a :: xs) =
            (20 + msizeFs a) + 20 + msizeEls xs := rfl
          omega
        have hms2 : msizeEls xs ≤ n := by
          have e : msizeEls (RValue.vObj s2 a :: xs) =
            (20 + msizeFs a) + 20 + msizeEls xs := rfl
          omega
        rw [show ofJList (serializeList (RValue.vObj s2 a :: xs)) =
            RValue.vDict (ofJPairs (encodeFields s2 a (serializeAttrs a))) ::
              ofJList (serializeList xs) from rfl]
        rw [xlistElems_cons]
        have hcd : constructDict s2
            (ofJPairs (encodeFields s2 a (serializeAttrs a))) [] =
            .ok (s2, a) :=
          (HIH (msizeFs a) hm).1 s2 a (Nat.le_refl _) hswf h2
        simp only [constructElem_plain_dict, hcd, ihx hms2 hswf hwtl]
      all_goals (obtain ⟨hx, -⟩ := hwt; exact hx.elim)
  · intro xs
    induction xs with
    | nil => intro _ _; rfl
    | cons x xs ihx =>
      intro hms hwt
      cases x
      case vObj s2 a =>
        obtain ⟨hx, hwtl⟩ := hwt
        obtain ⟨h1, h2, hrt, hs1, hs2⟩ := hx
        subst h1
        have hm : msizeFs a < n := by
          have e : msizeEls (RValue.vObj dynamicTeamSchema a :: xs) =
            (20 + msizeFs a) + 20 + msizeEls xs := rfl
          omega
        have hms2 : msizeEls xs ≤ n := by
          have e : msizeEls (RValue.vObj dynamicTeamSchema a :: xs) =
            (20 + msizeFs a) + 20 + msizeEls xs := rfl
          omega
        rw [show ofJList (serializeList (RValue.vObj dynamicTeamSchema a :: xs)) =
            RValue.vDict (ofJPairs
              (encodeFields dynamicTeamSchema a (serializeAttrs a))) ::
              ofJList (serializeList xs) from rfl]
        rw [xlistElems_cons]
        have hlook : alook (ofJPairs
            (encodeFields dynamicTeamSchema a (serializeAttrs a)))
            "recipientType" = some (RValue.vStr "DYNAMIC_TEAM") := by
          rw [alook_ofJPairs]
          rw [alook_encodeFields dynamicTeamSchema a (serializeAttrs a)
            "recipientType" "recipient_type"
            (.vEnum recipientTypeVals "DYNAMIC_TEAM") (.str "DYNAMIC_TEAM")
            (by decide) (by decide) hrt
            (by intro h0; exact RValue.noConfusion h0) ?_]
          · rfl
          · rw [alook_serializeAttrs, hrt]
            rfl
        have hgrc : get_real_class (.vDict (ofJPairs
            (encodeFields dynamicTeamSchema a (serializeAttrs a)))) =
            .ok RClass.dynTeam := by
          simp only [get_real_class, hlook]
          rfl
        have hcd : constructDict dynamicTeamSchema
            (ofJPairs (encodeFields dynamicTeamSchema a (serializeAttrs a)))
            [] = .ok (dynamicTeamSchema, a) :=
          (HIH (msizeFs a) hm).1 dynamicTeamSchema a (Nat.le_refl _)
            swf_dynamicTeam h2
        have hpost : dynTeamPost (dynamicTeamSchema, a) =
            (dynamicTeamSchema, a) := by
          obtain ⟨w, hw⟩ : ∃ w, alook a "status" = some w := by
            cases hst : alook a "status" with
            | none => exact absurd hst hs2
            | some w => exact ⟨w, rfl⟩
          have hwne : w ≠ RValue.none := by
            intro h0
            rw [h0] at hw
            exact hs1 hw
          unfold dynTeamPost
          simp only [hrt, hw]
          cases w <;> first | (exact absurd rfl hwne) | rfl
        simp only [constructElem_disc_dict, hgrc, hcd, hpost,
          ihx hms2 hwtl]
      all_goals (obtain ⟨hx, -⟩ := hwt; exact hx.elim)
  · intro t v hsz hswf hwt
    cases t with
    | dInt =>
      cases v <;> first | exact hwt.elim | rfl
    | dStr =>
      cases v <;> first | exact hwt.elim | rfl
    | dBool =>
      cases v <;> first | exact hwt.elim | rfl
    | dEnum vs =>
      cases v <;> first | exact hwt.elim | rfl
    | dList =>
      cases v <;> try exact hwt.elim
      case vList xs =>
        show jwfL (serializeList xs) = true
        exact jwfL_scalars xs hwt
    | dObj s2 =>
      cases v <;> try exact hwt.elim
      case vObj s3 a =>
        obtain ⟨h1, h2⟩ := hwt
        subst h1
        show (nodupStr ((encodeFields s3 a (serializeAttrs a)).map Prod.fst) &&
          jwfP (encodeFields s3 a (serializeAttrs a))) = true
        simp only [Bool.and_eq_true]
        constructor
        · apply nodupStr_of_nodup
          have hsub : ((encodeFields s3 a
              (serializeAttrs a)).map Prod.fst).Sublist
              ((json_dict s3).map Prod.fst) := by
            rw [encodeFields_eq]
            exact filterMap_keys_sublist a (serializeAttrs a) (json_dict s3)
          apply hsub.nodup
          rw [json_dict_fst s3 hswf]
          exact (SWFs_spec s3 hswf).1
        · have hms : msizeFs a + 20 ≤ n := by
            have e : msize (RValue.vObj s3 a) = 20 + msizeFs a := rfl
            omega
          have hL1 : s3.jsonNames.length = a.length := by
            obtain ⟨hnd1, hnd2, hnd3, hlen1, hlen2, hlen3, hts⟩ :=
              SWFs_spec s3 hswf
            have : a.length = s3.attrNames.length := by
              rw [← h2.1]
              simp
            omega
          have hL2 : s3.attrTypes.length = a.length := by
            obtain ⟨hnd1, hnd2, hnd3, hlen1, hlen2, hlen3, hts⟩ :=
              SWFs_spec s3 hswf
            have : a.length = s3.attrNames.length := by
              rw [← h2.1]
              simp
            omega
          have hL3 : (reqFlags s3).length = a.length := by
            obtain ⟨hnd1, hnd2, hnd3, hlen1, hlen2, hlen3, hts⟩ :=
              SWFs_spec s3 hswf
            have h4 : a.length = s3.attrNames.length := by
              rw [← h2.1]
              simp
            have := (process_arg_names_length s3.argNamesRaw).2
            show (reqFlags s3).length = a.length
            unfold reqFlags
            omega
          have hdict : encodeFields s3 a (serializeAttrs a) =
              ((rowsOf s3.jsonNames s3.attrTypes (reqFlags s3) a).map
                (fun r => (r.1, r.2.1))).filterMap
                (encodeField a (serializeAttrs a)) := by
            rw [encodeFields_eq, rowsOf_map_jd _ _ _ _ hL1 hL2 hL3,
              json_dict_eq s3 hswf, ← h2.1]
          rw [hdict]
          exact jwfP_rows n HIH s3 a hms _ (rowsLink_of_wt s3 a hswf h2)
    | dXList s2 disc =>
      cases v <;> try exact hwt.elim
      case vXList s3 disc2 xs =>
        obtain ⟨h1, h2, h3⟩ := hwt
        show jwfL (serializeList xs) = true
        have hn1 : 1 ≤ n := by
          have := msize_pos (RValue.vXList s3 disc2 xs)
          omega
        have hszel : msizeEls xs + 20 ≤ n := by
          have e : msize (RValue.vXList s3 disc2 xs) = 20 + msizeEls xs := rfl
          omega
        have hser : ∀ t v, msize v ≤ n - 1 → SWFt t = true → wtT t v →
            jwfV (serializeV v) = true :=
          fun t v hv hs hw => (HIH (n - 1) (by omega)).2.2.2 t v hv hs hw
        subst h2
        cases disc2 with
        | false =>
          have h3b : wtElems s2 xs := h3
          have hswf2 : SWFs s2 = true := hswf
          exact jwfL_objs n hser s2 hswf2 xs hszel h3b
        | true =>
          obtain ⟨h4, h5⟩ := h3
          exact jwfL_recips n hser xs hszel h5

/-- C1, amended.  The round-trip law holds on every well-formed schema
declaration and every strictly well-typed instance: decoding the compact
JSON text of `XmattersBase.json` through `from_json_str` reconstructs
exactly the original instance.  Strict well-typedness (`wtI`) rather than
mere populatedness of required attributes is needed:
`claim_C1_counterexample` exhibits a constructible instance, all required
attributes populated, whose encoding the decoder rejects. -/
theorem claim_C1_round_trip (s : Schema) (attrs : List (String × RValue))
    (hswf : SWFs s = true) (hwt : wtI s attrs) :
    from_json_str s (jsonProp s attrs) = .ok (s, attrs) := by
  have hwtT : wtT (.dObj s) (.vObj s attrs) := ⟨rfl, hwt⟩
  have hjwf : jwfV (serializeV (.vObj s attrs)) = true :=
    (decodeEncodeAll (msize (RValue.vObj s attrs))).2.2.2 (.dObj s)
      (.vObj s attrs) (Nat.le_refl _) hswf hwtT
  unfold from_json_str jsonProp
  rw [jsonLoads_render _ hjwf]
  show from_json_obj s (ofJ (serializeV (.vObj s attrs))) = .ok (s, attrs)
  have he : ofJ (serializeV (.vObj s attrs)) =
      .vDict (ofJPairs (encodeFields s attrs (serializeAttrs attrs))) := rfl
  rw [he]
  show construct s
    [.vDict (ofJPairs (encodeFields s attrs (serializeAttrs attrs)))] [] =
    .ok (s, attrs)
  rw [construct_single_dict]
  exact (decodeEncodeAll (msizeFs attrs)).1 s attrs (Nat.le_refl _) hswf hwt

/-- The round trip at a concrete `PaginationLinks` instance: required
`self` populated, optional `previous` and `next` left `None`. -/
theorem claim_C1_witness :
    SWFs paginationLinksSchema = true ∧
    wtI paginationLinksSchema
      [("self", .vStr "u"), ("previous", RValue.none), ("next", RValue.none)] ∧
    from_json_str paginationLinksSchema
        (jsonProp paginationLinksSchema
          [("self", .vStr "u"), ("previous", RValue.none),
           ("next", RValue.none)]) =
      .ok (paginationLinksSchema,
        [("self", .vStr "u"), ("previous", RValue.none),
         ("next", RValue.none)]) :=
  ⟨by decide, ⟨rfl, ⟨trivial, Or.inl rfl, Or.inl rfl, trivial⟩⟩,
   claim_C1_round_trip paginationLinksSchema
     [("self", .vStr "u"), ("previous", RValue.none), ("next", RValue.none)]
     (by decide) ⟨rfl, ⟨trivial, Or.inl rfl, Or.inl rfl, trivial⟩⟩⟩

end Xm
